import Mathlib

/-!
Verification of the read-path and table-format core of a leveldb-style
LSM key/value store.  The C++ sources are shallowly embedded: byte strings
become `List Nat`, machine integers become `Nat` (with explicit `% 2 ^ 32`
where 32-bit wrap matters), stateful iterators become explicit state-passing
functions, and external collaborators (comparator, filter policy, files,
compressor) become function parameters, as the specification keeps them
abstract.  Theorems at the end of the file settle the frozen claims about
`db/db_iter.cc`, `table/merger.cc`, `table/filter_block.cc`,
`table/table_builder.cc` and `table/table.cc`.
-/

namespace LevelDB

/-- Byte strings (user keys, values, encoded blocks) are lists of naturals;
a well-formed byte has value `< 256`, which is stated only where it matters. -/
abbrev Bytes := List Nat

/-- Status kinds of `leveldb::Status` (spec section 7). -/
inductive Status where
  | ok
  | notFound
  | corruption
  | ioError
  | notSupported
  | invalidArgument
deriving DecidableEq, Repr

/-- Compression type byte stored in a block trailer (`include/leveldb/options.h`). -/
inductive CompressionType where
  | noCompression
  | snappyCompression
deriving DecidableEq, Repr

/-- Numeric trailer byte of a `CompressionType` (`kNoCompression = 0`,
`kSnappyCompression = 1`). -/
def CompressionType.byte : CompressionType → Nat
  | .noCompression => 0
  | .snappyCompression => 1

/-- DecodeFixed32 (`util/coding.h`): little-endian 32-bit load at byte
position `p`; bytes outside the string read as `0`, a case the verified
call sites never reach. -/
def decodeFixed32 (s : Bytes) (p : Nat) : Nat :=
  s.getD p 0 + 256 * s.getD (p + 1) 0 + 65536 * s.getD (p + 2) 0 +
    16777216 * s.getD (p + 3) 0

/-- PutFixed32 (`util/coding.cc`): little-endian 4-byte encoding of the low
32 bits of `v`. -/
def putFixed32 (v : Nat) : Bytes :=
  [v % 256, v / 256 % 256, v / 65536 % 256, v / 16777216 % 256]

/-! ### Filter block reader (`table/filter_block.cc`, `FilterBlockReader`)

The reader's constructor decodes the trailing `base_lg_` byte and the
fixed32 giving the start of the offset array; `KeyMayMatch` then slices one
filter out of the contents.  The filter policy's `KeyMayMatch(key, filter)`
is the abstract parameter `policy`. -/

/-- Parsed fields of a `FilterBlockReader`: the raw contents together with
`num_`, the offset-array position (`offset_ - data_`) and `base_lg_`. -/
structure FilterBlockReader where
  bytes : Bytes
  num : Nat
  lastWord : Nat
  baseLg : Nat
deriving DecidableEq, Repr

/-- `FilterBlockReader::FilterBlockReader`: fields default to zero and `num_`
stays `0` (so every query returns `true`) when the contents are shorter than
5 bytes or the offset-array position overruns the block. -/
def mkFilterBlockReader (contents : Bytes) : FilterBlockReader :=
  let n := contents.length
  if n < 5 then ⟨contents, 0, 0, 0⟩
  else
    let baseLg := contents.getD (n - 1) 0
    let lastWord := decodeFixed32 contents (n - 5)
    if lastWord > n - 5 then ⟨contents, 0, lastWord, baseLg⟩
    else ⟨contents, (n - 5 - lastWord) / 4, lastWord, baseLg⟩

/-- `FilterBlockReader::KeyMayMatch`.  The filter for window
`block_offset >> base_lg_` is the byte range `[start, limit)` of the
contents; when `start ≤ limit ≤ lastWord` the policy decides (even for an
empty range), when `start = limit` fails that bound the result is a
definitive `false`, and any other malformed offsets answer `true`. -/
def keyMayMatch (policy : Bytes → Bytes → Bool) (r : FilterBlockReader)
    (blockOffset : Nat) (key : Bytes) : Bool :=
  let index := blockOffset >>> r.baseLg
  if index < r.num then
    let start := decodeFixed32 r.bytes (r.lastWord + 4 * index)
    let limit := decodeFixed32 r.bytes (r.lastWord + 4 * index + 4)
    if start ≤ limit ∧ limit ≤ r.lastWord then
      policy key ((r.bytes.drop start).take (limit - start))
    else if start = limit then
      false
    else
      true
  else
    true

/-! ### Filter block builder (`table/filter_block.cc`, `FilterBlockBuilder`)

State: the flattened key buffer `keys_`, the start offsets `start_`, the
filter bytes emitted so far `result_` and the per-filter offsets
`filter_offsets_`.  `CreateFilter` of the policy is the abstract parameter
`cf`. -/

/-- Builder state, mirroring the private fields of `FilterBlockBuilder`. -/
structure FilterBlockBuilder where
  keysBuf : Bytes
  starts : List Nat
  result : Bytes
  filterOffsets : List Nat
deriving DecidableEq, Repr

/-- The empty builder. -/
def FilterBlockBuilder.init : FilterBlockBuilder := ⟨[], [], [], []⟩

/-- `FilterBlockBuilder::AddKey`: record the key's start position and append
its bytes to the flattened buffer. -/
def FilterBlockBuilder.addKey (b : FilterBlockBuilder) (k : Bytes) :
    FilterBlockBuilder :=
  { b with starts := b.starts ++ [b.keysBuf.length], keysBuf := b.keysBuf ++ k }

/-- `FilterBlockBuilder::GenerateFilter`: with no pending keys just record
`result_.size()` as the next filter offset; otherwise rebuild the key list
from the flattened buffer, append `cf` of it to `result_`, record the offset
and clear the key state. -/
def FilterBlockBuilder.generateFilter (cf : List Bytes → Bytes)
    (b : FilterBlockBuilder) : FilterBlockBuilder :=
  if b.starts.length = 0 then
    { b with filterOffsets := b.filterOffsets ++ [b.result.length] }
  else
    let starts2 := b.starts ++ [b.keysBuf.length]
    let tmpKeys := (List.range b.starts.length).map fun i =>
      (b.keysBuf.drop (starts2.getD i 0)).take
        (starts2.getD (i + 1) 0 - starts2.getD i 0)
    { keysBuf := [], starts := [],
      result := b.result ++ cf tmpKeys,
      filterOffsets := b.filterOffsets ++ [b.result.length] }

/-- Loop body of `FilterBlockBuilder::StartBlock`: `while (filter_index >
filter_offsets_.size()) GenerateFilter();`.  Each `GenerateFilter` call
appends exactly one offset, so `filterIndex` is always enough fuel for the
loop to reach its exit condition. -/
def FilterBlockBuilder.startBlockGo (cf : List Bytes → Bytes)
    (filterIndex : Nat) :
    Nat → FilterBlockBuilder → FilterBlockBuilder
  | 0, b => b
  | fuel + 1, b =>
    if b.filterOffsets.length < filterIndex then
      FilterBlockBuilder.startBlockGo cf filterIndex fuel (b.generateFilter cf)
    else b

/-- `FilterBlockBuilder::StartBlock` for `block_offset`; the filter window
index is `block_offset / kFilterBase` with `kFilterBase = 2048`. -/
def FilterBlockBuilder.startBlock (cf : List Bytes → Bytes)
    (blockOffset : Nat) (b : FilterBlockBuilder) : FilterBlockBuilder :=
  FilterBlockBuilder.startBlockGo cf (blockOffset / 2048)
    (blockOffset / 2048) b

/-- `FilterBlockBuilder::Finish`: flush pending keys, append the fixed32
offset array, the fixed32 position of that array, and the `base_lg_ = 11`
byte. -/
def FilterBlockBuilder.finish (cf : List Bytes → Bytes)
    (b : FilterBlockBuilder) : Bytes :=
  let b1 := if b.starts.length ≠ 0 then b.generateFilter cf else b
  let arrayOffset := b1.result.length
  b1.result ++ (b1.filterOffsets.map putFixed32).flatten ++
    putFixed32 arrayOffset ++ [11]

/-! #### Filter builder call sequences (claim C4)

The builder interface is exercised through call sequences matching
`(StartBlock AddKey*)* Finish`.  A ghost view tracks which keys went into
which filter: the committed key groups (one per generated filter, in
order) plus the pending keys. -/

/-- One call to the filter-block builder. -/
inductive FOp where
  | start (blockOffset : Nat)
  | add (k : Bytes)
deriving DecidableEq, Repr

/-- Run a call sequence against a builder state. -/
def runFilterOps (cf : List Bytes → Bytes) (b : FilterBlockBuilder) :
    List FOp → FilterBlockBuilder
  | [] => b
  | .start o :: ops =>
    runFilterOps cf (FilterBlockBuilder.startBlock cf o b) ops
  | .add k :: ops => runFilterOps cf (b.addKey k) ops

/-- Ghost step: `AddKey` appends to the pending keys; `StartBlock` flushes
the pending keys into the next filter group (then pads with empty groups)
exactly when the target window index exceeds the number of groups. -/
def specFBStep (st : List (List Bytes) × List Bytes) :
    FOp → List (List Bytes) × List Bytes
  | .add k => (st.1, st.2 ++ [k])
  | .start o =>
    if st.1.length < o / 2048 then
      (st.1 ++ [st.2] ++ List.replicate (o / 2048 - st.1.length - 1) [], [])
    else st

/-- Ghost run over a call sequence. -/
def specFB (st : List (List Bytes) × List Bytes) :
    List FOp → List (List Bytes) × List Bytes
  | [] => st
  | op :: ops => specFB (specFBStep st op) ops

/-- The groups that end up in the finished block: `Finish` flushes pending
keys into one final filter. -/
def fbFinalGroups (st : List (List Bytes) × List Bytes) :
    List (List Bytes) :=
  if st.2.length = 0 then st.1 else st.1 ++ [st.2]

/-- Filter bytes of one key group: an empty group contributes no bytes, a
nonempty one the policy's `CreateFilter` output. -/
def filterBytes (cf : List Bytes → Bytes) (g : List Bytes) : Bytes :=
  if g.length = 0 then [] else cf g

/-- Concatenated filter data of the groups (the builder's `result_`). -/
def resultOf (cf : List Bytes → Bytes) (gs : List (List Bytes)) : Bytes :=
  (gs.map (filterBytes cf)).flatten

/-- Start positions of the parts of a flattened list (the builder's
`start_` for the pending keys, and with `filterBytes` mapped over the
groups its `filter_offsets_`). -/
def startsOf (parts : List Bytes) : List Nat :=
  (List.range parts.length).map fun i => ((parts.take i).flatten).length

/-- The byte string `Finish` produces for the final groups. -/
def filterContents (cf : List Bytes → Bytes) (gs : List (List Bytes)) :
    Bytes :=
  resultOf cf gs ++
    ((startsOf (gs.map (filterBytes cf))).map putFixed32).flatten ++
    putFixed32 (resultOf cf gs).length ++ [11]

/-- Invariant tying a builder state to its ghost view. -/
def fbInv (cf : List Bytes → Bytes) (gs : List (List Bytes))
    (pend : List Bytes) (b : FilterBlockBuilder) : Prop :=
  b.keysBuf = pend.flatten ∧ b.starts = startsOf pend ∧
    b.result = resultOf cf gs ∧
    b.filterOffsets = startsOf (gs.map (filterBytes cf))

/-- The block offsets passed to the `StartBlock` calls of a sequence. -/
def startOffsets : List FOp → List Nat
  | [] => []
  | .start o :: ops => o :: startOffsets ops
  | .add _ :: ops => startOffsets ops

/-- The largest filter-window index targeted by a call sequence. -/
def maxWindow (ops : List FOp) : Nat :=
  (startOffsets ops).foldr (fun o acc => max (o / 2048) acc) 0

/-- Ghost location of a key destined for filter window `w`: either it is
still pending with exactly `w` committed groups, or it sits inside
committed group `w`. -/
def keyAt (w : Nat) (k : Bytes) (st : List (List Bytes) × List Bytes) :
    Prop :=
  (st.1.length = w ∧ k ∈ st.2) ∨ (w < st.1.length ∧ k ∈ st.1.getD w [])

/-! ### DB iterator (`db/db_iter.cc`)

`DBIter` collapses multi-version internal entries `(user_key, seq, type,
value)` into user-visible entries at a snapshot sequence.  User keys and
values are embedded as naturals (the user comparator becomes the order on
`Nat`), and the wrapped internal iterator becomes the list of internal
entries it yields, in its forward order. -/

/-- Internal entry type (`db/dbformat.h`): `kTypeDeletion` or `kTypeValue`. -/
inductive ValueType where
  | typeDeletion
  | typeValue
deriving DecidableEq, Repr

/-- One internal entry of the database representation.  For a deletion the
`val` field is unused. -/
structure InternalEntry where
  userKey : Nat
  seq : Nat
  ty : ValueType
  val : Nat
deriving DecidableEq, Repr

/-- Order of internal keys (`InternalKeyComparator`): ascending user key,
then descending sequence.  Entries with equal `(userKey, seq)` do not occur
in a database, so the type tie-break is not modelled. -/
def entryLT (a b : InternalEntry) : Prop :=
  a.userKey < b.userKey ∨ (a.userKey = b.userKey ∧ b.seq < a.seq)

instance : DecidableRel entryLT := fun a b => by
  unfold entryLT; infer_instance

/-- A well-formed internal iterator yields entries strictly increasing in
internal-key order. -/
def InternalSorted (l : List InternalEntry) : Prop := l.Pairwise entryLT

instance (l : List InternalEntry) : Decidable (InternalSorted l) := by
  unfold InternalSorted; infer_instance

/-- Forward collapsing scan: `DBIter::FindNextUserEntry` fused with the loop
of repeated `DBIter::Next` calls.  The `skip` argument is the pair of the
C++ `skipping` flag and `*skip` buffer (`none` when `skipping` is false).
An entry with `seq ≤ snap`:
a deletion records its user key in `skip`; a value hidden by `skip`
(user key `≤ *skip`) is dropped; any other value is yielded, after which
`Next` stores the accepted user key in `saved_key_`, steps the internal
iterator and re-enters `FindNextUserEntry(true, &saved_key_)`.  Entries with
`seq > snap` are passed over without touching the state. -/
def dbForward (snap : Nat) : List InternalEntry → Option Nat → List (Nat × Nat)
  | [], _ => []
  | e :: rest, skip =>
    if e.seq ≤ snap then
      match e.ty with
      | .typeDeletion => dbForward snap rest (some e.userKey)
      | .typeValue =>
        match skip with
        | some sk =>
          if e.userKey ≤ sk then dbForward snap rest skip
          else (e.userKey, e.val) :: dbForward snap rest (some e.userKey)
        | none => (e.userKey, e.val) :: dbForward snap rest (some e.userKey)
    else dbForward snap rest skip

/-- Backward collapsing scan: `DBIter::FindPrevUserEntry` fused with the
loop of repeated `DBIter::Prev` calls, applied to the entries at and before
the internal iterator's position in backward order (so `SeekToLast` on the
database `l` runs this on `l.reverse`).  The state `st` is `saved_key_` /
`saved_value_` (`none` while `value_type == kTypeDeletion`).  An entry with
`seq ≤ snap` whose user key is below the saved key breaks the loop and
yields the saved pair, and the following `Prev` call restarts the scan at
that same entry with a cleared state, which processes the entry directly;
otherwise the entry overwrites the state (clearing it for a deletion).
Falling off the front yields the saved pair if one is held. -/
def dbBackward (snap : Nat) :
    List InternalEntry → Option (Nat × Nat) → List (Nat × Nat)
  | [], st => match st with
    | none => []
    | some p => [p]
  | e :: rest, st =>
    if e.seq ≤ snap then
      let step : Option (Nat × Nat) :=
        match e.ty with
        | .typeDeletion => none
        | .typeValue => some (e.userKey, e.val)
      match st with
      | some (u, v) =>
        if e.userKey < u then (u, v) :: dbBackward snap rest step
        else dbBackward snap rest step
      | none => dbBackward snap rest step
    else dbBackward snap rest st

/-- The entry with the largest sequence `≤ snap` in a list of entries
(`none` when every sequence exceeds the snapshot).  This is the
specification-side notion of the newest visible version of a user key. -/
def newestLE (snap : Nat) : List InternalEntry → Option InternalEntry
  | [] => none
  | e :: es =>
    match newestLE snap es with
    | none => if e.seq ≤ snap then some e else none
    | some a => if e.seq ≤ snap ∧ a.seq < e.seq then some e else some a

/-- Distinct values of a list, first occurrence first, skipping values in
the accumulator `seen`. -/
def distinctKeysAux (seen : List Nat) : List Nat → List Nat
  | [] => []
  | u :: rest =>
    if u ∈ seen then distinctKeysAux seen rest
    else u :: distinctKeysAux (u :: seen) rest

/-- User keys of a list of entries, first occurrence first. -/
def distinctKeys (ks : List Nat) : List Nat := distinctKeysAux [] ks

/-- The saved-state update performed by the loop body of
`FindPrevUserEntry` on a run of entries (oldest first): each entry with
`seq ≤ snap` overwrites the saved pair (a deletion clears it), others leave
it alone. -/
def dbBackStep (snap : Nat) (st : Option (Nat × Nat)) :
    List InternalEntry → Option (Nat × Nat)
  | [] => st
  | e :: gr =>
    if e.seq ≤ snap then
      dbBackStep snap
        (match e.ty with
         | .typeDeletion => none
         | .typeValue => some (e.userKey, e.val)) gr
    else dbBackStep snap st gr

/-- Specification-side visible contents of the database at snapshot `snap`
(spec section 8, property 1): for each user key in order, the newest entry
with `seq ≤ snap`, dropping the key when that entry is a deletion. -/
def specVisible (snap : Nat) (l : List InternalEntry) : List (Nat × Nat) :=
  (distinctKeys (l.map (·.userKey))).filterMap fun u =>
    match newestLE snap (l.filter fun e => e.userKey == u) with
    | none => none
    | some e =>
      match e.ty with
      | .typeDeletion => none
      | .typeValue => some (u, e.val)

/-- The visible contribution of one user key `u` whose entries are `g`:
nothing if no version is visible at the snapshot or the newest visible
version is a deletion, otherwise the single pair carrying its value. -/
def groupYield (snap u : Nat) (g : List InternalEntry) : List (Nat × Nat) :=
  match newestLE snap g with
  | none => []
  | some e =>
    match e.ty with
    | .typeDeletion => []
    | .typeValue => [(u, e.val)]

/-! ### Merging iterator (`table/merger.cc`)

A child iterator is embedded as its sorted list of `(key, value)` entries
plus a position (`none` when invalid); keys are naturals and the shared
comparator is the order on `Nat`.  The same structure doubles as the
reference single iterator over the materialized merge. -/

/-- A leveldb iterator over a fixed sorted list of entries: the block,
memtable and two-level iterators all present this interface to the merger. -/
structure ChildIter where
  entries : List (Nat × Nat)
  pos : Option Nat
deriving DecidableEq, Repr

/-- `Valid()`. -/
def ChildIter.valid (c : ChildIter) : Bool := c.pos.isSome

/-- `key()` (meaningful only when valid). -/
def ChildIter.key (c : ChildIter) : Nat :=
  match c.pos with
  | some i => (c.entries.getD i (0, 0)).1
  | none => 0

/-- `value()` (meaningful only when valid). -/
def ChildIter.val (c : ChildIter) : Nat :=
  match c.pos with
  | some i => (c.entries.getD i (0, 0)).2
  | none => 0

/-- `SeekToFirst()`. -/
def ChildIter.seekToFirst (c : ChildIter) : ChildIter :=
  { c with pos := if c.entries.length = 0 then none else some 0 }

/-- `SeekToLast()`. -/
def ChildIter.seekToLast (c : ChildIter) : ChildIter :=
  { c with pos := if c.entries.length = 0 then none
                  else some (c.entries.length - 1) }

/-- `Seek(target)`: position at the first entry whose key is `≥ target`
(spec section 4.1), invalid when there is none. -/
def ChildIter.seek (c : ChildIter) (t : Nat) : ChildIter :=
  { c with pos := c.entries.findIdx? fun p => t ≤ p.1 }

/-- `Next()`: step to the following entry, invalid past the last.  (Leveldb
asserts validity; the merger only calls this on valid children.) -/
def ChildIter.next (c : ChildIter) : ChildIter :=
  { c with pos := match c.pos with
    | some i => if i + 1 < c.entries.length then some (i + 1) else none
    | none => none }

/-- `Prev()`: step to the preceding entry, invalid before the first. -/
def ChildIter.prev (c : ChildIter) : ChildIter :=
  { c with pos := match c.pos with
    | some i => if i = 0 then none else some (i - 1)
    | none => none }

/-- Direction of a `MergingIterator`. -/
inductive MDirection where
  | forward
  | reverse
deriving DecidableEq, Repr

/-- State of a `MergingIterator`: the children, the index of `current_`
(`none` for `nullptr`) and `direction_`.  A freshly constructed merger has
unpositioned children, no current child and forward direction. -/
structure MergeIter where
  children : List ChildIter
  current : Option Nat
  dir : MDirection
deriving DecidableEq, Repr

/-- `MergingIterator::FindSmallest`, as a recursion over the child list with
`base` the index of its head: the left-to-right scan keeps the first child
on equal keys, which the recursion reproduces by preferring the head unless
the best of the tail is strictly smaller. -/
def findSmallestFrom (base : Nat) : List ChildIter → Option (Nat × Nat)
  | [] => none
  | c :: t =>
    let r := findSmallestFrom (base + 1) t
    if c.valid then
      match r with
      | some (j, k) => if k < c.key then some (j, k) else some (base, c.key)
      | none => some (base, c.key)
    else r

/-- Index of the child `FindSmallest` assigns to `current_`. -/
def findSmallestIdx (cs : List ChildIter) : Option Nat :=
  (findSmallestFrom 0 cs).map (·.1)

/-- `MergingIterator::FindLargest`, scanning from the last child towards the
first and replacing only on strictly greater keys, so equal keys keep the
later child: the recursion prefers the best of the tail unless the head is
strictly greater. -/
def findLargestFrom (base : Nat) : List ChildIter → Option (Nat × Nat)
  | [] => none
  | c :: t =>
    let r := findLargestFrom (base + 1) t
    if c.valid then
      match r with
      | some (j, k) => if k < c.key then some (base, c.key) else some (j, k)
      | none => some (base, c.key)
    else r

/-- Index of the child `FindLargest` assigns to `current_`. -/
def findLargestIdx (cs : List ChildIter) : Option Nat :=
  (findLargestFrom 0 cs).map (·.1)

/-- Apply `f i` to every child, passing its index (for the direction-switch
loops, which skip the current child). -/
def mapChildren (f : Nat → ChildIter → ChildIter) :
    Nat → List ChildIter → List ChildIter
  | _, [] => []
  | base, c :: t => f base c :: mapChildren f (base + 1) t

/-- `key()` of the merger: the current child's key. -/
def MergeIter.key (m : MergeIter) : Nat :=
  match m.current with
  | some i => (m.children.getD i ⟨[], none⟩).key
  | none => 0

/-- `value()` of the merger. -/
def MergeIter.val (m : MergeIter) : Nat :=
  match m.current with
  | some i => (m.children.getD i ⟨[], none⟩).val
  | none => 0

/-- `Valid()` of the merger: `current_ != nullptr`. -/
def MergeIter.valid (m : MergeIter) : Bool := m.current.isSome

/-- `MergingIterator::SeekToFirst`. -/
def MergeIter.seekToFirst (m : MergeIter) : MergeIter :=
  let cs := m.children.map ChildIter.seekToFirst
  { children := cs, current := findSmallestIdx cs, dir := .forward }

/-- `MergingIterator::SeekToLast`. -/
def MergeIter.seekToLast (m : MergeIter) : MergeIter :=
  let cs := m.children.map ChildIter.seekToLast
  { children := cs, current := findLargestIdx cs, dir := .reverse }

/-- `MergingIterator::Seek`. -/
def MergeIter.seek (m : MergeIter) (t : Nat) : MergeIter :=
  let cs := m.children.map (ChildIter.seek · t)
  { children := cs, current := findSmallestIdx cs, dir := .forward }

/-- `MergingIterator::Next`.  When the direction is reverse, every child
except `current_` seeks to `key()` and advances once if it landed on an
entry equal to `key()`; then `current_` advances and the smallest valid
child becomes current with direction forward.  (Calling `Next` on an
invalid merger is an assertion failure in C++; the model leaves the state
unchanged and the equivalence theorems restrict to legal call sequences.) -/
def MergeIter.next (m : MergeIter) : MergeIter :=
  match m.current with
  | none => m
  | some cur =>
    let k := m.key
    let cs1 :=
      match m.dir with
      | .forward => m.children
      | .reverse =>
        mapChildren (fun i c =>
          if i = cur then c
          else
            let c2 := c.seek k
            if c2.valid && c2.key == k then c2.next else c2) 0 m.children
    let cs2 := cs1.set cur (cs1.getD cur ⟨[], none⟩).next
    { children := cs2, current := findSmallestIdx cs2, dir := .forward }

/-- `MergingIterator::Prev`.  When the direction is forward, every child
except `current_` seeks to `key()` and then steps back once if valid, or
seeks to its last entry if it has no entry `≥ key()`; then `current_` steps
back and the largest valid child becomes current with direction reverse. -/
def MergeIter.prev (m : MergeIter) : MergeIter :=
  match m.current with
  | none => m
  | some cur =>
    let k := m.key
    let cs1 :=
      match m.dir with
      | .reverse => m.children
      | .forward =>
        mapChildren (fun i c =>
          if i = cur then c
          else
            let c2 := c.seek k
            if c2.valid then c2.prev else c2.seekToLast) 0 m.children
    let cs2 := cs1.set cur (cs1.getD cur ⟨[], none⟩).prev
    { children := cs2, current := findLargestIdx cs2, dir := .reverse }

/-! ### Iterator call sequences and the materialized reference iterator -/

/-- One navigation call of the common iterator interface. -/
inductive ItOp where
  | seekToFirst
  | seekToLast
  | seek (t : Nat)
  | next
  | prev
deriving DecidableEq, Repr

/-- Run one call on a `MergeIter`. -/
def MergeIter.step (m : MergeIter) : ItOp → MergeIter
  | .seekToFirst => m.seekToFirst
  | .seekToLast => m.seekToLast
  | .seek t => m.seek t
  | .next => m.next
  | .prev => m.prev

/-- Run a call sequence on a `MergeIter`. -/
def MergeIter.run (m : MergeIter) : List ItOp → MergeIter
  | [] => m
  | op :: ops => (m.step op).run ops

/-- Run one call on a plain sorted-list iterator. -/
def ChildIter.step (c : ChildIter) : ItOp → ChildIter
  | .seekToFirst => c.seekToFirst
  | .seekToLast => c.seekToLast
  | .seek t => c.seek t
  | .next => c.next
  | .prev => c.prev

/-- Run a call sequence on a plain sorted-list iterator. -/
def ChildIter.run (c : ChildIter) : List ItOp → ChildIter
  | [] => c
  | op :: ops => (c.step op).run ops

/-- A call sequence is legal from state `c` when `next` and `prev` are only
invoked while the iterator is valid (leveldb asserts this). -/
def legalFrom (c : ChildIter) : List ItOp → Bool
  | [] => true
  | op :: ops =>
    (match op with
     | .next => c.valid
     | .prev => c.valid
     | _ => true) && legalFrom (c.step op) ops

/-- Stable insertion by key: the new entry goes after existing entries with
the same key. -/
def insertByKey (p : Nat × Nat) : List (Nat × Nat) → List (Nat × Nat)
  | [] => [p]
  | q :: t => if p.1 < q.1 then p :: q :: t else q :: insertByKey p t

/-- Materialized sorted N-way merge of the children's entry lists: a stable
sort by key of their concatenation, so entries with equal keys stay in
child-index order (the order in which the merger's forward scan yields
them). -/
def mergedList (css : List (List (Nat × Nat))) : List (Nat × Nat) :=
  css.flatten.foldl (fun acc p => insertByKey p acc) []

/-- The merger the factory builds over the given children (all children
start unpositioned, as fresh iterators). -/
def mkMergeIter (css : List (List (Nat × Nat))) : MergeIter :=
  { children := css.map fun es => ⟨es, none⟩, current := none,
    dir := .forward }

/-- The reference iterator over the materialized merge of the children. -/
def mkMergedIter (css : List (List (Nat × Nat))) : ChildIter :=
  ⟨mergedList css, none⟩

/-- Position of the last entry with key `≤ t` (none when every key is
greater); in a sorted entry list those entries form a prefix. -/
def posLastLE (es : List (Nat × Nat)) (t : Nat) : Option Nat :=
  match (es.takeWhile fun p => p.1 ≤ t).length with
  | 0 => none
  | n + 1 => some n

/-- Shape of the merger's children after a forward positioning at key `t`:
every child sits at its first entry with key `≥ t`. -/
def fwdChildren (css : List (List (Nat × Nat))) (t : Nat) :
    List ChildIter :=
  css.map fun es => ⟨es, es.findIdx? fun p => t ≤ p.1⟩

/-- Shape of the merger's children after a reverse positioning at key `t`:
every child sits at its last entry with key `≤ t`. -/
def revChildren (css : List (List (Nat × Nat))) (t : Nat) :
    List ChildIter :=
  css.map fun es => ⟨es, posLastLE es t⟩

/-- The index of the child holding key `t`. -/
def childOf (css : List (List (Nat × Nat))) (t : Nat) : Option Nat :=
  css.findIdx? fun es => es.any fun p => p.1 = t

/-- Bisimulation invariant between the merging iterator and the reference
iterator over the materialized merge: when the reference is invalid so is
the merger, and when the reference sits at merged index `j` the merger's
children are in the forward or reverse shape for the key at `j` (matching
its direction) with the key's owner current. -/
def mergeInv (css : List (List (Nat × Nat))) (m : MergeIter)
    (r : ChildIter) : Prop :=
  r.entries = mergedList css ∧
    m.children.map ChildIter.entries = css ∧
    (match r.pos with
     | none => m.current = none
     | some j => j < (mergedList css).length ∧
         ((m.children =
             fwdChildren css ((mergedList css).getD j (0, 0)).1 ∧
           m.dir = .forward) ∨
          (m.children =
             revChildren css ((mergedList css).getD j (0, 0)).1 ∧
           m.dir = .reverse)) ∧
         m.current = childOf css ((mergedList css).getD j (0, 0)).1)

/-- Result of `NewMergingIterator` (`table/merger.cc`): an empty iterator
for `n = 0`, the single child itself for `n = 1`, a `MergingIterator`
otherwise. -/
inductive NewIterResult where
  | emptyIter
  | single (c : ChildIter)
  | merged (m : MergeIter)
deriving DecidableEq, Repr

/-- Modelled from the spec: `NewEmptyIterator` (`table/iterator.cc`) is not
part of the excerpt; per spec section 9 it is one of the "empty/error
iterators", an iterator with no entries whose `Valid()` is always false and
whose navigation calls do nothing.  It therefore carries no state, and its
validity after any call sequence is the constant `false` below. -/
def emptyIterValidAfter (_ops : List ItOp) : Bool := false

/-- `NewMergingIterator(comparator, children, n)`. -/
def newMergingIterator (children : List ChildIter) : NewIterResult :=
  if children.length = 0 then .emptyIter
  else if children.length = 1 then .single (children.getD 0 ⟨[], none⟩)
  else .merged { children := children, current := none, dir := .forward }

/-! ### Table builder (`table/table_builder.cc`)

The builder's collaborators are abstract function parameters gathered in
`BuildEnv`: the writable file (state type `σ` with fallible `Append` and
`Flush`), the comparator's separator/successor calculators, the Snappy
compressor (`none` when compression is unsupported or fails), the block
serializer and size estimate of `BlockBuilder` (`table/block_builder.cc`,
not part of the excerpt), the masked CRC, the `BlockHandle` and footer
encoders (`table/format.cc`, not part of the excerpt) and the filter
policy.  A `BlockBuilder` is embedded as its list of added entries, which
is the information `Add`/`Reset`/`Finish`/`empty` exchange with the table
builder. -/

/-- `BlockHandle`: offset and size of a block in the file. -/
structure BlockHandle where
  offset : Nat
  size : Nat
deriving DecidableEq, Repr

/-- Abstract collaborators of `TableBuilder` (spec section 6). -/
structure BuildEnv (σ : Type) where
  fileAppend : σ → Bytes → Status × σ
  fileFlush : σ → Status × σ
  findShortestSeparator : Bytes → Bytes → Bytes
  findShortSuccessor : Bytes → Bytes
  snappyCompress : Bytes → Option Bytes
  blockSerialize : List (Bytes × Bytes) → Bytes
  blockEstimate : List (Bytes × Bytes) → Nat
  crcMasked : Bytes → Nat → Nat
  handleEncode : BlockHandle → Bytes
  footerEncode : BlockHandle → BlockHandle → Bytes
  filterCreate : List Bytes → Bytes
  filterName : Bytes
  compression : CompressionType
  blockSize : Nat

/-- `TableBuilder::Rep`. -/
structure TableBuilderRep (σ : Type) where
  file : σ
  offset : Nat
  status : Status
  dataBlock : List (Bytes × Bytes)
  indexBlock : List (Bytes × Bytes)
  lastKey : Bytes
  numEntries : Nat
  closed : Bool
  filterBlock : Option FilterBlockBuilder
  pendingIndexEntry : Bool
  pendingHandle : BlockHandle
deriving DecidableEq, Repr

/-- `ok()`. -/
def TableBuilderRep.isOk {σ : Type} (r : TableBuilderRep σ) : Prop :=
  r.status = Status.ok

instance {σ : Type} (r : TableBuilderRep σ) : Decidable r.isOk := by
  unfold TableBuilderRep.isOk; infer_instance

/-- `TableBuilder::TableBuilder`: fresh state over file `f`; with a filter
policy the constructor calls `filter_block->StartBlock(0)`, which generates
nothing. -/
def mkTableBuilder {σ : Type} (env : BuildEnv σ) (useFilter : Bool) (f : σ) :
    TableBuilderRep σ :=
  { file := f, offset := 0, status := .ok, dataBlock := [], indexBlock := [],
    lastKey := [], numEntries := 0, closed := false,
    filterBlock :=
      if useFilter then
        some (FilterBlockBuilder.startBlock env.filterCreate 0
          FilterBlockBuilder.init)
      else none,
    pendingIndexEntry := false, pendingHandle := ⟨0, 0⟩ }

/-- `TableBuilder::WriteRawBlock`: set the handle to the current offset and
the contents size, append the contents, then the 5-byte trailer (type byte
and masked CRC over contents plus type), and advance the offset only if
both appends succeed. -/
def tbWriteRawBlock {σ : Type} (env : BuildEnv σ) (r : TableBuilderRep σ)
    (contents : Bytes) (t : CompressionType) :
    TableBuilderRep σ × BlockHandle :=
  let handle : BlockHandle := ⟨r.offset, contents.length⟩
  let a1 := env.fileAppend r.file contents
  let r1 := { r with file := a1.2, status := a1.1 }
  if a1.1 = Status.ok then
    let trailer := t.byte :: putFixed32 (env.crcMasked contents t.byte)
    let a2 := env.fileAppend r1.file trailer
    let r2 := { r1 with file := a2.2, status := a2.1 }
    if a2.1 = Status.ok then
      ({ r2 with offset := r2.offset + contents.length + 5 }, handle)
    else (r2, handle)
  else (r1, handle)

/-- The compression decision of `TableBuilder::WriteBlock`: under
`kSnappyCompression`, the compressed form is kept only when compression
succeeds and `compressed->size() < raw.size() - (raw.size() / 8u)`;
otherwise the raw bytes are stored as `kNoCompression`. -/
def compressDecision (snappy : Bytes → Option Bytes) (t : CompressionType)
    (raw : Bytes) : Bytes × CompressionType :=
  match t with
  | .noCompression => (raw, .noCompression)
  | .snappyCompression =>
    match snappy raw with
    | some compressed =>
      if compressed.length < raw.length - raw.length / 8 then
        (compressed, .snappyCompression)
      else (raw, .noCompression)
    | none => (raw, .noCompression)

/-- `TableBuilder::WriteBlock` on a block builder holding `entries`:
serialize, decide compression, write the physical block, and reset the
block builder (the reset entry list is returned to the caller, who owns the
block builder being written). -/
def tbWriteBlock {σ : Type} (env : BuildEnv σ) (r : TableBuilderRep σ)
    (entries : List (Bytes × Bytes)) : TableBuilderRep σ × BlockHandle :=
  let raw := env.blockSerialize entries
  let (contents, t) := compressDecision env.snappyCompress env.compression raw
  tbWriteRawBlock env r contents t

/-- `TableBuilder::Flush`: no-op on error status or an empty data block;
otherwise write the data block, record its handle as pending, and on
success set `pending_index_entry` and flush the file; finally notify the
filter builder of the new offset. -/
def tbFlush {σ : Type} (env : BuildEnv σ) (r : TableBuilderRep σ) :
    TableBuilderRep σ :=
  if ¬r.isOk then r
  else if r.dataBlock.length = 0 then r
  else
    let w := tbWriteBlock env r r.dataBlock
    let r2 := { w.1 with dataBlock := [], pendingHandle := w.2 }
    let r3 :=
      if r2.isOk then
        let fl := env.fileFlush r2.file
        { r2 with pendingIndexEntry := true, status := fl.1, file := fl.2 }
      else r2
    match r3.filterBlock with
    | some fb =>
      let fb2 := fb.startBlock env.filterCreate r3.offset
      { r3 with filterBlock := some fb2 }
    | none => r3

/-- Index step of `TableBuilder::Add` (step S2): if an index entry is
pending, shorten `last_key` towards the new key and emit the index entry
for the previous data block, clearing the flag. -/
def tbAddIndexStep {σ : Type} (env : BuildEnv σ) (r : TableBuilderRep σ)
    (key : Bytes) : TableBuilderRep σ :=
  if r.pendingIndexEntry then
    let sep := env.findShortestSeparator r.lastKey key
    { r with lastKey := sep,
             indexBlock := r.indexBlock ++
               [(sep, env.handleEncode r.pendingHandle)],
             pendingIndexEntry := false }
  else r

/-- Filter step of `Add` (step S3): add the key to the filter builder. -/
def tbAddFilterStep {σ : Type} (r : TableBuilderRep σ) (key : Bytes) :
    TableBuilderRep σ :=
  match r.filterBlock with
  | some fb => { r with filterBlock := some (fb.addKey key) }
  | none => r

/-- Data step of `Add` (step S4): set `last_key`, bump the entry count,
append to the data block. -/
def tbAddDataStep {σ : Type} (r : TableBuilderRep σ) (key value : Bytes) :
    TableBuilderRep σ :=
  { r with lastKey := key, numEntries := r.numEntries + 1,
           dataBlock := r.dataBlock ++ [(key, value)] }

/-- `TableBuilder::Add`: no-op on error status; otherwise run the index,
filter and data steps and flush when the estimated block size reaches
`block_size`. -/
def tbAdd {σ : Type} (env : BuildEnv σ) (r : TableBuilderRep σ)
    (key value : Bytes) : TableBuilderRep σ :=
  if ¬r.isOk then r
  else
    let r3 := tbAddDataStep (tbAddFilterStep (tbAddIndexStep env r key) key)
      key value
    if env.blockSize ≤ env.blockEstimate r3.dataBlock then tbFlush env r3
    else r3

/-- Filter-block-writing step of `TableBuilder::Finish` (step S2): the
filter block is written raw (no compression) while the status is ok. -/
def tbFinishFilterStage {σ : Type} (env : BuildEnv σ)
    (r1 : TableBuilderRep σ) : TableBuilderRep σ × BlockHandle :=
  match r1.filterBlock with
  | some fb =>
    if r1.isOk then
      tbWriteRawBlock env r1 (fb.finish env.filterCreate) .noCompression
    else (r1, ⟨0, 0⟩)
  | none => (r1, ⟨0, 0⟩)

/-- Metaindex-writing step of `Finish` (step S3): with a filter, the
metaindex block maps `"filter." ++ name` to the encoded filter handle. -/
def tbFinishMetaStage {σ : Type} (env : BuildEnv σ) (r2 : TableBuilderRep σ)
    (filterHandle : BlockHandle) : TableBuilderRep σ × BlockHandle :=
  if r2.isOk then
    let metaEntries :=
      match r2.filterBlock with
      | some _ =>
        [((102 :: 105 :: 108 :: 116 :: 101 :: 114 :: 46 :: env.filterName),
          env.handleEncode filterHandle)]
      | none => []
    tbWriteBlock env r2 metaEntries
  else (r2, ⟨0, 0⟩)

/-- Index-writing step of `Finish` (step S4): a pending index entry is
emitted under the shortest successor of `last_key` before the index block
is written. -/
def tbFinishIndexStage {σ : Type} (env : BuildEnv σ)
    (r3 : TableBuilderRep σ) : TableBuilderRep σ × BlockHandle :=
  if r3.isOk then
    let r4 :=
      if r3.pendingIndexEntry then
        let succ := env.findShortSuccessor r3.lastKey
        { r3 with lastKey := succ,
                  indexBlock := r3.indexBlock ++
                    [(succ, env.handleEncode r3.pendingHandle)],
                  pendingIndexEntry := false }
      else r3
    tbWriteBlock env r4 r4.indexBlock
  else (r3, ⟨0, 0⟩)

/-- Footer-writing step of `Finish` (step S5). -/
def tbFinishFooterStage {σ : Type} (env : BuildEnv σ) (r5 : TableBuilderRep σ)
    (metaindexHandle indexHandle : BlockHandle) : TableBuilderRep σ :=
  if r5.isOk then
    let footer := env.footerEncode metaindexHandle indexHandle
    let a := env.fileAppend r5.file footer
    let r6a := { r5 with status := a.1, file := a.2 }
    if a.1 = Status.ok then { r6a with offset := r6a.offset + footer.length }
    else r6a
  else r5

/-- `TableBuilder::Finish`: flush the last data block and close; then (each
step only while the status is ok) write the filter block, the metaindex
block, the index block and the footer.  Returns the final status and
state. -/
def tbFinish {σ : Type} (env : BuildEnv σ) (r : TableBuilderRep σ) :
    Status × TableBuilderRep σ :=
  let r1 := { tbFlush env r with closed := true }
  let wf := tbFinishFilterStage env r1
  let wm := tbFinishMetaStage env wf.1 wf.2
  let wi := tbFinishIndexStage env wm.1
  let r6 := tbFinishFooterStage env wi.1 wm.2 wi.2
  (r6.status, r6)

/-- The invariant documented on `TableBuilder::Rep`:
`pending_index_entry` is true only if the data block is empty. -/
def tbInv {σ : Type} (r : TableBuilderRep σ) : Prop :=
  r.pendingIndexEntry = true → r.dataBlock = []

instance {σ : Type} (r : TableBuilderRep σ) : Decidable (tbInv r) := by
  unfold tbInv; infer_instance

/-! ### Point lookup (`table/table.cc`, `Table::InternalGet`)

The index block's in-memory iterator and the data block read by
`Table::BlockReader` come from `table/block.cc` and `table/format.cc`,
which are not part of the excerpt; per spec section 4.1 a block iterator's
`Seek` positions at the first entry whose key is `≥ target`, so a block is
embedded as its sorted entry list and seeking as the first entry the
abstract comparator reports as `≥ target`.  `BlockHandle::DecodeFrom` and
the block read are abstract functions of the environment; the model also
returns the list of handler invocations and of data-block reads, so that
"the handler is not invoked" and "the block is not read" are statements
about the result. -/

/-- Abstract collaborators and table state for `Table::InternalGet`. -/
structure GetEnv where
  cmpGe : Bytes → Bytes → Bool
  indexEntries : List (Bytes × Bytes)
  decodeHandle : Bytes → Option BlockHandle
  readBlock : BlockHandle → Status × Option (List (Bytes × Bytes))
  filter : Option (Nat → Bytes → Bool)

/-- Modelled from the spec: `Block::Iter::Seek` (`table/block.cc`, not part
of the excerpt) positions at the first entry whose key is `≥ target`
(spec section 4.1); on an entry list this is the first entry `p` with
`cmpGe p.1 target`. -/
def seekBlock (cmpGe : Bytes → Bytes → Bool)
    (entries : List (Bytes × Bytes)) (target : Bytes) :
    Option (Bytes × Bytes) :=
  entries.find? fun p => cmpGe p.1 target

/-- `Table::InternalGet(options, k, arg, handle_result)`: seek the index
iterator; if valid, consult the filter on the decoded handle's offset and
stop with ok on a negative answer; otherwise build the data block iterator
(an error iterator when the handle does not decode, whose status the call
returns), seek it to `k` and invoke the handler on the entry found, if any.
Returns the status, the handler invocations and the data blocks read. -/
def internalGet (env : GetEnv) (k : Bytes) :
    Status × List (Bytes × Bytes) × List BlockHandle :=
  match seekBlock env.cmpGe env.indexEntries k with
  | none => (.ok, [], [])
  | some (_, handleValue) =>
    let filterNegative : Bool :=
      match env.filter, env.decodeHandle handleValue with
      | some f, some h => !f h.offset k
      | _, _ => false
    if filterNegative then (.ok, [], [])
    else
      match env.decodeHandle handleValue with
      | none => (.corruption, [], [])
      | some h =>
        let rb := env.readBlock h
        match rb.2 with
        | none => (rb.1, [], [h])
        | some entries =>
          match seekBlock env.cmpGe entries k with
          | some (bk, bv) => (.ok, [(bk, bv)], [h])
          | none => (.ok, [], [h])

/-! ### Concrete instances used by witnesses and counterexamples -/

/-- A trivial collaborator environment over the unit file state. -/
def unitEnv : BuildEnv Unit :=
  { fileAppend := fun _ _ => (.ok, ()),
    fileFlush := fun _ => (.ok, ()),
    findShortestSeparator := fun a _ => a,
    findShortSuccessor := fun a => a,
    snappyCompress := fun _ => none,
    blockSerialize := fun _ => [],
    blockEstimate := fun es => 32 * es.length,
    crcMasked := fun _ _ => 0,
    handleEncode := fun h => [h.offset, h.size],
    footerEncode := fun _ _ => List.replicate 48 0,
    filterCreate := fun ks => [ks.length],
    filterName := [120],
    compression := .noCompression,
    blockSize := 64 }

/-- A builder state carrying a sticky write error. -/
def brokenRep : TableBuilderRep Unit :=
  { file := (), offset := 7, status := .ioError,
    dataBlock := [([1], [2])], indexBlock := [], lastKey := [1],
    numEntries := 1, closed := false, filterBlock := none,
    pendingIndexEntry := false, pendingHandle := ⟨0, 0⟩ }

/-- Contents of a filter block holding exactly one empty filter: no filter
bytes, one offset-array entry `0`, array position `0`, `base_lg_ = 11`. -/
def emptyFilterContents : Bytes := [0, 0, 0, 0, 0, 0, 0, 0, 11]

/-- The deletion-masking database of scenario S1: user key `0` written at
sequence 1, deleted at sequence 2, rewritten at sequence 3, in internal-key
order. -/
def s1Entries : List InternalEntry :=
  [⟨0, 3, .typeValue, 3⟩, ⟨0, 2, .typeDeletion, 0⟩, ⟨0, 1, .typeValue, 1⟩]

/-- Two children sharing key `2` (each child's own keys are distinct and
sorted): the input of the merging-iterator counterexample. -/
def cexChildren : List (List (Nat × Nat)) :=
  [[(1, 10), (2, 20)], [(2, 21), (3, 30)]]

/-- The call sequence `seek_to_last, prev, prev, next` distinguishing the
merging iterator from the materialized merge on `cexChildren`. -/
def cexOps : List ItOp := [.seekToLast, .prev, .prev, .next]

/-- Children with globally distinct keys for the merging-iterator witness. -/
def witChildren : List (List (Nat × Nat)) :=
  [[(1, 10), (4, 40)], [(2, 21), (3, 31)]]

/-- A table environment on which a lookup of the absent key `[1]` invokes
the handler: one index entry pointing at a data block holding only key
`[2]`; no filter. -/
def getEnvCex : GetEnv :=
  { cmpGe := fun a b => decide (b.headD 0 ≤ a.headD 0),
    indexEntries := [([9], [7])],
    decodeHandle := fun hv => if hv = [7] then some ⟨0, 5⟩ else none,
    readBlock := fun _ => (.ok, some [([2], [42])]),
    filter := none }

/-- A table environment with a filter for the filter-negative witness. -/
def getEnvFilter : GetEnv :=
  { cmpGe := fun a b => decide (b.headD 0 ≤ a.headD 0),
    indexEntries := [([9], [7])],
    decodeHandle := fun hv => if hv = [7] then some ⟨0, 5⟩ else none,
    readBlock := fun _ => (.ok, some [([2], [42])]),
    filter := some fun _ _ => false }

/-! ## Theorems

First the shared helper lemmas, then one theorem per claim (with its
witness or counterexample where required). -/

/-- Claim C5, counterexample: a block of raw size 8 whose Snappy output has
size 7 satisfies the claimed threshold `C ≤ R - R/8` (7 ≤ 7) yet
`WriteBlock` stores it uncompressed, because the code requires the strict
inequality `compressed->size() < raw.size() - raw.size()/8`. -/
theorem writeBlock_compression_boundary_cex :
    7 ≤ 8 - 8 / 8 ∧
      (compressDecision (fun _ => some (List.replicate 7 0))
          CompressionType.snappyCompression (List.replicate 8 0)).2 =
        CompressionType.noCompression ∧
      ((compressDecision (fun _ => some (List.replicate 7 0))
          CompressionType.snappyCompression (List.replicate 8 0)).2).byte =
        0 := by
  refine ⟨by norm_num, ?_, ?_⟩ <;> rfl

/-- Claim C5 (amended): with Snappy configured and succeeding, the block is
stored compressed (trailer type byte 1) iff the compressed size is strictly
below `R - R/8`, and uncompressed (type byte 0) otherwise; a 50 % output is
stored compressed and a 90 % output uncompressed. -/
theorem writeBlock_compression_threshold (snappy : Bytes → Option Bytes)
    (raw compressed : Bytes) (h : snappy raw = some compressed) :
    ((compressDecision snappy .snappyCompression raw).2.byte = 1 ↔
      compressed.length < raw.length - raw.length / 8) ∧
    ((compressDecision snappy .snappyCompression raw).2.byte = 0 ↔
      ¬compressed.length < raw.length - raw.length / 8) ∧
    (compressDecision snappy .snappyCompression raw).1 =
      (if compressed.length < raw.length - raw.length / 8 then compressed
       else raw) := by
  unfold compressDecision
  rw [h]
  by_cases hc : compressed.length < raw.length - raw.length / 8
  · simp [hc, CompressionType.byte]
  · simp [hc, CompressionType.byte]

/-- Witness for the amended C5 theorem: raw size 80 with a 40-byte (50 %)
Snappy output is stored compressed; with a 72-byte (90 %) output it is
stored uncompressed. -/
theorem writeBlock_compression_threshold_witness :
    (compressDecision (fun _ => some (List.replicate 40 0))
        CompressionType.snappyCompression (List.replicate 80 0)).2.byte = 1 ∧
    (compressDecision (fun _ => some (List.replicate 72 0))
        CompressionType.snappyCompression (List.replicate 80 0)).2.byte = 0 :=
  ⟨(writeBlock_compression_threshold _ (List.replicate 80 0)
      (List.replicate 40 0) rfl).1.mpr (by norm_num),
   ((writeBlock_compression_threshold _ (List.replicate 80 0)
      (List.replicate 72 0) rfl).2.1).mpr (by norm_num)⟩

/-- Claim C7: with a non-ok status, `Add` and `Flush` return the state
unchanged — status, entry count, file size (offset), file contents, pending
index state and `last_key` included, since the whole record is equal. -/
theorem tableBuilder_sticky_status {σ : Type} (env : BuildEnv σ)
    (r : TableBuilderRep σ) (key value : Bytes)
    (h : r.status ≠ Status.ok) :
    tbAdd env r key value = r ∧ tbFlush env r = r := by
  constructor
  · unfold tbAdd TableBuilderRep.isOk
    simp [h]
  · unfold tbFlush TableBuilderRep.isOk
    simp [h]

/-- Witness for the C7 theorem at a concrete broken builder state. -/
theorem tableBuilder_sticky_status_witness :
    tbAdd unitEnv brokenRep [3] [4] = brokenRep ∧
      tbFlush unitEnv brokenRep = brokenRep :=
  tableBuilder_sticky_status unitEnv brokenRep [3] [4] (by decide)

/-- `WriteRawBlock` touches only the file, status and offset fields. -/
theorem tbWriteRawBlock_fields {σ : Type} (env : BuildEnv σ)
    (r : TableBuilderRep σ) (c : Bytes) (t : CompressionType) :
    (tbWriteRawBlock env r c t).1.pendingIndexEntry = r.pendingIndexEntry ∧
      (tbWriteRawBlock env r c t).1.dataBlock = r.dataBlock := by
  unfold tbWriteRawBlock
  dsimp only
  split
  · split
    · exact ⟨rfl, rfl⟩
    · exact ⟨rfl, rfl⟩
  · exact ⟨rfl, rfl⟩

/-- `WriteBlock` touches only the file, status and offset fields of the
builder state (the block builder written is handled by the caller). -/
theorem tbWriteBlock_fields {σ : Type} (env : BuildEnv σ)
    (r : TableBuilderRep σ) (es : List (Bytes × Bytes)) :
    (tbWriteBlock env r es).1.pendingIndexEntry = r.pendingIndexEntry ∧
      (tbWriteBlock env r es).1.dataBlock = r.dataBlock := by
  unfold tbWriteBlock
  exact tbWriteRawBlock_fields env r _ _

/-- `Flush` preserves the pending-index invariant (in its writing branch the
data block is reset before `pending_index_entry` can be set). -/
theorem tbFlush_inv {σ : Type} (env : BuildEnv σ) (r : TableBuilderRep σ)
    (h : tbInv r) : tbInv (tbFlush env r) := by
  unfold tbFlush
  dsimp only
  split
  · exact h
  split
  · exact h
  split
  · split
    · intro _
      rfl
    · intro _
      rfl
  · split
    · intro _
      rfl
    · intro _
      rfl

/-- A state whose pending flag is off satisfies the invariant vacuously. -/
theorem tbInv_of_pending_false {σ : Type} {r : TableBuilderRep σ}
    (h : r.pendingIndexEntry = false) : tbInv r := by
  intro hp
  rw [h] at hp
  exact absurd hp (by simp)

/-- The index step of `Add` always leaves the pending flag cleared. -/
theorem tbAddIndexStep_pending {σ : Type} (env : BuildEnv σ)
    (r : TableBuilderRep σ) (key : Bytes) :
    (tbAddIndexStep env r key).pendingIndexEntry = false := by
  unfold tbAddIndexStep
  split
  · rfl
  · next hpe => simpa using hpe

/-- The filter step of `Add` does not touch the pending flag. -/
theorem tbAddFilterStep_pending {σ : Type} (r : TableBuilderRep σ)
    (key : Bytes) :
    (tbAddFilterStep r key).pendingIndexEntry = r.pendingIndexEntry := by
  unfold tbAddFilterStep
  split <;> rfl

/-- `Add` preserves the pending-index invariant: any pending index entry is
emitted (clearing the flag) before the key joins the data block. -/
theorem tbAdd_inv {σ : Type} (env : BuildEnv σ) (r : TableBuilderRep σ)
    (key value : Bytes) (h : tbInv r) : tbInv (tbAdd env r key value) := by
  unfold tbAdd
  dsimp only
  split
  · exact h
  · have h3 : (tbAddDataStep (tbAddFilterStep (tbAddIndexStep env r key) key)
        key value).pendingIndexEntry = false := by
      show (tbAddFilterStep (tbAddIndexStep env r key) key).pendingIndexEntry
        = false
      rw [tbAddFilterStep_pending, tbAddIndexStep_pending]
    split
    · exact tbFlush_inv env _ (tbInv_of_pending_false h3)
    · exact tbInv_of_pending_false h3

/-- The filter-writing stage of `Finish` preserves the pending-index
invariant. -/
theorem tbFinishFilterStage_inv {σ : Type} (env : BuildEnv σ)
    (r : TableBuilderRep σ) (h : tbInv r) :
    tbInv (tbFinishFilterStage env r).1 := by
  unfold tbFinishFilterStage
  rcases hm : r.filterBlock with _ | fb
  · exact h
  · dsimp only
    split
    · intro hp
      have hf := tbWriteRawBlock_fields env r (fb.finish env.filterCreate)
        .noCompression
      rw [hf.2]
      exact h (by rw [← hf.1]; exact hp)
    · exact h

/-- The metaindex-writing stage of `Finish` preserves the pending-index
invariant. -/
theorem tbFinishMetaStage_inv {σ : Type} (env : BuildEnv σ)
    (r : TableBuilderRep σ) (fh : BlockHandle) (h : tbInv r) :
    tbInv (tbFinishMetaStage env r fh).1 := by
  unfold tbFinishMetaStage
  dsimp only
  split
  · intro hp
    have hf := tbWriteBlock_fields env r
      (match r.filterBlock with
       | some _ =>
         [((102 :: 105 :: 108 :: 116 :: 101 :: 114 :: 46 :: env.filterName),
           env.handleEncode fh)]
       | none => [])
    rw [hf.2]
    exact h (by rw [← hf.1]; exact hp)
  · exact h

/-- The index-writing stage of `Finish` preserves the pending-index
invariant. -/
theorem tbFinishIndexStage_inv {σ : Type} (env : BuildEnv σ)
    (r : TableBuilderRep σ) (h : tbInv r) :
    tbInv (tbFinishIndexStage env r).1 := by
  unfold tbFinishIndexStage
  dsimp only
  split
  · split
    · apply tbInv_of_pending_false
      rw [(tbWriteBlock_fields env _ _).1]
    · intro hp
      have hf := tbWriteBlock_fields env r r.indexBlock
      rw [hf.2]
      exact h (by rw [← hf.1]; exact hp)
  · exact h

/-- The footer-writing stage of `Finish` preserves the pending-index
invariant. -/
theorem tbFinishFooterStage_inv {σ : Type} (env : BuildEnv σ)
    (r : TableBuilderRep σ) (mh ih : BlockHandle) (h : tbInv r) :
    tbInv (tbFinishFooterStage env r mh ih) := by
  unfold tbFinishFooterStage
  dsimp only
  split
  · split
    · exact fun hp => h hp
    · exact fun hp => h hp
  · exact h

/-- `Finish` preserves the pending-index invariant through all its
stages. -/
theorem tbFinish_inv {σ : Type} (env : BuildEnv σ) (r : TableBuilderRep σ)
    (h : tbInv r) : tbInv (tbFinish env r).2 := by
  unfold tbFinish
  dsimp only
  exact tbFinishFooterStage_inv env _ _ _
    (tbFinishIndexStage_inv env _
      (tbFinishMetaStage_inv env _ _
        (tbFinishFilterStage_inv env _ (tbFlush_inv env r h))))

/-- Claim C9: `pending_index_entry` is true only when the data block is
empty — the invariant holds for a fresh builder and is preserved by `Add`,
`Flush` and `Finish` on a non-closed builder with ok status (indeed the
closedness and status hypotheses are not even needed for preservation). -/
theorem tableBuilder_pendingIndexEntry_invariant {σ : Type}
    (env : BuildEnv σ) (useFilter : Bool) (f : σ) (r : TableBuilderRep σ)
    (key value : Bytes) (hclosed : r.closed = false) (hok : r.isOk)
    (hinv : tbInv r) :
    tbInv (mkTableBuilder env useFilter f) ∧
      tbInv (tbAdd env r key value) ∧
      tbInv (tbFlush env r) ∧
      tbInv (tbFinish env r).2 :=
  ⟨tbInv_of_pending_false rfl, tbAdd_inv env r key value hinv,
    tbFlush_inv env r hinv, tbFinish_inv env r hinv⟩

/-- Witness for the C9 theorem at a fresh builder over the unit file. -/
theorem tableBuilder_pendingIndexEntry_invariant_witness :
    tbInv (mkTableBuilder unitEnv true ()) ∧
      tbInv (tbAdd unitEnv (mkTableBuilder unitEnv true ()) [1] [2]) ∧
      tbInv (tbFlush unitEnv (mkTableBuilder unitEnv true ())) ∧
      tbInv (tbFinish unitEnv (mkTableBuilder unitEnv true ())).2 :=
  tableBuilder_pendingIndexEntry_invariant unitEnv true ()
    (mkTableBuilder unitEnv true ()) [1] [2] rfl (by decide) (by decide)

/-- Claim C10: `NewMergingIterator` returns the empty iterator (which is
never valid, whatever calls are made) for zero children, the single child
itself for one child, and a `MergingIterator` over the children (fresh:
no current child, forward direction) only for two or more. -/
theorem newMergingIterator_small {cs2 : List ChildIter} (c : ChildIter)
    (hn : 2 ≤ cs2.length) :
    newMergingIterator [] = NewIterResult.emptyIter ∧
      (∀ ops : List ItOp, emptyIterValidAfter ops = false) ∧
      newMergingIterator [c] = NewIterResult.single c ∧
      newMergingIterator cs2 =
        NewIterResult.merged ⟨cs2, none, MDirection.forward⟩ := by
  refine ⟨rfl, fun _ => rfl, rfl, ?_⟩
  unfold newMergingIterator
  rw [if_neg (by omega), if_neg (by omega)]

/-- Witness for the C10 theorem at a concrete pair of children. -/
theorem newMergingIterator_small_witness :
    newMergingIterator [] = NewIterResult.emptyIter ∧
      (∀ ops : List ItOp, emptyIterValidAfter ops = false) ∧
      newMergingIterator [ChildIter.mk [(1, 2)] none] =
        NewIterResult.single (ChildIter.mk [(1, 2)] none) ∧
      newMergingIterator
          [ChildIter.mk [(1, 2)] none, ChildIter.mk [(3, 4)] none] =
        NewIterResult.merged
          ⟨[ChildIter.mk [(1, 2)] none, ChildIter.mk [(3, 4)] none],
            none, MDirection.forward⟩ :=
  newMergingIterator_small (ChildIter.mk [(1, 2)] none) (by decide)

/-- Claim C3, counterexample: `emptyFilterContents` is a well-formed filter
block with one window whose start and limit offsets are both `0` (an empty
filter), yet `KeyMayMatch(0, key)` consults the policy on the empty slice
and returns its answer — here `true`, not the claimed definitive `false`.
The `start == limit` branch that returns `false` without consulting the
policy is reachable only when `limit` exceeds the offset-array position,
i.e. on malformed offsets. -/
theorem filterBlock_empty_filter_cex :
    (mkFilterBlockReader emptyFilterContents).num = 1 ∧
      decodeFixed32 emptyFilterContents 0 = 0 ∧
      decodeFixed32 emptyFilterContents 4 = 0 ∧
      keyMayMatch (fun _ _ => true) (mkFilterBlockReader emptyFilterContents)
        0 [9] = true := by
  refine ⟨?_, ?_, ?_, ?_⟩ <;> rfl

/-- Claim C3 (amended): for a window `i < num` with equal start and limit
offsets, `KeyMayMatch` returns `false` without consulting the policy only
when that common offset exceeds the offset-array position; when the offsets
are well-formed (`limit ≤ lastWord`) the policy is consulted with the empty
filter slice and its answer is returned. -/
theorem filterBlock_empty_filter (policy : Bytes → Bytes → Bool)
    (r : FilterBlockReader) (blockOffset : Nat) (key : Bytes)
    (hidx : blockOffset >>> r.baseLg < r.num)
    (heq : decodeFixed32 r.bytes (r.lastWord + 4 * (blockOffset >>> r.baseLg))
      = decodeFixed32 r.bytes
          (r.lastWord + 4 * (blockOffset >>> r.baseLg) + 4)) :
    keyMayMatch policy r blockOffset key =
      if decodeFixed32 r.bytes (r.lastWord + 4 * (blockOffset >>> r.baseLg))
          ≤ r.lastWord
      then policy key [] else false := by
  unfold keyMayMatch
  rw [if_pos hidx, ← heq]
  by_cases hle : decodeFixed32 r.bytes
      (r.lastWord + 4 * (blockOffset >>> r.baseLg)) ≤ r.lastWord
  · rw [if_pos ⟨le_refl _, hle⟩, if_pos hle]
    simp
  · rw [if_neg (fun hc => hle hc.2), if_pos rfl, if_neg hle]

/-- Witness for the amended C3 theorem on `emptyFilterContents` with a
policy answering `true` on every slice. -/
theorem filterBlock_empty_filter_witness :
    (0 : Nat) >>> (mkFilterBlockReader emptyFilterContents).baseLg <
        (mkFilterBlockReader emptyFilterContents).num ∧
      keyMayMatch (fun _ _ => true)
          (mkFilterBlockReader emptyFilterContents) 0 [5] =
        if decodeFixed32 (mkFilterBlockReader emptyFilterContents).bytes
            ((mkFilterBlockReader emptyFilterContents).lastWord +
              4 * ((0 : Nat) >>>
                (mkFilterBlockReader emptyFilterContents).baseLg))
            ≤ (mkFilterBlockReader emptyFilterContents).lastWord
        then (fun (_ : Bytes) (_ : Bytes) => true) [5] ([] : Bytes)
        else false :=
  ⟨by decide,
    filterBlock_empty_filter (fun _ _ => true)
      (mkFilterBlockReader emptyFilterContents) 0 [5] (by decide) (by decide)⟩

/-- Claim C8, counterexample: looking up the key `[1]`, absent from the
table `getEnvCex` (whose only data block holds the single key `[2]`), is
not an error — but the handler IS invoked, with the block's first entry
`≥ [1]`, namely `([2], [42])`.  This refutes "a key absent from the table
leaves the handler uninvoked": `InternalGet` calls the handler whenever the
data-block seek lands on any entry, and the caller is expected to compare
keys. -/
theorem internalGet_missing_key_cex :
    (internalGet getEnvCex [1]).1 = Status.ok ∧
      (internalGet getEnvCex [1]).2.1 = [([2], [42])] ∧
      (getEnvCex.readBlock ⟨0, 5⟩).2 = some [([2], [42])] ∧
      ([1] : Bytes) ∉ ([([2], [42])].map Prod.fst :
        List Bytes) := by
  refine ⟨rfl, rfl, rfl, by decide⟩

/-- Claim C8 (amended): (a) if the index seek lands on an entry whose
handle decodes and the filter reports no match for `(handle.offset, k)`,
`InternalGet` returns ok without invoking the handler and without reading
the data block; (b) if the index seek finds nothing, likewise; (c) when the
handle decodes and the block reads cleanly, an absent key is never an
error: the status is ok and every handler invocation receives an entry of
the data block — never the key `k` itself when `k` is absent from that
block. -/
theorem internalGet_filter_negative_and_missing (env : GetEnv) (k : Bytes) :
    (∀ sep hv f h, seekBlock env.cmpGe env.indexEntries k = some (sep, hv) →
      env.filter = some f → env.decodeHandle hv = some h →
      f h.offset k = false →
      internalGet env k = (Status.ok, [], [])) ∧
    (seekBlock env.cmpGe env.indexEntries k = none →
      internalGet env k = (Status.ok, [], [])) ∧
    (∀ sep hv h entries,
      seekBlock env.cmpGe env.indexEntries k = some (sep, hv) →
      env.decodeHandle hv = some h →
      env.readBlock h = (Status.ok, some entries) →
      (internalGet env k).1 = Status.ok ∧
        (∀ p ∈ (internalGet env k).2.1, p ∈ entries) ∧
        (k ∉ entries.map Prod.fst →
          ∀ p ∈ (internalGet env k).2.1, p.1 ≠ k)) := by
  refine ⟨?_, ?_, ?_⟩
  · intro sep hv f h hseek hf hdec hneg
    unfold internalGet
    rw [hseek]
    dsimp only
    rw [hf, hdec]
    simp [hneg]
  · intro hseek
    unfold internalGet
    rw [hseek]
  · intro sep hv h entries hseek hdec hread
    unfold internalGet
    rw [hseek]
    dsimp only
    simp only [hdec, hread]
    rcases hsb : seekBlock env.cmpGe entries k with _ | ⟨bk, bv⟩ <;>
      simp only [hsb]
    · split
      · exact ⟨rfl, by simp, by simp⟩
      · exact ⟨rfl, by simp, by simp⟩
    · have hmem : (bk, bv) ∈ entries := by
        unfold seekBlock at hsb
        exact List.mem_of_find?_eq_some hsb
      split
      · exact ⟨rfl, by simp, by simp⟩
      · refine ⟨rfl, ?_, ?_⟩
        · intro p hp
          simp at hp
          rw [hp]
          exact hmem
        · intro habs p hp
          simp at hp
          rw [hp]
          intro hk
          exact habs (by rw [← hk]; exact List.mem_map_of_mem Prod.fst hmem)

/-! #### DB iterator lemmas (claims C1 and C6)

The proofs decompose the sorted entry list into runs (groups) of equal user
keys and track how the forward and backward collapsing loops consume one
run at a time. -/

/-- In a sorted entry list, every later entry's user key is at least the
head's. -/
theorem sorted_head_le (a : InternalEntry) (l : List InternalEntry)
    (hs : InternalSorted (a :: l)) : ∀ e ∈ l, a.userKey ≤ e.userKey := by
  intro e he
  rcases (List.pairwise_cons.mp hs).1 e he with h | ⟨h, _⟩
  · exact le_of_lt h
  · exact le_of_eq h

/-- The head of `dropWhile p l` fails `p`. -/
theorem dropWhile_head_not {α : Type} (p : α → Bool) :
    ∀ (l : List α) (a : α) (t : List α),
      l.dropWhile p = a :: t → p a = false := by
  intro l
  induction l with
  | nil => intro a t h; simp [List.dropWhile] at h
  | cons x l ih =>
    intro a t h
    by_cases hp : p x
    · rw [List.dropWhile_cons_of_pos hp] at h
      exact ih a t h
    · rw [List.dropWhile_cons_of_neg hp] at h
      cases h
      simpa using hp

/-- After dropping the leading run of user key `u` from a sorted list all
of whose keys are `≥ u`, every remaining key is `> u`. -/
theorem rest_keys_gt (l : List InternalEntry) (u : Nat)
    (hs : InternalSorted l) (hall : ∀ e ∈ l, u ≤ e.userKey) :
    ∀ e ∈ l.dropWhile (fun x => x.userKey == u), u < e.userKey := by
  cases hrest : l.dropWhile (fun x => x.userKey == u) with
  | nil => intro e he; simp at he
  | cons r0 rest2 =>
    have hsuffix : (r0 :: rest2) <:+ l := hrest ▸ List.dropWhile_suffix _
    have hmem : ∀ e ∈ r0 :: rest2, e ∈ l := fun e he =>
      hsuffix.sublist.mem he
    have hr0 : u < r0.userKey := by
      have hne := dropWhile_head_not _ l r0 rest2 hrest
      have hge := hall r0 (hmem r0 (by simp))
      rcases lt_or_eq_of_le hge with h | h
      · exact h
      · rw [← h] at hne
        simp at hne
    have hsrest : InternalSorted (r0 :: rest2) :=
      hs.sublist hsuffix.sublist
    intro e he
    rcases List.mem_cons.mp he with rfl | he2
    · exact hr0
    · have := sorted_head_le r0 rest2 hsrest e he2
      omega

/-- Mirror of `rest_keys_gt` for the reversed list: after dropping the
leading run of user key `u` from a reverse-sorted list all of whose keys
are `≤ u`, every remaining key is `< u`. -/
theorem revRest_keys_lt (l : List InternalEntry) (u : Nat)
    (hs : l.Pairwise fun a b => entryLT b a)
    (hall : ∀ e ∈ l, e.userKey ≤ u) :
    ∀ e ∈ l.dropWhile (fun x => x.userKey == u), e.userKey < u := by
  cases hrest : l.dropWhile (fun x => x.userKey == u) with
  | nil => intro e he; simp at he
  | cons r0 rest2 =>
    have hsuffix : (r0 :: rest2) <:+ l := hrest ▸ List.dropWhile_suffix _
    have hmem : ∀ e ∈ r0 :: rest2, e ∈ l := fun e he =>
      hsuffix.sublist.mem he
    have hr0 : r0.userKey < u := by
      have hne := dropWhile_head_not _ l r0 rest2 hrest
      have hge := hall r0 (hmem r0 (by simp))
      rcases lt_or_eq_of_le hge with h | h
      · exact h
      · rw [h] at hne
        simp at hne
    have hsrest : (r0 :: rest2).Pairwise (fun a b => entryLT b a) :=
      hs.sublist hsuffix.sublist
    intro e he
    rcases List.mem_cons.mp he with rfl | he2
    · exact hr0
    · rcases (List.pairwise_cons.mp hsrest).1 e he2 with h | ⟨h, _⟩
      · omega
      · omega

/-- Members of `distinctKeysAux seen ks` come from `ks`. -/
theorem distinctKeysAux_mem (u : Nat) :
    ∀ (seen ks : List Nat), u ∈ distinctKeysAux seen ks → u ∈ ks := by
  intro seen ks
  induction ks generalizing seen with
  | nil => intro h; simp [distinctKeysAux] at h
  | cons k ks ih =>
    intro h
    unfold distinctKeysAux at h
    split at h
    · exact List.mem_cons_of_mem _ (ih _ h)
    · rcases List.mem_cons.mp h with rfl | h2
      · exact List.mem_cons_self _ _
      · exact List.mem_cons_of_mem _ (ih _ h2)

/-- `distinctKeysAux` depends only on the membership of the accumulator. -/
theorem distinctKeysAux_congr :
    ∀ (ks seen1 seen2 : List Nat), (∀ k, k ∈ seen1 ↔ k ∈ seen2) →
      distinctKeysAux seen1 ks = distinctKeysAux seen2 ks := by
  intro ks
  induction ks with
  | nil => intro _ _ _; rfl
  | cons k ks ih =>
    intro seen1 seen2 h
    unfold distinctKeysAux
    by_cases hm : k ∈ seen1
    · rw [if_pos hm, if_pos ((h k).mp hm)]
      exact ih _ _ h
    · rw [if_neg hm, if_neg (fun hc => hm ((h k).mpr hc))]
      refine congrArg _ (ih _ _ fun k2 => ?_)
      simp only [List.mem_cons]
      exact or_congr Iff.rfl (h k2)

/-- Keys all present in `seen` contribute nothing. -/
theorem distinctKeysAux_all_seen (seen : List Nat) :
    ∀ ks : List Nat, (∀ k ∈ ks, k ∈ seen) → distinctKeysAux seen ks = [] := by
  intro ks
  induction ks with
  | nil => intro _; rfl
  | cons k ks ih =>
    intro h
    unfold distinctKeysAux
    rw [if_pos (h k (by simp))]
    exact ih fun k2 hk2 => h k2 (by simp [hk2])

/-- Leading keys all present in `seen` contribute nothing. -/
theorem distinctKeysAux_append_seen (seen : List Nat) :
    ∀ xs ys : List Nat, (∀ k ∈ xs, k ∈ seen) →
      distinctKeysAux seen (xs ++ ys) = distinctKeysAux seen ys := by
  intro xs
  induction xs with
  | nil => intro ys _; rfl
  | cons x xs ih =>
    intro ys h
    rw [List.cons_append]
    simp only [distinctKeysAux]
    rw [if_pos (h x (by simp))]
    exact ih ys fun k2 hk2 => h k2 (by simp [hk2])

/-- A seen value that does not occur in the list can be forgotten. -/
theorem distinctKeysAux_drop_seen (u : Nat) :
    ∀ (ks seen : List Nat), (∀ k ∈ ks, k ≠ u) →
      distinctKeysAux (u :: seen) ks = distinctKeysAux seen ks := by
  intro ks
  induction ks with
  | nil => intro _ _; rfl
  | cons k ks ih =>
    intro seen h
    have hk : k ≠ u := h k (by simp)
    unfold distinctKeysAux
    by_cases hm : k ∈ seen
    · rw [if_pos (by simp [hm]), if_pos hm]
      exact ih seen fun k2 hk2 => h k2 (by simp [hk2])
    · rw [if_neg (by simp [hm, hk]), if_neg hm]
      refine congrArg _ ?_
      calc distinctKeysAux (k :: u :: seen) ks
          = distinctKeysAux (u :: k :: seen) ks :=
            distinctKeysAux_congr ks _ _ (fun k2 => by
              simp only [List.mem_cons]
              tauto)
        _ = distinctKeysAux (k :: seen) ks :=
            ih (k :: seen) fun k2 hk2 => h k2 (by simp [hk2])

/-- A run of one value `u` followed by values `≠ u`: the distinct keys are
`u` then those of the tail. -/
theorem distinctKeys_group_left (u : Nat) (ks rs : List Nat)
    (hks : ∀ k ∈ ks, k = u) (hrs : ∀ k ∈ rs, k ≠ u) (hne : ks ≠ []) :
    distinctKeys (ks ++ rs) = u :: distinctKeys rs := by
  cases ks with
  | nil => exact absurd rfl hne
  | cons k0 ks2 =>
    have hk0 : k0 = u := hks _ (by simp)
    subst hk0
    unfold distinctKeys
    rw [List.cons_append]
    simp only [distinctKeysAux]
    rw [if_neg (by simp)]
    refine congrArg _ ?_
    rw [distinctKeysAux_append_seen _ ks2 rs
      (fun k2 hk2 => by simp [hks k2 (by simp [hk2])])]
    exact distinctKeysAux_drop_seen _ rs [] hrs

/-- Values `≠ u` followed by a nonempty run of `u`: the distinct keys are
those of the front followed by `u`. -/
theorem distinctKeysAux_append_right (u : Nat) :
    ∀ (fs seen ks : List Nat), (∀ k ∈ fs, k ≠ u) → (∀ k ∈ ks, k = u) →
      ks ≠ [] → u ∉ seen →
      distinctKeysAux seen (fs ++ ks) = distinctKeysAux seen fs ++ [u] := by
  intro fs
  induction fs with
  | nil =>
    intro seen ks _ hks hne hu
    cases ks with
    | nil => exact absurd rfl hne
    | cons k0 ks2 =>
      have hk0 : k0 = u := hks _ (by simp)
      subst hk0
      rw [List.nil_append]
      simp only [distinctKeysAux]
      rw [if_neg hu]
      rw [distinctKeysAux_all_seen _ ks2
        (fun k2 hk2 => by simp [hks k2 (by simp [hk2])])]
      rfl
  | cons f0 fs ih =>
    intro seen ks hfs hks hne hu
    have hf0 : f0 ≠ u := hfs f0 (by simp)
    rw [List.cons_append]
    simp only [distinctKeysAux]
    by_cases hm : f0 ∈ seen
    · rw [if_pos hm, if_pos hm]
      exact ih seen ks (fun k2 hk2 => hfs k2 (by simp [hk2])) hks hne hu
    · rw [if_neg hm, if_neg hm]
      rw [ih (f0 :: seen) ks (fun k2 hk2 => hfs k2 (by simp [hk2])) hks hne
        (by simp only [List.mem_cons, not_or]
            exact ⟨fun hc => hf0 hc.symm, hu⟩)]
      rfl

/-- `distinctKeys` version of `distinctKeysAux_append_right`. -/
theorem distinctKeys_group_right (u : Nat) (fs ks : List Nat)
    (hfs : ∀ k ∈ fs, k ≠ u) (hks : ∀ k ∈ ks, k = u) (hne : ks ≠ []) :
    distinctKeys (fs ++ ks) = distinctKeys fs ++ [u] :=
  distinctKeysAux_append_right u fs [] ks hfs hks hne (by simp)

/-- A result of `newestLE` is one of the entries, visible at the
snapshot. -/
theorem newestLE_mem (snap : Nat) :
    ∀ (es : List InternalEntry) (a : InternalEntry),
      newestLE snap es = some a → a ∈ es ∧ a.seq ≤ snap := by
  intro es
  induction es with
  | nil => intro a h; simp [newestLE] at h
  | cons e es ih =>
    intro a h
    simp only [newestLE] at h
    rcases hrec : newestLE snap es with _ | b <;> simp only [hrec] at h
    · by_cases hle : e.seq ≤ snap
      · rw [if_pos hle] at h
        cases h
        exact ⟨by simp, hle⟩
      · rw [if_neg hle] at h
        cases h
    · by_cases hcond : e.seq ≤ snap ∧ b.seq < e.seq
      · rw [if_pos hcond] at h
        cases h
        exact ⟨by simp, hcond.1⟩
      · rw [if_neg hcond] at h
        cases h
        have hb := ih _ hrec
        exact ⟨by simp [hb.1], hb.2⟩

/-- On a list with strictly descending sequences, the newest entry visible
at the snapshot is the first one with `seq ≤ snap`. -/
theorem newestLE_eq_find (snap : Nat) :
    ∀ es : List InternalEntry, (es.Pairwise fun a b => b.seq < a.seq) →
      newestLE snap es = es.find? fun e => e.seq ≤ snap := by
  intro es
  induction es with
  | nil => intro _; rfl
  | cons e es ih =>
    intro hs
    have hdesc := (List.pairwise_cons.mp hs).1
    have hrec := ih (List.pairwise_cons.mp hs).2
    by_cases hle : e.seq ≤ snap
    · rw [List.find?_cons_of_pos _ (by simpa using hle)]
      simp only [newestLE]
      rcases hcase : newestLE snap es with _ | b
      · simp [hle]
      · have hb := newestLE_mem snap es b hcase
        simp [hle, hdesc b hb.1]
    · rw [List.find?_cons_of_neg _ (by simpa using hle)]
      simp only [newestLE]
      rcases hcase : newestLE snap es with _ | b
      · simp only [if_neg hle]
        rw [← hrec, hcase]
      · simp only [if_neg (fun hc : e.seq ≤ snap ∧ b.seq < e.seq => hle hc.1)]
        rw [← hrec, hcase]

/-- Splitting off a leading run of user key `u` from the entry list splits
the visible contents into the run's contribution followed by the rest. -/
theorem specVisible_group_left (snap u : Nat) (g rest : List InternalEntry)
    (hg : g ≠ []) (hgu : ∀ e ∈ g, e.userKey = u)
    (hrest : ∀ e ∈ rest, u < e.userKey) :
    specVisible snap (g ++ rest) =
      groupYield snap u g ++ specVisible snap rest := by
  unfold specVisible
  rw [List.map_append]
  rw [distinctKeys_group_left u (g.map (·.userKey)) (rest.map (·.userKey))
    (by intro k hk
        rcases List.mem_map.mp hk with ⟨e, he, rfl⟩
        exact hgu e he)
    (by intro k hk
        rcases List.mem_map.mp hk with ⟨e, he, rfl⟩
        exact Nat.ne_of_gt (hrest e he))
    (by simpa using hg)]
  rw [List.filterMap_cons]
  have hfilg : (g ++ rest).filter (fun e => e.userKey == u) = g := by
    rw [List.filter_append]
    rw [List.filter_eq_self.mpr (fun e he => by simp [hgu e he])]
    rw [List.filter_eq_nil_iff.mpr
      (fun e he => by simp [Nat.ne_of_gt (hrest e he)])]
    rw [List.append_nil]
  have htail : ∀ u2 ∈ distinctKeys (rest.map (·.userKey)),
      (fun u2 =>
        match newestLE snap ((g ++ rest).filter fun e => e.userKey == u2) with
        | none => none
        | some e =>
          match e.ty with
          | .typeDeletion => none
          | .typeValue => some (u2, e.val)) u2 =
      (fun u2 =>
        match newestLE snap (rest.filter fun e => e.userKey == u2) with
        | none => none
        | some e =>
          match e.ty with
          | .typeDeletion => none
          | .typeValue => some (u2, e.val)) u2 := by
    intro u2 hu2
    have hu2mem : u2 ∈ rest.map (·.userKey) := distinctKeysAux_mem _ _ _ hu2
    have hu2ne : u2 ≠ u := by
      rcases List.mem_map.mp hu2mem with ⟨e, he, rfl⟩
      exact Nat.ne_of_gt (hrest e he)
    have : (g ++ rest).filter (fun e => e.userKey == u2) =
        rest.filter (fun e => e.userKey == u2) := by
      rw [List.filter_append]
      rw [List.filter_eq_nil_iff.mpr (fun e he => by
        simp only [beq_iff_eq]
        rw [hgu e he]
        exact fun hc => hu2ne hc.symm)]
      rw [List.nil_append]
    dsimp only
    rw [this]
  rw [List.filterMap_congr htail]
  rw [hfilg]
  unfold groupYield
  rcases hn : newestLE snap g with _ | e
  · simp
  · rcases hty : e.ty <;> simp [hty]

/-- Splitting off a trailing run of user key `u` splits the visible
contents into the front's contribution followed by the run's. -/
theorem specVisible_group_right (snap u : Nat)
    (front g : List InternalEntry) (hg : g ≠ [])
    (hgu : ∀ e ∈ g, e.userKey = u)
    (hfront : ∀ e ∈ front, e.userKey < u) :
    specVisible snap (front ++ g) =
      specVisible snap front ++ groupYield snap u g := by
  unfold specVisible
  rw [List.map_append]
  rw [distinctKeys_group_right u (front.map (·.userKey)) (g.map (·.userKey))
    (by intro k hk
        rcases List.mem_map.mp hk with ⟨e, he, rfl⟩
        exact Nat.ne_of_lt (hfront e he))
    (by intro k hk
        rcases List.mem_map.mp hk with ⟨e, he, rfl⟩
        exact hgu e he)
    (by simpa using hg)]
  rw [List.filterMap_append]
  have hfilg : (front ++ g).filter (fun e => e.userKey == u) = g := by
    rw [List.filter_append]
    rw [List.filter_eq_nil_iff.mpr
      (fun e he => by simp [Nat.ne_of_lt (hfront e he)])]
    rw [List.filter_eq_self.mpr (fun e he => by simp [hgu e he])]
    rw [List.nil_append]
  have htail : ∀ u2 ∈ distinctKeys (front.map (·.userKey)),
      (fun u2 =>
        match newestLE snap ((front ++ g).filter fun e => e.userKey == u2) with
        | none => none
        | some e =>
          match e.ty with
          | .typeDeletion => none
          | .typeValue => some (u2, e.val)) u2 =
      (fun u2 =>
        match newestLE snap (front.filter fun e => e.userKey == u2) with
        | none => none
        | some e =>
          match e.ty with
          | .typeDeletion => none
          | .typeValue => some (u2, e.val)) u2 := by
    intro u2 hu2
    have hu2mem : u2 ∈ front.map (·.userKey) := distinctKeysAux_mem _ _ _ hu2
    have hu2ne : u2 ≠ u := by
      rcases List.mem_map.mp hu2mem with ⟨e, he, rfl⟩
      exact Nat.ne_of_lt (hfront e he)
    have : (front ++ g).filter (fun e => e.userKey == u2) =
        front.filter (fun e => e.userKey == u2) := by
      rw [List.filter_append]
      rw [show g.filter (fun e => e.userKey == u2) = [] from
        List.filter_eq_nil_iff.mpr (fun e he => by
          simp only [beq_iff_eq]
          rw [hgu e he]
          exact fun hc => hu2ne hc.symm)]
      rw [List.append_nil]
    dsimp only
    rw [this]
  rw [List.filterMap_congr htail]
  congr 1
  rw [List.filterMap_cons]
  rw [hfilg]
  unfold groupYield
  rcases hn : newestLE snap g with _ | e
  · rfl
  · rcases hty : e.ty <;> simp [hty]

/-- Within a run of one user key, sortedness makes sequences strictly
descending. -/
theorem group_seq_desc (g : List InternalEntry) (u : Nat)
    (hs : InternalSorted g) (hgu : ∀ e ∈ g, e.userKey = u) :
    g.Pairwise fun a b => b.seq < a.seq := by
  refine hs.imp_of_mem ?_
  intro a b ha hb hab
  rcases hab with h | ⟨_, h⟩
  · rw [hgu a ha, hgu b hb] at h
    omega
  · exact h

/-- Once `skip` holds the run's user key `u`, the forward scan consumes the
rest of the run without output: deletions re-record `u` and values are
hidden. -/
theorem dbForward_skip_group (snap u : Nat) :
    ∀ (m rest : List InternalEntry), (∀ e ∈ m, e.userKey = u) →
      dbForward snap (m ++ rest) (some u) = dbForward snap rest (some u) := by
  intro m
  induction m with
  | nil => intro rest _; rfl
  | cons e m ih =>
    intro rest h
    have he : e.userKey = u := h e (by simp)
    have htl : ∀ x ∈ m, x.userKey = u := fun x hx => h x (by simp [hx])
    rw [List.cons_append]
    simp only [dbForward]
    by_cases hle : e.seq ≤ snap
    · rw [if_pos hle]
      rcases hty : e.ty
      · rw [he]
        exact ih rest htl
      · rw [if_pos (le_of_eq he)]
        exact ih rest htl
    · rw [if_neg hle]
      exact ih rest htl

/-- The forward scan on a leading run of user key `u` (with `skip` below
`u`): the first entry visible at the snapshot decides — nothing visible
skips the run, a deletion hides it, a value is yielded; in each case the
scan continues past the run with `skip = u`. -/
theorem dbForward_group (snap u : Nat) :
    ∀ (g rest : List InternalEntry) (skip : Option Nat),
      (∀ e ∈ g, e.userKey = u) →
      (∀ v, skip = some v → v < u) →
      dbForward snap (g ++ rest) skip =
        match g.find? (fun e => e.seq ≤ snap) with
        | none => dbForward snap rest skip
        | some e =>
          match e.ty with
          | .typeDeletion => dbForward snap rest (some u)
          | .typeValue => (u, e.val) :: dbForward snap rest (some u) := by
  intro g
  induction g with
  | nil => intro rest skip _ _; rfl
  | cons e g ih =>
    intro rest skip hgu hskip
    have he : e.userKey = u := hgu e (by simp)
    have htl : ∀ x ∈ g, x.userKey = u := fun x hx => hgu x (by simp [hx])
    rw [List.cons_append]
    simp only [dbForward]
    by_cases hle : e.seq ≤ snap
    · rw [List.find?_cons_of_pos _ (by simpa using hle), if_pos hle]
      rcases hty : e.ty
      · rw [he]
        rw [dbForward_skip_group snap u g rest htl]
        simp [hty]
      · rcases skip with _ | v
        · rw [he]
          rw [dbForward_skip_group snap u g rest htl]
          simp [hty]
        · have hnle : ¬u ≤ v := by
            have hv : v < u := hskip v rfl
            omega
          rw [he]
          rw [dbForward_skip_group snap u g rest htl]
          simp [hty, hnle]
    · rw [List.find?_cons_of_neg _ (by simpa using hle), if_neg hle]
      exact ih rest skip htl hskip

/-- Fuel-indexed main lemma for claim C1: on a sorted entry list, with
`skip` below every user key present, the forward collapsing scan yields
exactly the visible contents. -/
theorem dbForward_spec_aux (snap : Nat) :
    ∀ (n : Nat) (l : List InternalEntry), l.length ≤ n → InternalSorted l →
      ∀ skip : Option Nat, (∀ v, skip = some v → ∀ e ∈ l, v < e.userKey) →
      dbForward snap l skip = specVisible snap l := by
  intro n
  induction n with
  | zero =>
    intro l hl _ skip _
    cases l with
    | nil => rfl
    | cons a t => simp at hl
  | succ n ih =>
    intro l hl hs skip hskip
    cases l with
    | nil => rfl
    | cons e0 l2 =>
      have hp : (fun x : InternalEntry => x.userKey == e0.userKey) e0 = true :=
        by simp
      have hsplit : (e0 :: l2).takeWhile
            (fun x => x.userKey == e0.userKey) ++
          (e0 :: l2).dropWhile (fun x => x.userKey == e0.userKey) =
          e0 :: l2 :=
        List.takeWhile_append_dropWhile _ _
      have hgu : ∀ e ∈ (e0 :: l2).takeWhile
          (fun x => x.userKey == e0.userKey), e.userKey = e0.userKey :=
        fun e he => by simpa using List.mem_takeWhile_imp he
      have hgne : (e0 :: l2).takeWhile
          (fun x => x.userKey == e0.userKey) ≠ [] := by
        rw [List.takeWhile_cons]
        simp
      have hall : ∀ e ∈ e0 :: l2, e0.userKey ≤ e.userKey := by
        intro e he
        rcases List.mem_cons.mp he with rfl | he2
        · exact le_refl _
        · exact sorted_head_le e0 l2 hs e he2
      have hrest_gt : ∀ e ∈ (e0 :: l2).dropWhile
          (fun x => x.userKey == e0.userKey), e0.userKey < e.userKey :=
        rest_keys_gt (e0 :: l2) e0.userKey hs hall
      have hs_g : InternalSorted ((e0 :: l2).takeWhile
          (fun x => x.userKey == e0.userKey)) :=
        hs.sublist (List.takeWhile_prefix _).sublist
      have hs_rest : InternalSorted ((e0 :: l2).dropWhile
          (fun x => x.userKey == e0.userKey)) :=
        hs.sublist (List.dropWhile_suffix _).sublist
      have hdesc := group_seq_desc _ e0.userKey hs_g hgu
      have hrest_len : ((e0 :: l2).dropWhile
          (fun x => x.userKey == e0.userKey)).length ≤ n := by
        rw [List.dropWhile_cons]
        simp only [beq_self_eq_true, if_true]
        have hlen := (List.dropWhile_suffix
          (fun x : InternalEntry => x.userKey == e0.userKey)
          (l := l2)).sublist.length_le
        simp at hl
        omega
      have hrec1 := ih ((e0 :: l2).dropWhile
          (fun x => x.userKey == e0.userKey)) hrest_len hs_rest
      rw [← hsplit]
      rw [dbForward_group snap e0.userKey _ _ skip hgu
        (fun v hv => hskip v hv e0 (by simp))]
      rw [specVisible_group_left snap e0.userKey _ _ hgne hgu hrest_gt]
      unfold groupYield
      rw [newestLE_eq_find snap _ hdesc]
      rcases hfind : ((e0 :: l2).takeWhile
          (fun x => x.userKey == e0.userKey)).find?
          (fun e => e.seq ≤ snap) with _ | e
      · simp only [hfind, List.nil_append]
        exact hrec1 skip fun v hv e he =>
          hskip v hv e ((List.dropWhile_suffix _).sublist.mem he)
      · rcases hty : e.ty
        · simp only [hfind, hty, List.nil_append]
          exact hrec1 (some e0.userKey) fun v hv x hx => by
            cases hv
            exact hrest_gt x hx
        · simp only [hfind, hty, List.cons_append, List.nil_append]
          refine congrArg _ ?_
          exact hrec1 (some e0.userKey) fun v hv x hx => by
            cases hv
            exact hrest_gt x hx

/-- `dbBackStep` composes over list append. -/
theorem dbBackStep_append (snap : Nat) :
    ∀ (xs ys : List InternalEntry) (st : Option (Nat × Nat)),
      dbBackStep snap st (xs ++ ys) =
        dbBackStep snap (dbBackStep snap st xs) ys := by
  intro xs
  induction xs with
  | nil => intro ys st; rfl
  | cons e xs ih =>
    intro ys st
    rw [List.cons_append]
    simp only [dbBackStep]
    by_cases hle : e.seq ≤ snap
    · rw [if_pos hle, if_pos hle]
      exact ih ys _
    · rw [if_neg hle, if_neg hle]
      exact ih ys st

/-- Scanning the reverse of a descending-sequence run, the final saved
state is decided by the run's newest entry visible at the snapshot. -/
theorem dbBackStep_reverse (snap : Nat) :
    ∀ g : List InternalEntry, (g.Pairwise fun a b => b.seq < a.seq) →
      ∀ st : Option (Nat × Nat),
      dbBackStep snap st g.reverse =
        match g.find? (fun e => e.seq ≤ snap) with
        | none => st
        | some e =>
          match e.ty with
          | .typeDeletion => none
          | .typeValue => some (e.userKey, e.val) := by
  intro g
  induction g with
  | nil => intro _ st; rfl
  | cons e g ih =>
    intro hs st
    rw [List.reverse_cons]
    rw [dbBackStep_append]
    by_cases hle : e.seq ≤ snap
    · rw [List.find?_cons_of_pos _ (by simpa using hle)]
      simp only [dbBackStep, if_pos hle]
    · rw [List.find?_cons_of_neg _ (by simpa using hle)]
      simp only [dbBackStep, if_neg hle]
      exact ih (List.pairwise_cons.mp hs).2 st

/-- The backward scan consumes a leading run of user key `u` (the largest
key seen so far) by folding it into the saved state: the run's own entries
never trigger the emit-and-restart break. -/
theorem dbBackward_group (snap u : Nat) :
    ∀ (gr m : List InternalEntry) (st : Option (Nat × Nat)),
      (∀ e ∈ gr, e.userKey = u) →
      (∀ p : Nat × Nat, st = some p → p.1 = u) →
      dbBackward snap (gr ++ m) st =
        dbBackward snap m (dbBackStep snap st gr) := by
  intro gr
  induction gr with
  | nil => intro m st _ _; rfl
  | cons e gr ih =>
    intro m st hgu hst
    have he : e.userKey = u := hgu e (by simp)
    have htl : ∀ x ∈ gr, x.userKey = u := fun x hx => hgu x (by simp [hx])
    rw [List.cons_append]
    simp only [dbBackward, dbBackStep]
    by_cases hle : e.seq ≤ snap
    · rw [if_pos hle, if_pos hle]
      rcases st with _ | ⟨p1, p2⟩
      · rcases hty : e.ty <;> simp only [hty]
        · exact ih m none htl (fun p hp => by cases hp)
        · exact ih m _ htl (fun p hp => by cases hp; exact he)
      · have hp1 : p1 = u := hst (p1, p2) rfl
        dsimp only
        rw [if_neg (by omega : ¬e.userKey < p1)]
        rcases hty : e.ty <;> simp only [hty]
        · exact ih m none htl (fun p hp => by cases hp)
        · exact ih m _ htl (fun p hp => by cases hp; exact he)
    · rw [if_neg hle, if_neg hle]
      exact ih m st htl hst

/-- With a saved pair for user key `u` and all remaining keys below `u`,
the backward scan emits the pair at its first visible entry (or at the
front of the list) and continues with a cleared state. -/
theorem dbBackward_emit (snap u : Nat) (p : Nat × Nat) :
    ∀ m : List InternalEntry, p.1 = u → (∀ e ∈ m, e.userKey < u) →
      dbBackward snap m (some p) = p :: dbBackward snap m none := by
  intro m
  induction m with
  | nil => intro _ _; rfl
  | cons e m ih =>
    intro hp hm
    have he : e.userKey < u := hm e (by simp)
    simp only [dbBackward]
    by_cases hle : e.seq ≤ snap
    · rw [if_pos hle, if_pos hle]
      rw [if_pos (by omega : e.userKey < p.1)]
    · rw [if_neg hle, if_neg hle]
      exact ih hp fun x hx => hm x (by simp [hx])

/-- Fuel-indexed main lemma for claim C6: on a sorted entry list, the
backward collapsing scan from the end yields the reverse of the visible
contents. -/
theorem dbBackward_spec_aux (snap : Nat) :
    ∀ (n : Nat) (l : List InternalEntry), l.length ≤ n → InternalSorted l →
      dbBackward snap l.reverse none = (specVisible snap l).reverse := by
  intro n
  induction n with
  | zero =>
    intro l hl _
    cases l with
    | nil => rfl
    | cons a t => simp at hl
  | succ n ih =>
    intro l hl hs
    rcases hrev : l.reverse with _ | ⟨r0, rl2⟩
    · have hnil : l = [] := by
        have := congrArg List.reverse hrev
        simpa using this
      rw [hnil]
      rfl
    · have hrevSorted : (r0 :: rl2).Pairwise (fun a b => entryLT b a) := by
        rw [← hrev]
        exact List.pairwise_reverse.mpr hs
      have hall_le : ∀ e ∈ r0 :: rl2, e.userKey ≤ r0.userKey := by
        intro e he
        rcases List.mem_cons.mp he with rfl | he2
        · exact le_refl _
        · rcases (List.pairwise_cons.mp hrevSorted).1 e he2 with h | ⟨h, _⟩
          · exact le_of_lt h
          · exact le_of_eq h
      have hsplit2 : (r0 :: rl2).takeWhile
            (fun x => x.userKey == r0.userKey) ++
          (r0 :: rl2).dropWhile (fun x => x.userKey == r0.userKey) =
          r0 :: rl2 :=
        List.takeWhile_append_dropWhile _ _
      have hm_lt : ∀ e ∈ (r0 :: rl2).dropWhile
          (fun x => x.userKey == r0.userKey), e.userKey < r0.userKey :=
        revRest_keys_lt (r0 :: rl2) r0.userKey hrevSorted hall_le
      have hgru : ∀ e ∈ (r0 :: rl2).takeWhile
          (fun x => x.userKey == r0.userKey), e.userKey = r0.userKey :=
        fun e he => by simpa using List.mem_takeWhile_imp he
      have hgrne : (r0 :: rl2).takeWhile
          (fun x => x.userKey == r0.userKey) ≠ [] := by
        rw [List.takeWhile_cons]
        simp
      have hl2 : l = ((r0 :: rl2).dropWhile
            (fun x => x.userKey == r0.userKey)).reverse ++
          ((r0 :: rl2).takeWhile
            (fun x => x.userKey == r0.userKey)).reverse := by
        conv_lhs => rw [← List.reverse_reverse l, hrev, ← hsplit2]
        rw [List.reverse_append]
      have hs2 : InternalSorted (((r0 :: rl2).dropWhile
            (fun x => x.userKey == r0.userKey)).reverse ++
          ((r0 :: rl2).takeWhile
            (fun x => x.userKey == r0.userKey)).reverse) := by
        rw [← hl2]
        exact hs
      have hs_front : InternalSorted ((r0 :: rl2).dropWhile
          (fun x => x.userKey == r0.userKey)).reverse :=
        (List.pairwise_append.mp hs2).1
      have hs_g : InternalSorted ((r0 :: rl2).takeWhile
          (fun x => x.userKey == r0.userKey)).reverse :=
        (List.pairwise_append.mp hs2).2.1
      have hgu_rev : ∀ e ∈ ((r0 :: rl2).takeWhile
          (fun x => x.userKey == r0.userKey)).reverse,
          e.userKey = r0.userKey :=
        fun e he => hgru e (List.mem_reverse.mp he)
      have hdesc_g := group_seq_desc _ r0.userKey hs_g hgu_rev
      have hfront_lt : ∀ e ∈ ((r0 :: rl2).dropWhile
          (fun x => x.userKey == r0.userKey)).reverse,
          e.userKey < r0.userKey :=
        fun e he => hm_lt e (List.mem_reverse.mp he)
      have hfront_len : (((r0 :: rl2).dropWhile
          (fun x => x.userKey == r0.userKey)).reverse).length ≤ n := by
        rw [List.length_reverse]
        rw [List.dropWhile_cons]
        simp only [beq_self_eq_true, if_true]
        have hlen := (List.dropWhile_suffix
          (fun x : InternalEntry => x.userKey == r0.userKey)
          (l := rl2)).sublist.length_le
        have hll : l.length = rl2.length + 1 := by
          rw [← List.length_reverse, hrev]
          rfl
        omega
      have hrec1 := ih _ hfront_len hs_front
      rw [List.reverse_reverse] at hrec1
      conv_lhs => rw [← hsplit2]
      rw [dbBackward_group snap r0.userKey _ _ none hgru
        (fun p hp => by cases hp)]
      have hstep : dbBackStep snap none ((r0 :: rl2).takeWhile
          (fun x => x.userKey == r0.userKey)) =
          match (((r0 :: rl2).takeWhile
              (fun x => x.userKey == r0.userKey)).reverse).find?
              (fun e => e.seq ≤ snap) with
          | none => none
          | some e =>
            match e.ty with
            | .typeDeletion => none
            | .typeValue => some (e.userKey, e.val) := by
        conv_lhs => rw [← List.reverse_reverse ((r0 :: rl2).takeWhile
          (fun x => x.userKey == r0.userKey))]
        exact dbBackStep_reverse snap _ hdesc_g none
      rw [hstep]
      conv_rhs => rw [hl2]
      rw [specVisible_group_right snap r0.userKey _ _
        (by simpa using hgrne) hgu_rev hfront_lt]
      unfold groupYield
      rw [newestLE_eq_find snap _ hdesc_g]
      rcases hfind : (((r0 :: rl2).takeWhile
          (fun x => x.userKey == r0.userKey)).reverse).find?
          (fun e => e.seq ≤ snap) with _ | e
      · simp only [hfind]
        rw [List.append_nil]
        exact hrec1
      · have hemem := List.mem_of_find?_eq_some hfind
        have heu : e.userKey = r0.userKey := hgu_rev e hemem
        rcases hty : e.ty
        · simp only [hfind, hty]
          rw [List.append_nil]
          exact hrec1
        · simp only [hfind, hty]
          rw [heu]
          rw [dbBackward_emit snap r0.userKey (r0.userKey, e.val) _ rfl
            hm_lt]
          rw [hrec1]
          rw [List.reverse_append]
          rfl

/-- Claim C1: for every database state (sorted list of internal entries)
and snapshot `snap`, iterating the DB iterator from `seek_to_first` via
`next` yields exactly, in user-comparator order, the pairs obtained by
taking for each user key its entry with the largest sequence `≤ snap` and
dropping every user key whose newest such entry is a deletion. -/
theorem dbIter_snapshot_isolation (snap : Nat) (l : List InternalEntry)
    (hs : InternalSorted l) :
    dbForward snap l none = specVisible snap l :=
  dbForward_spec_aux snap l.length l le_rfl hs none fun _ hv => by cases hv

/-- Witness for the C1 theorem: scenario S1 (deletion masking) at
snapshots 2, 3 and 1. -/
theorem dbIter_snapshot_isolation_witness :
    InternalSorted s1Entries ∧
      dbForward 2 s1Entries none = specVisible 2 s1Entries ∧
      dbForward 2 s1Entries none = [] ∧
      dbForward 3 s1Entries none = [(0, 3)] ∧
      dbForward 1 s1Entries none = [(0, 1)] :=
  ⟨by decide, dbIter_snapshot_isolation 2 s1Entries (by decide), by decide,
    by decide, by decide⟩

/-- Claim C6: for every DB iterator over a sorted database state and any
snapshot, the `seek_to_first`/`next` sequence is exactly the reverse of the
`seek_to_last`/`prev` sequence. -/
theorem dbIter_forward_reverse_equiv (snap : Nat) (l : List InternalEntry)
    (hs : InternalSorted l) :
    dbForward snap l none = (dbBackward snap l.reverse none).reverse := by
  rw [dbBackward_spec_aux snap l.length l le_rfl hs, List.reverse_reverse]
  exact dbForward_spec_aux snap l.length l le_rfl hs none fun _ hv => by
    cases hv

/-- Witness for the C6 theorem on the S1 database at snapshot 3 (and the
evaluated sequences on a larger two-key state). -/
theorem dbIter_forward_reverse_equiv_witness :
    InternalSorted s1Entries ∧
      dbForward 3 s1Entries none =
        (dbBackward 3 s1Entries.reverse none).reverse :=
  ⟨by decide, dbIter_forward_reverse_equiv 3 s1Entries (by decide)⟩

/-! #### Filter block round-trip lemmas (claim C4) -/

/-- `getD` of a map over `List.range`. -/
theorem getD_map_range (f : Nat → Nat) (n i : Nat) (h : i < n) :
    (((List.range n).map f).getD i 0) = f i := by
  rw [List.getD_eq_getElem _ _ (by simpa using h)]
  simp

/-- Length of `startsOf`. -/
theorem startsOf_length (parts : List Bytes) :
    (startsOf parts).length = parts.length := by
  simp [startsOf]

/-- `startsOf` after appending one part. -/
theorem startsOf_append_one (parts : List Bytes) (k : Bytes) :
    startsOf (parts ++ [k]) = startsOf parts ++ [parts.flatten.length] := by
  unfold startsOf
  rw [List.length_append, List.length_singleton, List.range_succ,
    List.map_append]
  congr 1
  · refine List.map_congr_left fun i hi => ?_
    rw [List.take_append_of_le_length (le_of_lt (List.mem_range.mp hi))]
  · rw [List.map_singleton, List.take_append_of_le_length (le_refl _)]
    rw [List.take_length]

/-- Entries of `startsOf`, by position. -/
theorem startsOf_getD (parts : List Bytes) (i : Nat) (h : i < parts.length) :
    (startsOf parts).getD i 0 = ((parts.take i).flatten).length := by
  unfold startsOf
  exact getD_map_range _ _ _ h

/-- Slicing the flattened parts at consecutive start positions recovers a
part. -/
theorem flatten_slice (parts : List Bytes) (i : Nat) (h : i < parts.length) :
    ((parts.flatten.drop ((parts.take i).flatten.length)).take
        ((parts.take (i + 1)).flatten.length -
          (parts.take i).flatten.length)) = parts.getD i [] := by
  have hdecomp : parts = parts.take i ++ parts.getD i [] :: parts.drop (i+1) := by
    conv_lhs => rw [← List.take_append_drop i parts]
    congr 1
    rw [List.getD_eq_getElem _ _ h]
    exact List.drop_eq_getElem_cons h
  have htake : parts.take (i + 1) = parts.take i ++ [parts.getD i []] := by
    rw [List.getD_eq_getElem _ _ h]
    rw [List.take_concat_get' parts i h]
  rw [htake]
  rw [List.flatten_append]
  rw [List.length_append]
  rw [Nat.add_sub_cancel_left]
  have hflat : parts.flatten =
      (parts.take i).flatten ++
        (parts.getD i [] ++ (parts.drop (i+1)).flatten) := by
    conv_lhs => rw [hdecomp]
    rw [List.flatten_append, List.flatten_cons]
  rw [hflat]
  rw [List.drop_append_of_le_length (le_refl _)]
  rw [List.drop_length, List.nil_append]
  have hlen : ([parts.getD i []] : List Bytes).flatten.length =
      (parts.getD i []).length := by simp
  rw [hlen]
  exact List.take_left _ _

/-- The key list `GenerateFilter` rebuilds from the flattened buffer is the
pending key list. -/
theorem generate_tmpKeys (pend : List Bytes) :
    (List.range (startsOf pend).length).map (fun i =>
      ((pend.flatten).drop
          ((startsOf pend ++ [pend.flatten.length]).getD i 0)).take
        ((startsOf pend ++ [pend.flatten.length]).getD (i + 1) 0 -
          (startsOf pend ++ [pend.flatten.length]).getD i 0)) = pend := by
  rw [startsOf_length]
  have hext : ∀ j ≤ pend.length,
      (startsOf pend ++ [pend.flatten.length]).getD j 0 =
        ((pend.take j).flatten).length := by
    intro j hj
    rcases lt_or_eq_of_le hj with hlt | heq
    · rw [List.getD_append _ _ _ _ (by rw [startsOf_length]; exact hlt)]
      exact startsOf_getD pend j hlt
    · subst heq
      rw [List.getD_append_right _ _ _ _ (by rw [startsOf_length])]
      rw [startsOf_length, Nat.sub_self]
      simp
  refine List.ext_getElem (by simp) fun i h1 h2 => ?_
  have hi : i < pend.length := by simpa using h2
  rw [List.getElem_map, List.getElem_range]
  rw [hext i (le_of_lt hi), hext (i + 1) hi]
  rw [flatten_slice pend i hi]
  rw [List.getD_eq_getElem _ _ hi]

/-- Effect of `GenerateFilter` under the invariant: the pending keys are
committed as the next filter group. -/
theorem generateFilter_inv (cf : List Bytes → Bytes)
    (gs : List (List Bytes)) (pend : List Bytes) (b : FilterBlockBuilder)
    (hinv : fbInv cf gs pend b) :
    fbInv cf (gs ++ [pend]) [] (b.generateFilter cf) := by
  obtain ⟨hkeys, hstarts, hres, hoffs⟩ := hinv
  unfold FilterBlockBuilder.generateFilter
  by_cases hz : b.starts.length = 0
  · have hpend : pend = [] := by
      rw [hstarts, startsOf_length] at hz
      exact List.eq_nil_of_length_eq_zero hz
    rw [if_pos hz]
    subst hpend
    refine ⟨hkeys, hstarts, ?_, ?_⟩
    · rw [hres]
      simp [resultOf, filterBytes]
    · rw [hoffs, hres]
      unfold resultOf
      rw [List.map_append]
      simp only [List.map_cons, List.map_nil]
      rw [startsOf_append_one]
  · rw [if_neg hz]
    have hpend : pend.length ≠ 0 := by
      rw [hstarts, startsOf_length] at hz
      exact hz
    refine ⟨by simp, by simp [startsOf], ?_, ?_⟩
    · dsimp only
      rw [hres, hkeys, hstarts]
      rw [generate_tmpKeys pend]
      unfold resultOf
      rw [List.map_append]
      simp [filterBytes, hpend]
    · dsimp only
      rw [hoffs, hres]
      rw [List.map_append]
      simp only [List.map_cons, List.map_nil]
      rw [startsOf_append_one]
      rfl

/-- Effect of `AddKey` under the invariant. -/
theorem addKey_inv (cf : List Bytes → Bytes) (gs : List (List Bytes))
    (pend : List Bytes) (k : Bytes) (b : FilterBlockBuilder)
    (hinv : fbInv cf gs pend b) :
    fbInv cf gs (pend ++ [k]) (b.addKey k) := by
  obtain ⟨hkeys, hstarts, hres, hoffs⟩ := hinv
  refine ⟨?_, ?_, hres, hoffs⟩
  · unfold FilterBlockBuilder.addKey
    rw [hkeys]
    simp
  · unfold FilterBlockBuilder.addKey
    rw [hstarts, hkeys, startsOf_append_one]

/-- The `StartBlock` loop on an empty pending set pads with empty groups
up to the window index. -/
theorem startBlockGo_inv_aux (cf : List Bytes → Bytes) :
    ∀ (fuel fi : Nat) (gs : List (List Bytes)) (b : FilterBlockBuilder),
      fbInv cf gs [] b → fi ≤ gs.length + fuel →
      fbInv cf (gs ++ List.replicate (fi - gs.length) []) []
        (FilterBlockBuilder.startBlockGo cf fi fuel b) := by
  intro fuel
  induction fuel with
  | zero =>
    intro fi gs b hinv hle
    have : fi - gs.length = 0 := by omega
    rw [this]
    simpa using hinv
  | succ fuel ih =>
    intro fi gs b hinv hle
    unfold FilterBlockBuilder.startBlockGo
    have hsz : b.filterOffsets.length = gs.length := by
      rw [hinv.2.2.2, startsOf_length, List.length_map]
    by_cases hlt : b.filterOffsets.length < fi
    · rw [if_pos hlt]
      have h2 := ih fi (gs ++ [[]]) (b.generateFilter cf)
        (generateFilter_inv cf gs [] b hinv) (by simp; omega)
      have : gs ++ [[]] ++ List.replicate (fi - (gs ++ [[]]).length) [] =
          gs ++ List.replicate (fi - gs.length) [] := by
        rw [List.append_assoc]
        congr 1
        have h3 : fi - gs.length = (fi - (gs.length + 1)) + 1 := by omega
        rw [h3]
        simp [List.replicate_succ]
      rw [← this]
      simpa using h2
    · rw [if_neg hlt]
      have : fi - gs.length = 0 := by omega
      rw [this]
      simpa using hinv

/-- Effect of `StartBlock` under the invariant: it matches the ghost
step. -/
theorem startBlock_inv (cf : List Bytes → Bytes) (o : Nat)
    (gs : List (List Bytes)) (pend : List Bytes) (b : FilterBlockBuilder)
    (hinv : fbInv cf gs pend b) :
    fbInv cf (specFBStep (gs, pend) (FOp.start o)).1
      (specFBStep (gs, pend) (FOp.start o)).2
      (FilterBlockBuilder.startBlock cf o b) := by
  have hsz : b.filterOffsets.length = gs.length := by
    rw [hinv.2.2.2, startsOf_length, List.length_map]
  simp only [FilterBlockBuilder.startBlock, specFBStep]
  by_cases hlt : gs.length < o / 2048
  · rw [if_pos hlt]
    rcases hfuel : o / 2048 with _ | fuel
    · omega
    · unfold FilterBlockBuilder.startBlockGo
      rw [if_pos (by omega)]
      have h2 := startBlockGo_inv_aux cf fuel (o / 2048) (gs ++ [pend])
        (b.generateFilter cf) (generateFilter_inv cf gs pend b hinv)
        (by simp; omega)
      have h3 : gs ++ [pend] ++
          List.replicate (o / 2048 - (gs ++ [pend]).length) [] =
          gs ++ [pend] ++ List.replicate (o / 2048 - gs.length - 1) [] := by
        congr 2
        simp
        omega
      rw [h3] at h2
      rw [hfuel] at h2
      exact h2
  · rw [if_neg hlt]
    rcases hfuel : o / 2048 with _ | fuel
    · exact hinv
    · unfold FilterBlockBuilder.startBlockGo
      rw [if_neg (by omega)]
      exact hinv

/-- Running any call sequence preserves the invariant, with the ghost state
advanced by `specFB`. -/
theorem runFilterOps_inv (cf : List Bytes → Bytes) :
    ∀ (ops : List FOp) (gs : List (List Bytes)) (pend : List Bytes)
      (b : FilterBlockBuilder), fbInv cf gs pend b →
      fbInv cf (specFB (gs, pend) ops).1 (specFB (gs, pend) ops).2
        (runFilterOps cf b ops) := by
  intro ops
  induction ops with
  | nil => intro gs pend b hinv; exact hinv
  | cons op ops ih =>
    intro gs pend b hinv
    rcases op with o | k
    · have h1 := startBlock_inv cf o gs pend b hinv
      simp only [runFilterOps, specFB]
      exact (by
        have := ih _ _ _ h1
        simpa using this)
    · have h1 := addKey_inv cf gs pend k b hinv
      simp only [runFilterOps, specFB, specFBStep]
      exact ih _ _ _ h1

/-- `Finish` under the invariant produces exactly the canonical layout for
the final groups. -/
theorem finish_eq_filterContents (cf : List Bytes → Bytes)
    (gs : List (List Bytes)) (pend : List Bytes) (b : FilterBlockBuilder)
    (hinv : fbInv cf gs pend b) :
    b.finish cf = filterContents cf (fbFinalGroups (gs, pend)) := by
  have hsz : b.starts.length = pend.length := by
    rw [hinv.2.1, startsOf_length]
  simp only [FilterBlockBuilder.finish, fbFinalGroups]
  by_cases hp : pend.length = 0
  · rw [if_neg (by omega : ¬b.starts.length ≠ 0)]
    rw [if_pos hp]
    rw [hinv.2.2.1, hinv.2.2.2]
    rfl
  · rw [if_pos (by omega : b.starts.length ≠ 0)]
    rw [if_neg hp]
    have h2 := generateFilter_inv cf gs pend b hinv
    rw [h2.2.2.1, h2.2.2.2]
    rfl

/-- Flattened fixed32 encodings take 4 bytes per value. -/
theorem flatten_put_length (vs : List Nat) :
    ((vs.map putFixed32).flatten).length = 4 * vs.length := by
  induction vs with
  | nil => rfl
  | cons v vs ih =>
    simp only [List.map_cons, List.flatten_cons, List.length_append, ih,
      List.length_cons]
    simp [putFixed32]
    omega

/-- `getD` after `drop`. -/
theorem getD_drop (l : Bytes) (i j d : Nat) :
    (l.drop i).getD j d = l.getD (i + j) d := by
  rw [List.getD_eq_getElem?_getD, List.getD_eq_getElem?_getD,
    List.getElem?_drop]

/-- `DecodeFixed32` at position `p` only reads the tail from `p` on. -/
theorem decodeFixed32_drop (s : Bytes) (p : Nat) :
    decodeFixed32 s p = decodeFixed32 (s.drop p) 0 := by
  simp [decodeFixed32, getD_drop]

/-- Decoding a fixed32 at the start of its own encoding. -/
theorem decodeFixed32_put_prefix (v : Nat) (rest : Bytes) :
    decodeFixed32 (putFixed32 v ++ rest) 0 = v % 4294967296 := by
  simp [decodeFixed32, putFixed32, List.getD]
  omega

/-- Dropping to the `i`-th encoded fixed32 inside a flattened encoding. -/
theorem flatten_put_drop (vs : List Nat) :
    ∀ i, i < vs.length →
      ((vs.map putFixed32).flatten).drop (4 * i) =
        putFixed32 (vs.getD i 0) ++
          ((vs.drop (i + 1)).map putFixed32).flatten := by
  induction vs with
  | nil => intro i h; simp at h
  | cons v vs ih =>
    intro i h
    cases i with
    | zero => simp [putFixed32]
    | succ i =>
      have h4 : 4 * (i + 1) = 4 + 4 * i := by omega
      simp only [List.map_cons, List.flatten_cons]
      rw [h4]
      have hstep :
          (putFixed32 v ++ (vs.map putFixed32).flatten).drop (4 + 4 * i) =
            ((vs.map putFixed32).flatten).drop (4 * i) := by
        have h5 : (4 : Nat) + 4 * i = (putFixed32 v).length + 4 * i := rfl
        rw [h5, List.drop_append]
      rw [hstep, ih i (by simpa using h)]
      simp

/-- Decoding the `i`-th fixed32 of a flattened encoding embedded between a
prefix and a suffix. -/
theorem decode_concat_fixed32 (pre : Bytes) (vs : List Nat) (suf : Bytes)
    (i : Nat) (h : i < vs.length) :
    decodeFixed32 (pre ++ ((vs.map putFixed32).flatten ++ suf))
        (pre.length + 4 * i) = vs.getD i 0 % 4294967296 := by
  rw [decodeFixed32_drop, List.drop_append]
  rw [List.drop_append_of_le_length (by rw [flatten_put_length]; omega)]
  rw [flatten_put_drop vs i h, List.append_assoc]
  exact decodeFixed32_put_prefix _ _

/-- Entry `j` of the extended start-offset table is the length of the first
`j` parts flattened, up to and including `j = parts.length`. -/
theorem startsOf_ext_getD (parts : List Bytes) (j : Nat)
    (h : j ≤ parts.length) :
    (startsOf parts ++ [parts.flatten.length]).getD j 0 =
      ((parts.take j).flatten).length := by
  rcases lt_or_eq_of_le h with hlt | heq
  · rw [List.getD_append _ _ _ _ (by rw [startsOf_length]; exact hlt)]
    exact startsOf_getD parts j hlt
  · subst heq
    rw [List.getD_append_right _ _ _ _ (by rw [startsOf_length])]
    rw [startsOf_length, Nat.sub_self]
    simp

/-- A flattened prefix is no longer than the whole flattened list. -/
theorem take_flatten_length_le (parts : List Bytes) (j : Nat) :
    ((parts.take j).flatten).length ≤ parts.flatten.length := by
  conv_rhs => rw [← List.take_append_drop j parts]
  rw [List.flatten_append, List.length_append]
  omega

/-- The canonical `Finish` layout written as prefix, fixed32 table and
trailing byte. -/
theorem filterContents_form (cf : List Bytes → Bytes)
    (gs : List (List Bytes)) :
    filterContents cf gs = resultOf cf gs ++
      ((((startsOf (gs.map (filterBytes cf)) ++
          [(resultOf cf gs).length]).map putFixed32).flatten) ++ [11]) := by
  unfold filterContents
  rw [List.map_append, List.flatten_append]
  simp [List.append_assoc]

/-- Length of the canonical `Finish` layout. -/
theorem filterContents_length (cf : List Bytes → Bytes)
    (gs : List (List Bytes)) :
    (filterContents cf gs).length =
      (resultOf cf gs).length + 4 * gs.length + 5 := by
  rw [filterContents_form]
  simp only [List.length_append, flatten_put_length, List.length_append,
    startsOf_length, List.length_map, List.length_singleton]
  omega

/-- Parsing the canonical `Finish` layout: the reader recovers the filter
count, the offset-array position and `base_lg_ = 11`. -/
theorem mkFilterBlockReader_filterContents (cf : List Bytes → Bytes)
    (gs : List (List Bytes))
    (hfit : (resultOf cf gs).length < 4294967296) :
    mkFilterBlockReader (filterContents cf gs) =
      ⟨filterContents cf gs, gs.length, (resultOf cf gs).length, 11⟩ := by
  have hn := filterContents_length cf gs
  have hlast : decodeFixed32 (filterContents cf gs)
      ((filterContents cf gs).length - 5) = (resultOf cf gs).length := by
    rw [filterContents_form]
    have hpos : (filterContents cf gs).length - 5 =
        (resultOf cf gs).length + 4 * gs.length := by omega
    rw [filterContents_form] at hpos
    rw [hpos]
    have hdec := decode_concat_fixed32 (resultOf cf gs)
      (startsOf (gs.map (filterBytes cf)) ++ [(resultOf cf gs).length])
      [11] gs.length
      (by simp [startsOf_length])
    rw [hdec]
    rw [List.getD_append_right _ _ _ _
      (by rw [startsOf_length, List.length_map])]
    rw [startsOf_length, List.length_map, Nat.sub_self]
    simpa using Nat.mod_eq_of_lt hfit
  have hbase : (filterContents cf gs).getD
      ((filterContents cf gs).length - 1) 0 = 11 := by
    have hform : filterContents cf gs = (resultOf cf gs ++
        (((startsOf (gs.map (filterBytes cf)) ++
          [(resultOf cf gs).length]).map putFixed32).flatten)) ++ [11] := by
      rw [filterContents_form, List.append_assoc]
    have hlen3 : ((resultOf cf gs ++
        (((startsOf (gs.map (filterBytes cf)) ++
          [(resultOf cf gs).length]).map putFixed32).flatten)) ++
          [11]).length - 1 =
        (resultOf cf gs ++
          (((startsOf (gs.map (filterBytes cf)) ++
            [(resultOf cf gs).length]).map putFixed32).flatten)).length := by
      simp
      omega
    rw [hform, hlen3]
    rw [List.getD_append_right _ _ _ _ (le_refl _), Nat.sub_self]
    rfl
  unfold mkFilterBlockReader
  rw [if_neg (by omega)]
  rw [hbase, hlast]
  rw [if_neg (by omega)]
  have hnum : ((filterContents cf gs).length - 5 -
      (resultOf cf gs).length) / 4 = gs.length := by
    rw [hn]
    omega
  rw [hnum]

/-- A key that went into the committed group of window `w` passes
`KeyMayMatch` for every block offset mapping to `w`, for any policy whose
matcher accepts every key handed to its filter creator. -/
theorem keyMayMatch_filterContents (kmm : Bytes → Bytes → Bool)
    (cf : List Bytes → Bytes) (gs : List (List Bytes)) (o : Nat) (k : Bytes)
    (hw : o / 2048 < gs.length)
    (hk : k ∈ gs.getD (o / 2048) [])
    (hfit : (resultOf cf gs).length < 4294967296)
    (hsound : ∀ (ks : List Bytes) (key : Bytes), key ∈ ks →
      kmm key (cf ks) = true) :
    keyMayMatch kmm (mkFilterBlockReader (filterContents cf gs)) o k =
      true := by
  rw [mkFilterBlockReader_filterContents cf gs hfit]
  have hshift : o >>> 11 = o / 2048 := by
    rw [Nat.shiftRight_eq_div_pow]
  simp only [keyMayMatch, hshift]
  rw [if_pos hw]
  have hparts : (gs.map (filterBytes cf)).length = gs.length := by
    rw [List.length_map]
  have hflat : resultOf cf gs = (gs.map (filterBytes cf)).flatten := rfl
  have hextlen : (startsOf (gs.map (filterBytes cf)) ++
      [(resultOf cf gs).length]).length = gs.length + 1 := by
    simp [startsOf_length]
  have hstart : decodeFixed32 (filterContents cf gs)
      ((resultOf cf gs).length + 4 * (o / 2048)) =
      (((gs.map (filterBytes cf)).take (o / 2048)).flatten).length := by
    rw [filterContents_form]
    rw [decode_concat_fixed32 _ _ _ _ (by omega)]
    rw [hflat]
    rw [startsOf_ext_getD _ _ (by omega)]
    have h1 := take_flatten_length_le (gs.map (filterBytes cf)) (o / 2048)
    rw [← hflat] at h1
    exact Nat.mod_eq_of_lt (by omega)
  have hlimit : decodeFixed32 (filterContents cf gs)
      ((resultOf cf gs).length + 4 * (o / 2048) + 4) =
      (((gs.map (filterBytes cf)).take (o / 2048 + 1)).flatten).length := by
    have h4 : (resultOf cf gs).length + 4 * (o / 2048) + 4 =
        (resultOf cf gs).length + 4 * (o / 2048 + 1) := by omega
    rw [h4, filterContents_form]
    rw [decode_concat_fixed32 _ _ _ _ (by omega)]
    rw [hflat]
    rw [startsOf_ext_getD _ _ (by omega)]
    have h1 := take_flatten_length_le (gs.map (filterBytes cf)) (o / 2048 + 1)
    rw [← hflat] at h1
    exact Nat.mod_eq_of_lt (by omega)
  rw [hstart, hlimit]
  have hSL : (((gs.map (filterBytes cf)).take (o / 2048)).flatten).length ≤
      (((gs.map (filterBytes cf)).take (o / 2048 + 1)).flatten).length := by
    have ht : (gs.map (filterBytes cf)).take (o / 2048) =
        ((gs.map (filterBytes cf)).take (o / 2048 + 1)).take (o / 2048) := by
      rw [List.take_take]
      congr 1
      omega
    rw [ht]
    exact take_flatten_length_le _ _
  have hLR : (((gs.map (filterBytes cf)).take (o / 2048 + 1)).flatten).length ≤
      (resultOf cf gs).length := by
    rw [hflat]
    exact take_flatten_length_le _ _
  rw [if_pos ⟨hSL, hLR⟩]
  have hslice : (((filterContents cf gs).drop
        ((((gs.map (filterBytes cf)).take (o / 2048)).flatten).length)).take
      ((((gs.map (filterBytes cf)).take (o / 2048 + 1)).flatten).length -
        (((gs.map (filterBytes cf)).take (o / 2048)).flatten).length)) =
      (gs.map (filterBytes cf)).getD (o / 2048) [] := by
    rw [filterContents_form]
    rw [List.drop_append_of_le_length
      (by rw [hflat]; exact take_flatten_length_le _ _)]
    rw [List.take_append_of_le_length ?hle]
    case hle =>
      rw [List.length_drop, hflat]
      have := take_flatten_length_le (gs.map (filterBytes cf)) (o / 2048 + 1)
      omega
    rw [hflat]
    exact flatten_slice _ _ (by omega)
  rw [hslice]
  have hgetD : (gs.map (filterBytes cf)).getD (o / 2048) [] =
      filterBytes cf (gs.getD (o / 2048) []) := by
    rw [List.getD_eq_getElem _ _ (by omega), List.getElem_map,
      ← List.getD_eq_getElem _ _ hw]
  rw [hgetD]
  unfold filterBytes
  rw [if_neg (by
    intro h0
    rw [List.eq_nil_of_length_eq_zero h0] at hk
    simp at hk)]
  exact hsound _ _ hk

/-- The ghost run splits over appended call sequences. -/
theorem specFB_append (a b : List FOp) :
    ∀ st, specFB st (a ++ b) = specFB (specFB st a) b := by
  induction a with
  | nil => intro st; rfl
  | cons op a ih =>
    intro st
    simp only [List.cons_append, specFB]
    exact ih _

/-- `startOffsets` splits over appended call sequences. -/
theorem startOffsets_append (a b : List FOp) :
    startOffsets (a ++ b) = startOffsets a ++ startOffsets b := by
  induction a with
  | nil => rfl
  | cons op a ih =>
    rcases op with o | kk
    · simp only [List.cons_append, startOffsets, List.append_eq, ih]
    · simp only [List.cons_append, startOffsets, List.append_eq, ih]

/-- The committed group count stays below any bound dominating every
targeted window. -/
theorem specFB_length_le (W : Nat) :
    ∀ (ops : List FOp) (st : List (List Bytes) × List Bytes),
      (∀ o' ∈ startOffsets ops, o' / 2048 ≤ W) → st.1.length ≤ W →
      (specFB st ops).1.length ≤ W := by
  intro ops
  induction ops with
  | nil => intro st _ h; exact h
  | cons op ops ih =>
    intro st hall hle
    rcases op with o | kk
    · simp only [specFB]
      refine ih _ (fun o' h => hall o' (by simp [startOffsets, h])) ?_
      simp only [specFBStep]
      have ho := hall o (by simp [startOffsets])
      by_cases hlt : st.1.length < o / 2048
      · rw [if_pos hlt]
        simp
        omega
      · rw [if_neg hlt]
        exact hle
    · simp only [specFB]
      refine ih _ (fun o' h => hall o' (by simpa [startOffsets] using h)) hle

/-- After a `StartBlock` whose window index dominates the current group
count, the group count is exactly that window index. -/
theorem specFBStep_start_length (st : List (List Bytes) × List Bytes)
    (o : Nat) (hle : st.1.length ≤ o / 2048) :
    (specFBStep st (FOp.start o)).1.length = o / 2048 := by
  simp only [specFBStep]
  by_cases hc : st.1.length < o / 2048
  · rw [if_pos hc]
    simp
    omega
  · rw [if_neg hc]
    omega

/-- A run of `AddKey` calls leaves the committed groups untouched. -/
theorem specFB_adds_fst :
    ∀ (mid : List FOp) (st : List (List Bytes) × List Bytes),
      (∀ x ∈ mid, ∃ kk, x = FOp.add kk) → (specFB st mid).1 = st.1 := by
  intro mid
  induction mid with
  | nil => intro st _; rfl
  | cons op ops ih =>
    intro st hall
    obtain ⟨kk, hk⟩ := hall op (by simp)
    subst hk
    simp only [specFB, specFBStep]
    exact ih _ (fun x hx => hall x (by simp [hx]))

/-- The ghost key location is preserved by every later builder call. -/
theorem keyAt_preserved :
    ∀ (ops : List FOp) (st : List (List Bytes) × List Bytes) (w : Nat)
      (k : Bytes), keyAt w k st → keyAt w k (specFB st ops) := by
  intro ops
  induction ops with
  | nil => intro st w k h; exact h
  | cons op ops ih =>
    intro st w k h
    simp only [specFB]
    refine ih _ _ _ ?_
    rcases op with o | kk
    · simp only [keyAt, specFBStep] at h ⊢
      rcases h with ⟨hlen, hmem⟩ | ⟨hlt, hmem⟩
      · by_cases hc : st.1.length < o / 2048
        · rw [if_pos hc]
          refine Or.inr ⟨by simp; omega, ?_⟩
          rw [List.append_assoc]
          rw [List.getD_append_right _ _ _ _ (le_of_eq hlen)]
          rw [hlen, Nat.sub_self]
          simpa using hmem
        · rw [if_neg hc]
          exact Or.inl ⟨hlen, hmem⟩
      · by_cases hc : st.1.length < o / 2048
        · rw [if_pos hc]
          refine Or.inr ⟨by simp; omega, ?_⟩
          rw [List.append_assoc]
          rw [List.getD_append _ _ _ _ hlt]
          exact hmem
        · rw [if_neg hc]
          exact Or.inr ⟨hlt, hmem⟩
    · simp only [keyAt, specFBStep] at h ⊢
      rcases h with ⟨hlen, hmem⟩ | ⟨hlt, hmem⟩
      · exact Or.inl ⟨hlen, by simp [hmem]⟩
      · exact Or.inr ⟨hlt, hmem⟩

/-- At `Finish`, the ghost key location gives a committed group of the
final group list. -/
theorem keyAt_final (st : List (List Bytes) × List Bytes) (w : Nat)
    (k : Bytes) (h : keyAt w k st) :
    w < (fbFinalGroups st).length ∧ k ∈ (fbFinalGroups st).getD w [] := by
  simp only [keyAt, fbFinalGroups] at h ⊢
  rcases h with ⟨hlen, hmem⟩ | ⟨hlt, hmem⟩
  · have hne : st.2.length ≠ 0 := by
      intro h0
      rw [List.eq_nil_of_length_eq_zero h0] at hmem
      simp at hmem
    rw [if_neg hne]
    refine ⟨by simp; omega, ?_⟩
    rw [List.getD_append_right _ _ _ _ (le_of_eq hlen)]
    rw [hlen, Nat.sub_self]
    exact hmem
  · by_cases h0 : st.2.length = 0
    · rw [if_pos h0]
      exact ⟨hlt, hmem⟩
    · rw [if_neg h0]
      refine ⟨by simp; omega, ?_⟩
      rw [List.getD_append _ _ _ _ hlt]
      exact hmem

/-- C4: in a builder call sequence with non-decreasing block offsets, every
key `k` added after `StartBlock o` and before any later `StartBlock` is
matched by `KeyMayMatch o k` on a reader constructed from the `Finish`
output, for any filter policy whose matcher accepts every key that was in
the key list handed to its filter creator (false positives allowed, no
false negatives on round trip). -/
theorem filterBlock_roundTrip (kmm : Bytes → Bytes → Bool)
    (cf : List Bytes → Bytes) (pre mid post : List FOp) (o : Nat)
    (k : Bytes)
    (hmid : ∀ x ∈ mid, ∃ kk, x = FOp.add kk)
    (hchain : List.Chain' (fun a b => a ≤ b)
      (startOffsets (pre ++ FOp.start o :: (mid ++ FOp.add k :: post))))
    (hfit : (resultOf cf (fbFinalGroups (specFB ([], [])
        (pre ++ FOp.start o :: (mid ++ FOp.add k :: post))))).length <
      4294967296)
    (hsound : ∀ (ks : List Bytes) (key : Bytes), key ∈ ks →
      kmm key (cf ks) = true) :
    keyMayMatch kmm
      (mkFilterBlockReader
        (FilterBlockBuilder.finish cf
          (runFilterOps cf FilterBlockBuilder.init
            (pre ++ FOp.start o :: (mid ++ FOp.add k :: post)))))
      o k = true := by
  have hinv0 : fbInv cf [] [] FilterBlockBuilder.init :=
    ⟨rfl, rfl, rfl, rfl⟩
  have hrun := runFilterOps_inv cf
    (pre ++ FOp.start o :: (mid ++ FOp.add k :: post)) [] []
    FilterBlockBuilder.init hinv0
  have hfin := finish_eq_filterContents cf _ _ _ hrun
  rw [hfin]
  have hmono : ∀ o' ∈ startOffsets pre, o' ≤ o := by
    rw [List.chain'_iff_pairwise] at hchain
    rw [startOffsets_append] at hchain
    rw [List.pairwise_append] at hchain
    intro o' h
    exact hchain.2.2 o' h o (by simp [startOffsets])
  have hst1 :
      (specFB (([], []) : List (List Bytes) × List Bytes) pre).1.length ≤
        o / 2048 :=
    specFB_length_le (o / 2048) pre ([], [])
      (fun o' h => Nat.div_le_div_right (hmono o' h)) (by simp)
  have hst2 := specFBStep_start_length
    (specFB (([], []) : List (List Bytes) × List Bytes) pre) o hst1
  have hst3 := specFB_adds_fst mid
    (specFBStep (specFB (([], []) : List (List Bytes) × List Bytes) pre)
      (FOp.start o)) hmid
  have hkey4 : keyAt (o / 2048) k
      (specFBStep
        (specFB
          (specFBStep (specFB (([], []) : List (List Bytes) × List Bytes)
            pre) (FOp.start o)) mid)
        (FOp.add k)) := by
    unfold keyAt
    refine Or.inl ⟨?_, ?_⟩
    · show (specFB
          (specFBStep (specFB (([], []) : List (List Bytes) × List Bytes)
            pre) (FOp.start o)) mid).1.length = o / 2048
      rw [hst3]
      exact hst2
    · show k ∈ (specFB
          (specFBStep (specFB (([], []) : List (List Bytes) × List Bytes)
            pre) (FOp.start o)) mid).2 ++ [k]
      simp
  have hkeyF := keyAt_preserved post _ (o / 2048) k hkey4
  have hsplit : specFB (([], []) : List (List Bytes) × List Bytes)
      (pre ++ FOp.start o :: (mid ++ FOp.add k :: post)) =
      specFB
        (specFBStep
          (specFB
            (specFBStep (specFB (([], []) : List (List Bytes) × List Bytes)
              pre) (FOp.start o)) mid)
          (FOp.add k)) post := by
    rw [specFB_append]
    simp only [specFB]
    rw [specFB_append]
    simp only [specFB]
  rw [hsplit] at hfit ⊢
  obtain ⟨hwlt, hkmem⟩ := keyAt_final _ _ _ hkeyF
  exact keyMayMatch_filterContents kmm cf _ o k hwlt hkmem hfit hsound

/-- Witness for claim C4: the call sequence `[StartBlock 0, AddKey [5]]`
followed by `Finish`, with the identity-flatten filter creator and an
always-true matcher. -/
theorem filterBlock_roundTrip_witness :
    keyMayMatch (fun _ _ => true)
      (mkFilterBlockReader
        (FilterBlockBuilder.finish (fun ks => ks.flatten)
          (runFilterOps (fun ks => ks.flatten) FilterBlockBuilder.init
            ([] ++ FOp.start 0 :: ([] ++ FOp.add [5] :: [])))))
      0 [5] = true :=
  filterBlock_roundTrip (fun _ _ => true) (fun ks => ks.flatten) [] [] []
    0 [5] (by simp) (by simp [startOffsets]) (by decide)
    (fun _ _ _ => rfl)

/-- Witness for the amended C8 theorem: the filter-negative path on
`getEnvFilter` returns ok with no handler call and no block read, and the
clean-read path on `getEnvCex` reports ok with handler entries drawn from
the block. -/
theorem internalGet_filter_negative_and_missing_witness :
    internalGet getEnvFilter [1] = (Status.ok, [], []) ∧
      (internalGet getEnvCex [1]).1 = Status.ok :=
  ⟨(internalGet_filter_negative_and_missing getEnvFilter [1]).1
      [9] [7] (fun _ _ => false) ⟨0, 5⟩ rfl rfl rfl rfl,
    ((internalGet_filter_negative_and_missing getEnvCex [1]).2.2
      [9] [7] ⟨0, 5⟩ [([2], [42])] rfl rfl rfl).1⟩

/-! ### Merging-iterator equivalence (claim C2): list utilities -/

/-- `findIdx?` only depends on the predicate's values on the members. -/
theorem findIdx?_congr_mem {α : Type} (p q : α → Bool) :
    ∀ (l : List α) (base : Nat), (∀ x ∈ l, p x = q x) →
      l.findIdx? p base = l.findIdx? q base := by
  intro l
  induction l with
  | nil => intro base _; rfl
  | cons a t ih =>
    intro base h
    rw [List.findIdx?_cons, List.findIdx?_cons, h a (by simp)]
    by_cases hq : q a = true
    · rw [if_pos hq, if_pos hq]
    · rw [if_neg hq, if_neg hq]
      exact ih _ (fun x hx => h x (by simp [hx]))

/-- `takeWhile` only depends on the predicate's values on the members. -/
theorem takeWhile_congr_mem {α : Type} (p q : α → Bool) :
    ∀ l : List α, (∀ x ∈ l, p x = q x) →
      l.takeWhile p = l.takeWhile q := by
  intro l
  induction l with
  | nil => intro _; rfl
  | cons a t ih =>
    intro h
    rw [List.takeWhile_cons, List.takeWhile_cons, h a (by simp)]
    by_cases hq : q a = true
    · rw [if_pos hq, if_pos hq, ih (fun x hx => h x (by simp [hx]))]
    · rw [if_neg hq, if_neg hq]

/-- `findIdx?` of a negated predicate stops right after the maximal true
prefix of the predicate. -/
theorem findIdx?_not_takeWhile {α : Type} (p : α → Bool) :
    ∀ (l : List α) (base : Nat),
      (l.findIdx? (fun x => !(p x)) base) =
        if (l.takeWhile p).length < l.length then
          some (base + (l.takeWhile p).length) else none := by
  intro l
  induction l with
  | nil => intro base; simp
  | cons a t ih =>
    intro base
    rw [List.findIdx?_cons, List.takeWhile_cons]
    by_cases hp : p a = true
    · rw [if_neg (by simp [hp]), ih (base + 1), if_pos hp]
      by_cases hlt : (t.takeWhile p).length < t.length
      · rw [if_pos hlt, if_pos (by simp; omega)]
        congr 1
        simp
        omega
      · rw [if_neg hlt, if_neg (by simp; omega)]
    · rw [if_pos (by simp [hp]), if_neg hp]
      rw [if_pos (by simp)]
      simp

/-- `findIdx?` via the maximal failing prefix. -/
theorem findIdx?_eq_takeWhile_not {α : Type} (p : α → Bool) (l : List α)
    (base : Nat) :
    l.findIdx? p base =
      if (l.takeWhile fun x => !(p x)).length < l.length then
        some (base + (l.takeWhile fun x => !(p x)).length) else none := by
  have h := findIdx?_not_takeWhile (fun x => !(p x)) l base
  simpa using h

/-- Entrywise description of the maximal true prefix. -/
theorem takeWhile_spec {α : Type} (p : α → Bool) (d : α) :
    ∀ l : List α,
      (∀ i, i < (l.takeWhile p).length → p (l.getD i d) = true) ∧
        ((l.takeWhile p).length < l.length →
          p (l.getD (l.takeWhile p).length d) = false) := by
  intro l
  induction l with
  | nil => simp
  | cons a t ih =>
    rw [List.takeWhile_cons]
    by_cases hp : p a = true
    · rw [if_pos hp]
      constructor
      · intro i hi
        cases i with
        | zero => simpa using hp
        | succ i =>
          rw [List.getD_cons_succ]
          exact ih.1 i (by simpa using hi)
      · intro hlt
        rw [List.length_cons, List.getD_cons_succ]
        exact ih.2 (by simpa using hlt)
    · rw [if_neg hp]
      rw [Bool.not_eq_true] at hp
      constructor
      · intro i hi
        simp at hi
      · intro _
        simpa using hp

/-- Computing the length of the maximal true prefix from entrywise facts. -/
theorem takeWhile_length_eq {α : Type} (p : α → Bool) (d : α) :
    ∀ (l : List α) (n : Nat), n ≤ l.length →
      (∀ i, i < n → p (l.getD i d) = true) →
      (n < l.length → p (l.getD n d) = false) →
      (l.takeWhile p).length = n := by
  intro l
  induction l with
  | nil =>
    intro n hn _ _
    simp at hn
    simp [hn]
  | cons a t ih =>
    intro n hn htrue hfalse
    rw [List.takeWhile_cons]
    cases n with
    | zero =>
      have hf := hfalse (by simp)
      rw [List.getD_cons_zero] at hf
      rw [if_neg (by simp [hf])]
      rfl
    | succ n =>
      have ht := htrue 0 (by omega)
      rw [List.getD_cons_zero] at ht
      rw [if_pos ht, List.length_cons]
      have hrec := ih n (by simpa using hn)
        (fun i hi => by
          have h2 := htrue (i + 1) (by omega)
          rwa [List.getD_cons_succ] at h2)
        (fun hlt => by
          have h2 := hfalse (by simpa using hlt)
          rwa [List.getD_cons_succ] at h2)
      omega

/-- A full-length true prefix means the predicate holds on every member. -/
theorem takeWhile_all {α : Type} (p : α → Bool) (l : List α)
    (h : (l.takeWhile p).length = l.length) : ∀ x ∈ l, p x = true := by
  have hself : l.takeWhile p = l :=
    (List.takeWhile_prefix p).eq_of_length h
  intro x hx
  rw [← hself] at hx
  exact List.mem_takeWhile_imp hx

/-- Stable insertion produces a permutation of consing. -/
theorem insertByKey_perm (p : Nat × Nat) :
    ∀ l, (insertByKey p l).Perm (p :: l) := by
  intro l
  induction l with
  | nil => exact List.Perm.refl _
  | cons q t ih =>
    rw [insertByKey]
    by_cases h : p.1 < q.1
    · rw [if_pos h]
    · rw [if_neg h]
      exact (ih.cons q).trans (List.Perm.swap p q t)

/-- Folding stable insertions permutes the accumulator and the input. -/
theorem foldl_insertByKey_perm :
    ∀ (l acc : List (Nat × Nat)),
      (l.foldl (fun a q => insertByKey q a) acc).Perm (acc ++ l) := by
  intro l
  induction l with
  | nil => intro acc; simpa using List.Perm.refl acc
  | cons q t ih =>
    intro acc
    rw [List.foldl_cons]
    refine (ih (insertByKey q acc)).trans ?_
    refine (List.Perm.append_right t (insertByKey_perm q acc)).trans ?_
    simpa using (List.perm_middle).symm

/-- The materialized merge is a permutation of the concatenated children. -/
theorem mergedList_perm (css : List (List (Nat × Nat))) :
    (mergedList css).Perm css.flatten := by
  unfold mergedList
  simpa using foldl_insertByKey_perm css.flatten []

/-- Membership in the materialized merge. -/
theorem mem_mergedList (css : List (List (Nat × Nat))) (p : Nat × Nat) :
    p ∈ mergedList css ↔ p ∈ css.flatten :=
  (mergedList_perm css).mem_iff

/-- Stable insertion preserves key-sortedness. -/
theorem insertByKey_sorted (p : Nat × Nat) :
    ∀ l, List.Pairwise (fun a b : Nat × Nat => a.1 ≤ b.1) l →
      List.Pairwise (fun a b : Nat × Nat => a.1 ≤ b.1) (insertByKey p l) := by
  intro l
  induction l with
  | nil => intro _; simp [insertByKey]
  | cons q t ih =>
    intro hs
    rw [List.pairwise_cons] at hs
    obtain ⟨hq, ht⟩ := hs
    rw [insertByKey]
    by_cases h : p.1 < q.1
    · rw [if_pos h]
      rw [List.pairwise_cons]
      refine ⟨?_, ?_⟩
      · intro a ha
        rcases List.mem_cons.mp ha with rfl | ha2
        · omega
        · have := hq a ha2
          omega
      · rw [List.pairwise_cons]
        exact ⟨hq, ht⟩
    · rw [if_neg h]
      rw [List.pairwise_cons]
      refine ⟨?_, ih ht⟩
      intro a ha
      have ha3 := (insertByKey_perm p t).mem_iff.mp ha
      rcases List.mem_cons.mp ha3 with rfl | ha2
      · omega
      · exact hq a ha2

/-- Folding stable insertions preserves key-sortedness. -/
theorem foldl_insertByKey_sorted :
    ∀ (l acc : List (Nat × Nat)),
      List.Pairwise (fun a b : Nat × Nat => a.1 ≤ b.1) acc →
      List.Pairwise (fun a b : Nat × Nat => a.1 ≤ b.1)
        (l.foldl (fun a q => insertByKey q a) acc) := by
  intro l
  induction l with
  | nil => intro acc h; exact h
  | cons q t ih =>
    intro acc h
    rw [List.foldl_cons]
    exact ih _ (insertByKey_sorted q acc h)

/-- The materialized merge is sorted by key. -/
theorem mergedList_sorted (css : List (List (Nat × Nat))) :
    List.Pairwise (fun a b : Nat × Nat => a.1 ≤ b.1) (mergedList css) := by
  unfold mergedList
  exact foldl_insertByKey_sorted css.flatten [] List.Pairwise.nil

/-- Under globally distinct keys the merge's key list is duplicate-free. -/
theorem mergedList_nodupKeys (css : List (List (Nat × Nat)))
    (h : (css.flatten.map Prod.fst).Nodup) :
    ((mergedList css).map Prod.fst).Nodup :=
  ((mergedList_perm css).map Prod.fst).nodup_iff.mpr h

/-- Under globally distinct keys the merge is strictly sorted by key. -/
theorem mergedList_strict (css : List (List (Nat × Nat)))
    (h : (css.flatten.map Prod.fst).Nodup) :
    List.Pairwise (fun a b : Nat × Nat => a.1 < b.1) (mergedList css) := by
  have hs := mergedList_sorted css
  have hn := mergedList_nodupKeys css h
  unfold List.Nodup at hn
  rw [List.pairwise_map] at hn
  exact (hs.and hn).imp fun hab => lt_of_le_of_ne hab.1 hab.2

/-- In a list with duplicate-free keys, a key determines the entry. -/
theorem nodup_map_key_inj :
    ∀ (es : List (Nat × Nat)), ((es.map Prod.fst).Nodup) →
      ∀ (p q : Nat × Nat), p ∈ es → q ∈ es → p.1 = q.1 → p = q := by
  intro es
  induction es with
  | nil => intro _ p q hp; simp at hp
  | cons a t ih =>
    intro hnd p q hp hq hk
    rw [List.map_cons, List.nodup_cons] at hnd
    obtain ⟨hna, hnt⟩ := hnd
    rcases List.mem_cons.mp hp with rfl | hp2
    · rcases List.mem_cons.mp hq with rfl | hq2
      · rfl
      · exact absurd (hk ▸ List.mem_map_of_mem Prod.fst hq2) hna
    · rcases List.mem_cons.mp hq with rfl | hq2
      · exact absurd (hk ▸ List.mem_map_of_mem Prod.fst hp2) hna
      · exact ih hnt p q hp2 hq2 hk

/-- `getD` of a member list is a member. -/
theorem getD_mem {α : Type} (l : List α) (i : Nat) (d : α)
    (h : i < l.length) : l.getD i d ∈ l := by
  rw [List.getD_eq_getElem _ _ h]
  exact List.getElem_mem h

/-- Under globally distinct keys, an entry key pins down both the owning
child and the entry. -/
theorem nodup_flatten_unique :
    ∀ (css : List (List (Nat × Nat))),
      ((css.flatten.map Prod.fst).Nodup) →
      ∀ (i j : Nat) (p q : Nat × Nat), i < css.length → j < css.length →
        p ∈ css.getD i [] → q ∈ css.getD j [] → p.1 = q.1 →
        i = j ∧ p = q := by
  intro css
  induction css with
  | nil => intro _ i j p q hi; simp at hi
  | cons es t ih =>
    intro hnd i j p q hi hj hp hq hk
    rw [List.flatten_cons, List.map_append, List.nodup_append] at hnd
    obtain ⟨h1, h2, hdisj⟩ := hnd
    rw [List.disjoint_left] at hdisj
    cases i with
    | zero =>
      cases j with
      | zero =>
        rw [List.getD_cons_zero] at hp hq
        exact ⟨rfl, nodup_map_key_inj es h1 p q hp hq hk⟩
      | succ j =>
        exfalso
        rw [List.getD_cons_zero] at hp
        rw [List.getD_cons_succ] at hq
        refine hdisj (List.mem_map_of_mem Prod.fst hp) ?_
        rw [hk]
        refine List.mem_map_of_mem Prod.fst ?_
        rw [List.mem_flatten]
        exact ⟨t.getD j [], getD_mem t j [] (by simpa using hj), hq⟩
    | succ i =>
      cases j with
      | zero =>
        exfalso
        rw [List.getD_cons_zero] at hq
        rw [List.getD_cons_succ] at hp
        refine hdisj (List.mem_map_of_mem Prod.fst hq) ?_
        rw [← hk]
        refine List.mem_map_of_mem Prod.fst ?_
        rw [List.mem_flatten]
        exact ⟨t.getD i [], getD_mem t i [] (by simpa using hi), hp⟩
      | succ j =>
        rw [List.getD_cons_succ] at hp hq
        obtain ⟨hij, hpq⟩ := ih h2 i j p q (by simpa using hi)
          (by simpa using hj) hp hq hk
        exact ⟨by omega, hpq⟩

/-- What `FindSmallest` returns is the key of a valid child at the returned
index. -/
theorem findSmallestFrom_sound :
    ∀ (cs : List ChildIter) (base j k : Nat),
      findSmallestFrom base cs = some (j, k) →
      base ≤ j ∧ j - base < cs.length ∧
        (cs.getD (j - base) ⟨[], none⟩).valid = true ∧
        (cs.getD (j - base) ⟨[], none⟩).key = k := by
  intro cs
  induction cs with
  | nil => intro base j k h; simp [findSmallestFrom] at h
  | cons c t ih =>
    intro base j k h
    rw [findSmallestFrom] at h
    by_cases hv : c.valid = true
    · rw [if_pos hv] at h
      cases hr : findSmallestFrom (base + 1) t with
      | none =>
        rw [hr] at h
        simp at h
        obtain ⟨rfl, rfl⟩ := h
        refine ⟨le_refl _, by simp, ?_, ?_⟩
        · rw [Nat.sub_self, List.getD_cons_zero]
          exact hv
        · rw [Nat.sub_self, List.getD_cons_zero]
      | some jk =>
        obtain ⟨j2, k2⟩ := jk
        rw [hr] at h
        by_cases hlt : k2 < c.key
        · simp [hlt] at h
          obtain ⟨rfl, rfl⟩ := h
          obtain ⟨h1, h2, h3, h4⟩ := ih (base + 1) j2 k2 hr
          have hj : j2 - base = (j2 - (base + 1)) + 1 := by omega
          rw [hj, List.getD_cons_succ]
          exact ⟨by omega, by simp; omega, h3, h4⟩
        · simp [hlt] at h
          obtain ⟨rfl, rfl⟩ := h
          refine ⟨le_refl _, by simp, ?_, ?_⟩
          · rw [Nat.sub_self, List.getD_cons_zero]
            exact hv
          · rw [Nat.sub_self, List.getD_cons_zero]
    · rw [if_neg hv] at h
      obtain ⟨h1, h2, h3, h4⟩ := ih (base + 1) j k h
      have hj : j - base = (j - (base + 1)) + 1 := by omega
      rw [hj, List.getD_cons_succ]
      exact ⟨by omega, by simp; omega, h3, h4⟩

/-- What `FindLargest` returns is the key of a valid child at the returned
index. -/
theorem findLargestFrom_sound :
    ∀ (cs : List ChildIter) (base j k : Nat),
      findLargestFrom base cs = some (j, k) →
      base ≤ j ∧ j - base < cs.length ∧
        (cs.getD (j - base) ⟨[], none⟩).valid = true ∧
        (cs.getD (j - base) ⟨[], none⟩).key = k := by
  intro cs
  induction cs with
  | nil => intro base j k h; simp [findLargestFrom] at h
  | cons c t ih =>
    intro base j k h
    rw [findLargestFrom] at h
    by_cases hv : c.valid = true
    · rw [if_pos hv] at h
      cases hr : findLargestFrom (base + 1) t with
      | none =>
        rw [hr] at h
        simp at h
        obtain ⟨rfl, rfl⟩ := h
        refine ⟨le_refl _, by simp, ?_, ?_⟩
        · rw [Nat.sub_self, List.getD_cons_zero]
          exact hv
        · rw [Nat.sub_self, List.getD_cons_zero]
      | some jk =>
        obtain ⟨j2, k2⟩ := jk
        rw [hr] at h
        by_cases hlt : k2 < c.key
        · simp [hlt] at h
          obtain ⟨rfl, rfl⟩ := h
          refine ⟨le_refl _, by simp, ?_, ?_⟩
          · rw [Nat.sub_self, List.getD_cons_zero]
            exact hv
          · rw [Nat.sub_self, List.getD_cons_zero]
        · simp [hlt] at h
          obtain ⟨rfl, rfl⟩ := h
          obtain ⟨h1, h2, h3, h4⟩ := ih (base + 1) j2 k2 hr
          have hj : j2 - base = (j2 - (base + 1)) + 1 := by omega
          rw [hj, List.getD_cons_succ]
          exact ⟨by omega, by simp; omega, h3, h4⟩
    · rw [if_neg hv] at h
      obtain ⟨h1, h2, h3, h4⟩ := ih (base + 1) j k h
      have hj : j - base = (j - (base + 1)) + 1 := by omega
      rw [hj, List.getD_cons_succ]
      exact ⟨by omega, by simp; omega, h3, h4⟩

/-- `FindSmallest` with all children invalid. -/
theorem findSmallestFrom_none :
    ∀ (cs : List ChildIter) (base : Nat),
      (∀ c ∈ cs, c.valid = false) → findSmallestFrom base cs = none := by
  intro cs
  induction cs with
  | nil => intro base _; rfl
  | cons c t ih =>
    intro base h
    rw [findSmallestFrom]
    rw [if_neg (by simp [h c (by simp)])]
    exact ih _ fun x hx => h x (by simp [hx])

/-- `FindLargest` with all children invalid. -/
theorem findLargestFrom_none :
    ∀ (cs : List ChildIter) (base : Nat),
      (∀ c ∈ cs, c.valid = false) → findLargestFrom base cs = none := by
  intro cs
  induction cs with
  | nil => intro base _; rfl
  | cons c t ih =>
    intro base h
    rw [findLargestFrom]
    rw [if_neg (by simp [h c (by simp)])]
    exact ih _ fun x hx => h x (by simp [hx])

/-- `FindSmallest` selects the unique child holding the global minimum of
the children's current keys. -/
theorem findSmallestFrom_at (K : Nat) :
    ∀ (cs : List ChildIter) (base c : Nat), c < cs.length →
      (cs.getD c ⟨[], none⟩).valid = true →
      (cs.getD c ⟨[], none⟩).key = K →
      (∀ i, i < cs.length → (cs.getD i ⟨[], none⟩).valid = true →
        K ≤ (cs.getD i ⟨[], none⟩).key) →
      (∀ i, i < cs.length → i ≠ c →
        (cs.getD i ⟨[], none⟩).valid = true →
        (cs.getD i ⟨[], none⟩).key ≠ K) →
      findSmallestFrom base cs = some (base + c, K) := by
  intro cs
  induction cs with
  | nil => intro base c hc; simp at hc
  | cons ch t ih =>
    intro base c hc hv hk hlow huniq
    rw [findSmallestFrom]
    cases c with
    | zero =>
      rw [List.getD_cons_zero] at hv hk
      rw [if_pos hv]
      cases hr : findSmallestFrom (base + 1) t with
      | none => simp [hk]
      | some jk =>
        obtain ⟨j2, k2⟩ := jk
        obtain ⟨h1, h2, h3, h4⟩ := findSmallestFrom_sound t (base + 1)
          j2 k2 hr
        have hge : K ≤ k2 := by
          have h5 := hlow (j2 - (base + 1) + 1) (by simp; omega)
            (by rwa [List.getD_cons_succ])
          rwa [List.getD_cons_succ, h4] at h5
        have hne : k2 ≠ K := by
          have h5 := huniq (j2 - (base + 1) + 1) (by simp; omega)
            (by omega) (by rwa [List.getD_cons_succ])
          rwa [List.getD_cons_succ, h4] at h5
        have h7 : ¬k2 < K := by omega
        simp [hk, h7]
    | succ c =>
      have hrec := ih (base + 1) c (by simpa using hc)
        (by rwa [List.getD_cons_succ] at hv)
        (by rwa [List.getD_cons_succ] at hk)
        (fun i hi hvi => by
          have h5 := hlow (i + 1) (by simp; omega)
            (by rwa [List.getD_cons_succ])
          rwa [List.getD_cons_succ] at h5)
        (fun i hi hic hvi => by
          have h5 := huniq (i + 1) (by simp; omega) (by omega)
            (by rwa [List.getD_cons_succ])
          rwa [List.getD_cons_succ] at h5)
      by_cases hv0 : ch.valid = true
      · rw [if_pos hv0, hrec]
        have h1 := hlow 0 (by simp) (by rwa [List.getD_cons_zero])
        have h2 := huniq 0 (by simp) (by omega)
          (by rwa [List.getD_cons_zero])
        rw [List.getD_cons_zero] at h1 h2
        have h7 : K < ch.key := by omega
        have h6 : base + 1 + c = base + (c + 1) := by omega
        simp [h7, h6]
      · rw [if_neg hv0, hrec]
        have h6 : base + 1 + c = base + (c + 1) := by omega
        rw [h6]

/-- `FindLargest` selects the unique child holding the global maximum of
the children's current keys. -/
theorem findLargestFrom_at (K : Nat) :
    ∀ (cs : List ChildIter) (base c : Nat), c < cs.length →
      (cs.getD c ⟨[], none⟩).valid = true →
      (cs.getD c ⟨[], none⟩).key = K →
      (∀ i, i < cs.length → (cs.getD i ⟨[], none⟩).valid = true →
        (cs.getD i ⟨[], none⟩).key ≤ K) →
      (∀ i, i < cs.length → i ≠ c →
        (cs.getD i ⟨[], none⟩).valid = true →
        (cs.getD i ⟨[], none⟩).key ≠ K) →
      findLargestFrom base cs = some (base + c, K) := by
  intro cs
  induction cs with
  | nil => intro base c hc; simp at hc
  | cons ch t ih =>
    intro base c hc hv hk hhigh huniq
    rw [findLargestFrom]
    cases c with
    | zero =>
      rw [List.getD_cons_zero] at hv hk
      rw [if_pos hv]
      cases hr : findLargestFrom (base + 1) t with
      | none => simp [hk]
      | some jk =>
        obtain ⟨j2, k2⟩ := jk
        obtain ⟨h1, h2, h3, h4⟩ := findLargestFrom_sound t (base + 1)
          j2 k2 hr
        have hge : k2 ≤ K := by
          have h5 := hhigh (j2 - (base + 1) + 1) (by simp; omega)
            (by rwa [List.getD_cons_succ])
          rwa [List.getD_cons_succ, h4] at h5
        have hne : k2 ≠ K := by
          have h5 := huniq (j2 - (base + 1) + 1) (by simp; omega)
            (by omega) (by rwa [List.getD_cons_succ])
          rwa [List.getD_cons_succ, h4] at h5
        have h7 : k2 < K := by omega
        simp [hk, h7]
    | succ c =>
      have hrec := ih (base + 1) c (by simpa using hc)
        (by rwa [List.getD_cons_succ] at hv)
        (by rwa [List.getD_cons_succ] at hk)
        (fun i hi hvi => by
          have h5 := hhigh (i + 1) (by simp; omega)
            (by rwa [List.getD_cons_succ])
          rwa [List.getD_cons_succ] at h5)
        (fun i hi hic hvi => by
          have h5 := huniq (i + 1) (by simp; omega) (by omega)
            (by rwa [List.getD_cons_succ])
          rwa [List.getD_cons_succ] at h5)
      by_cases hv0 : ch.valid = true
      · rw [if_pos hv0, hrec]
        have h1 := hhigh 0 (by simp) (by rwa [List.getD_cons_zero])
        have h2 := huniq 0 (by simp) (by omega)
          (by rwa [List.getD_cons_zero])
        rw [List.getD_cons_zero] at h1 h2
        have h7 : ¬K < ch.key := by omega
        have h6 : base + 1 + c = base + (c + 1) := by omega
        simp [h7, h6]
      · rw [if_neg hv0, hrec]
        have h6 : base + 1 + c = base + (c + 1) := by omega
        rw [h6]

/-- A child of the forward shape. -/
theorem fwdChildren_getD (css : List (List (Nat × Nat))) (K : Nat)
    (i : Nat) (hi : i < css.length) :
    (fwdChildren css K).getD i ⟨[], none⟩ =
      ⟨css.getD i [], (css.getD i []).findIdx? fun p => K ≤ p.1⟩ := by
  unfold fwdChildren
  rw [List.getD_eq_getElem _ _ (by simpa using hi), List.getElem_map]
  rw [List.getD_eq_getElem _ _ hi]

/-- A child of the reverse shape. -/
theorem revChildren_getD (css : List (List (Nat × Nat))) (K : Nat)
    (i : Nat) (hi : i < css.length) :
    (revChildren css K).getD i ⟨[], none⟩ =
      ⟨css.getD i [], posLastLE (css.getD i []) K⟩ := by
  unfold revChildren
  rw [List.getD_eq_getElem _ _ (by simpa using hi), List.getElem_map]
  rw [List.getD_eq_getElem _ _ hi]

/-- Where `Seek` can land: in bounds, on an entry with key `≥ t`. -/
theorem seek_pos_bound (es : List (Nat × Nat)) (t n : Nat)
    (h : (es.findIdx? fun p => t ≤ p.1) = some n) :
    n < es.length ∧ t ≤ (es.getD n (0, 0)).1 := by
  rw [findIdx?_eq_takeWhile_not] at h
  by_cases hlt :
      (es.takeWhile fun x => !(decide (t ≤ x.1))).length < es.length
  · rw [if_pos hlt] at h
    simp at h
    have hsp := (takeWhile_spec (fun x => !(decide (t ≤ x.1)))
      (0, 0) es).2 hlt
    rw [h] at hlt hsp
    simp only [Bool.not_eq_false', decide_eq_true_eq] at hsp
    exact ⟨hlt, hsp⟩
  · rw [if_neg hlt] at h
    simp at h

/-- Where the reverse position can sit: in bounds, on an entry with key
`≤ t`. -/
theorem lastLE_pos_bound (es : List (Nat × Nat)) (t n : Nat)
    (h : posLastLE es t = some n) :
    n < es.length ∧ (es.getD n (0, 0)).1 ≤ t := by
  unfold posLastLE at h
  cases htw : (es.takeWhile fun p => decide (p.1 ≤ t)).length with
  | zero => rw [htw] at h; simp at h
  | succ n2 =>
    rw [htw] at h
    simp at h
    have hle : (es.takeWhile fun p => decide (p.1 ≤ t)).length ≤
        es.length := (List.takeWhile_prefix _).length_le
    have hsp := (takeWhile_spec (fun p => decide (p.1 ≤ t)) (0, 0) es).1
      n2 (by omega)
    simp only [decide_eq_true_eq] at hsp
    rw [← h]
    exact ⟨by omega, hsp⟩

/-- In a strictly sorted entry list, `Seek` to a present key lands exactly
on it. -/
theorem seek_pos_at_key (es : List (Nat × Nat))
    (hs : List.Pairwise (fun a b : Nat × Nat => a.1 < b.1) es)
    (q K : Nat) (hq : q < es.length) (hk : (es.getD q (0, 0)).1 = K) :
    (es.findIdx? fun p => K ≤ p.1) = some q := by
  rw [findIdx?_eq_takeWhile_not]
  have htw : (es.takeWhile fun x => !(decide (K ≤ x.1))).length = q := by
    refine takeWhile_length_eq _ (0, 0) es q (by omega) ?_ ?_
    · intro i hi
      have hlt := List.pairwise_iff_getElem.mp hs i q (by omega) hq hi
      rw [List.getD_eq_getElem _ _ hq] at hk
      rw [List.getD_eq_getElem _ _ (by omega : i < es.length)]
      simp
      omega
    · intro _
      rw [List.getD_eq_getElem _ _ hq] at hk
      rw [List.getD_eq_getElem _ _ hq]
      simp
      omega
  rw [htw, if_pos (by omega)]
  simp

/-- In a strictly sorted entry list, the reverse position for a present key
is exactly its index. -/
theorem lastLE_pos_at_key (es : List (Nat × Nat))
    (hs : List.Pairwise (fun a b : Nat × Nat => a.1 < b.1) es)
    (q K : Nat) (hq : q < es.length) (hk : (es.getD q (0, 0)).1 = K) :
    posLastLE es K = some q := by
  unfold posLastLE
  have htw : (es.takeWhile fun p => decide (p.1 ≤ K)).length = q + 1 := by
    refine takeWhile_length_eq _ (0, 0) es (q + 1) (by omega) ?_ ?_
    · intro i hi
      rw [List.getD_eq_getElem _ _ hq] at hk
      rcases Nat.lt_or_ge i q with hiq | hiq
      · have hlt := List.pairwise_iff_getElem.mp hs i q (by omega) hq hiq
        rw [List.getD_eq_getElem _ _ (by omega : i < es.length)]
        simp
        omega
      · have hiq2 : i = q := by omega
        subst hiq2
        rw [List.getD_eq_getElem _ _ hq]
        simp
        omega
    · intro hlt
      rw [List.getD_eq_getElem _ _ hq] at hk
      have hgt := List.pairwise_iff_getElem.mp hs q (q + 1) hq hlt
        (by omega)
      rw [List.getD_eq_getElem _ _ hlt]
      simp
      omega
  rw [htw]

/-- The owning child is what `childOf` finds, under globally distinct
keys. -/
theorem childOf_spec (css : List (List (Nat × Nat)))
    (hnodup : (css.flatten.map Prod.fst).Nodup) (K : Nat) (c : Nat)
    (hc : c < css.length) (p : Nat × Nat) (hp : p ∈ css.getD c [])
    (hpk : p.1 = K) : childOf css K = some c := by
  unfold childOf
  rw [findIdx?_eq_takeWhile_not]
  have htw : (css.takeWhile fun es =>
      !(es.any fun q => decide (q.1 = K))).length = c := by
    refine takeWhile_length_eq _ [] css c (by omega) ?_ ?_
    · intro i hi
      simp only [Bool.not_eq_true']
      rw [List.any_eq_false]
      intro q hq
      simp only [decide_eq_true_eq, decide_eq_false_iff_not]
      intro hqk
      obtain ⟨hic, _⟩ := nodup_flatten_unique css hnodup i c q p
        (by omega) hc hq hp (by omega)
      omega
    · intro _
      simp only [Bool.not_eq_false']
      rw [List.any_eq_true]
      exact ⟨p, hp, by simp [hpk]⟩
  rw [htw, if_pos (by omega)]
  simp

/-- Every flattened entry lives in some child. -/
theorem owner_exists (css : List (List (Nat × Nat))) (e : Nat × Nat)
    (he : e ∈ css.flatten) :
    ∃ c, c < css.length ∧ e ∈ css.getD c [] := by
  rw [List.mem_flatten] at he
  obtain ⟨l, hl, hel⟩ := he
  obtain ⟨c, hc, rfl⟩ := List.getElem_of_mem hl
  exact ⟨c, hc, by rwa [List.getD_eq_getElem _ _ hc]⟩

/-- Length of `mapChildren`. -/
theorem mapChildren_length (f : Nat → ChildIter → ChildIter) :
    ∀ (cs : List ChildIter) (base : Nat),
      (mapChildren f base cs).length = cs.length := by
  intro cs
  induction cs with
  | nil => intro base; rfl
  | cons c t ih =>
    intro base
    rw [mapChildren, List.length_cons, List.length_cons, ih]

/-- Entries of `mapChildren`, positionally. -/
theorem mapChildren_getD (f : Nat → ChildIter → ChildIter) :
    ∀ (cs : List ChildIter) (base i : Nat), i < cs.length →
      (mapChildren f base cs).getD i ⟨[], none⟩ =
        f (base + i) (cs.getD i ⟨[], none⟩) := by
  intro cs
  induction cs with
  | nil => intro base i hi; simp at hi
  | cons c t ih =>
    intro base i hi
    rw [mapChildren]
    cases i with
    | zero => simp
    | succ i =>
      rw [List.getD_cons_succ, List.getD_cons_succ,
        ih (base + 1) i (by simpa using hi)]
      congr 1
      omega

/-- Entry lists of the merger's children, positionally. -/
theorem children_entries_getD (ch : List ChildIter)
    (css : List (List (Nat × Nat))) (h : ch.map ChildIter.entries = css)
    (i : Nat) (hi : i < css.length) :
    (ch.getD i ⟨[], none⟩).entries = css.getD i [] := by
  subst h
  rw [List.getD_eq_getElem _ _ hi, List.getElem_map]
  rw [List.getD_eq_getElem _ _ (by simpa using hi)]

/-- Each flattened entry has a position in the materialized merge. -/
theorem mem_merged_pos (css : List (List (Nat × Nat))) (p : Nat × Nat)
    (hp : p ∈ css.flatten) :
    ∃ i, i < (mergedList css).length ∧
      (mergedList css).getD i (0, 0) = p := by
  have hm : p ∈ mergedList css := (mem_mergedList css p).mpr hp
  obtain ⟨i, hi, he⟩ := List.getElem_of_mem hm
  exact ⟨i, hi, by rwa [List.getD_eq_getElem _ _ hi]⟩

/-- Strict key order between merged positions. -/
theorem merged_getD_lt (css : List (List (Nat × Nat)))
    (hnodup : (css.flatten.map Prod.fst).Nodup) (i j : Nat)
    (hi : i < (mergedList css).length) (hj : j < (mergedList css).length)
    (hij : i < j) :
    ((mergedList css).getD i (0, 0)).1 <
      ((mergedList css).getD j (0, 0)).1 := by
  have h := List.pairwise_iff_getElem.mp (mergedList_strict css hnodup)
    i j hi hj hij
  rw [List.getD_eq_getElem _ _ hi, List.getD_eq_getElem _ _ hj]
  exact h

/-- No global key lies strictly between two consecutive merged keys
(upward form). -/
theorem merged_no_gap (css : List (List (Nat × Nat)))
    (hnodup : (css.flatten.map Prod.fst).Nodup) (j : Nat)
    (hj1 : j + 1 < (mergedList css).length) (p : Nat × Nat)
    (hp : p ∈ css.flatten)
    (hgt : ((mergedList css).getD j (0, 0)).1 < p.1) :
    ((mergedList css).getD (j + 1) (0, 0)).1 ≤ p.1 := by
  obtain ⟨ip, hip, hipe⟩ := mem_merged_pos css p hp
  rcases Nat.lt_or_ge ip (j + 1) with h | h
  · exfalso
    rcases Nat.lt_or_ge ip j with h2 | h2
    · have := merged_getD_lt css hnodup ip j hip (by omega) h2
      rw [hipe] at this
      omega
    · have hje : ip = j := by omega
      rw [hje] at hipe
      rw [hipe] at hgt
      omega
  · rcases Nat.lt_or_ge (j + 1) ip with h2 | h2
    · have := merged_getD_lt css hnodup (j + 1) ip hj1 hip h2
      rw [hipe] at this
      omega
    · have hje : ip = j + 1 := by omega
      rw [hje] at hipe
      rw [hipe]

/-- No global key lies strictly between two consecutive merged keys
(downward form). -/
theorem merged_no_gap_down (css : List (List (Nat × Nat)))
    (hnodup : (css.flatten.map Prod.fst).Nodup) (j : Nat)
    (hj : j < (mergedList css).length) (hj0 : 0 < j) (p : Nat × Nat)
    (hp : p ∈ css.flatten)
    (hlt : p.1 < ((mergedList css).getD j (0, 0)).1) :
    p.1 ≤ ((mergedList css).getD (j - 1) (0, 0)).1 := by
  obtain ⟨ip, hip, hipe⟩ := mem_merged_pos css p hp
  rcases Nat.lt_or_ge (j - 1) ip with h | h
  · exfalso
    rcases Nat.lt_or_ge j ip with h2 | h2
    · have := merged_getD_lt css hnodup j ip hj hip h2
      rw [hipe] at this
      omega
    · have hje : ip = j := by omega
      rw [hje] at hipe
      rw [hipe] at hlt
      omega
  · rcases Nat.lt_or_ge ip (j - 1) with h2 | h2
    · have := merged_getD_lt css hnodup ip (j - 1) hip (by omega) h2
      rw [hipe] at this
      omega
    · have hje : ip = j - 1 := by omega
      rw [hje] at hipe
      rw [hipe]

/-- The first merged key is the global minimum. -/
theorem merged_min (css : List (List (Nat × Nat)))
    (hnodup : (css.flatten.map Prod.fst).Nodup)
    (hne : 0 < (mergedList css).length) (p : Nat × Nat)
    (hp : p ∈ css.flatten) :
    ((mergedList css).getD 0 (0, 0)).1 ≤ p.1 := by
  obtain ⟨ip, hip, hipe⟩ := mem_merged_pos css p hp
  rcases Nat.eq_zero_or_pos ip with h | h
  · rw [h] at hipe
    rw [hipe]
  · have := merged_getD_lt css hnodup 0 ip hne hip h
    rw [hipe] at this
    omega

/-- The last merged key is the global maximum. -/
theorem merged_max (css : List (List (Nat × Nat)))
    (hnodup : (css.flatten.map Prod.fst).Nodup)
    (hne : 0 < (mergedList css).length) (p : Nat × Nat)
    (hp : p ∈ css.flatten) :
    p.1 ≤ ((mergedList css).getD ((mergedList css).length - 1) (0, 0)).1 := by
  obtain ⟨ip, hip, hipe⟩ := mem_merged_pos css p hp
  rcases Nat.lt_or_ge ip ((mergedList css).length - 1) with h | h
  · have := merged_getD_lt css hnodup ip ((mergedList css).length - 1)
      hip (by omega) h
    rw [hipe] at this
    omega
  · have hje : ip = (mergedList css).length - 1 := by omega
    rw [hje] at hipe
    rw [hipe]

/-- Keys of distinct children differ under global key distinctness. -/
theorem shape_key_ne (css : List (List (Nat × Nat)))
    (hnodup : (css.flatten.map Prod.fst).Nodup) (i c : Nat)
    (hi : i < css.length) (hc : c < css.length) (hne : i ≠ c)
    (p e : Nat × Nat) (hp : p ∈ css.getD i []) (he : e ∈ css.getD c []) :
    p.1 ≠ e.1 := fun h =>
  absurd (nodup_flatten_unique css hnodup i c p e hi hc hp he h).1 hne

/-- Entries of a child are flattened entries. -/
theorem child_entry_flatten (css : List (List (Nat × Nat))) (i : Nat)
    (hi : i < css.length) (p : Nat × Nat) (hp : p ∈ css.getD i []) :
    p ∈ css.flatten := by
  rw [List.mem_flatten]
  exact ⟨css.getD i [], getD_mem css i [] hi, hp⟩

/-- The owner of merged position `j`: the child holding that entry, the
entry's index in the child, and the positions both shapes give it. -/
theorem merged_owner (css : List (List (Nat × Nat)))
    (hsorted : ∀ es ∈ css,
      List.Pairwise (fun a b : Nat × Nat => a.1 < b.1) es)
    (hnodup : (css.flatten.map Prod.fst).Nodup) (j : Nat)
    (hj : j < (mergedList css).length) :
    ∃ c q, c < css.length ∧ q < (css.getD c []).length ∧
      (css.getD c []).getD q (0, 0) = (mergedList css).getD j (0, 0) ∧
      childOf css ((mergedList css).getD j (0, 0)).1 = some c ∧
      ((css.getD c []).findIdx? fun p =>
        ((mergedList css).getD j (0, 0)).1 ≤ p.1) = some q ∧
      posLastLE (css.getD c []) ((mergedList css).getD j (0, 0)).1 =
        some q := by
  have hmem : (mergedList css).getD j (0, 0) ∈ mergedList css :=
    getD_mem _ _ _ hj
  have hflat : (mergedList css).getD j (0, 0) ∈ css.flatten :=
    (mem_mergedList css _).mp hmem
  obtain ⟨c, hc, he⟩ := owner_exists css _ hflat
  obtain ⟨q, hq, hqe⟩ := List.getElem_of_mem he
  have hqd : (css.getD c []).getD q (0, 0) =
      (mergedList css).getD j (0, 0) := by
    rwa [List.getD_eq_getElem _ _ hq]
  have hsc := hsorted (css.getD c []) (getD_mem css c [] hc)
  refine ⟨c, q, hc, hq, hqd, ?_, ?_, ?_⟩
  · exact childOf_spec css hnodup _ c hc _ he rfl
  · exact seek_pos_at_key _ hsc q _ hq (by rw [hqd])
  · exact lastLE_pos_at_key _ hsc q _ hq (by rw [hqd])

/-- Length of the forward shape. -/
theorem fwdChildren_length (css : List (List (Nat × Nat))) (K : Nat) :
    (fwdChildren css K).length = css.length := by
  simp [fwdChildren]

/-- Length of the reverse shape. -/
theorem revChildren_length (css : List (List (Nat × Nat))) (K : Nat) :
    (revChildren css K).length = css.length := by
  simp [revChildren]

/-- On the forward shape for the key at merged position `j`, `FindSmallest`
selects the key's owner. -/
theorem findSmallestIdx_fwdChildren (css : List (List (Nat × Nat)))
    (hsorted : ∀ es ∈ css,
      List.Pairwise (fun a b : Nat × Nat => a.1 < b.1) es)
    (hnodup : (css.flatten.map Prod.fst).Nodup) (j : Nat)
    (hj : j < (mergedList css).length) :
    findSmallestIdx (fwdChildren css ((mergedList css).getD j (0, 0)).1) =
      childOf css ((mergedList css).getD j (0, 0)).1 := by
  obtain ⟨c, q, hc, hq, hqd, hcof, hseek, hlast⟩ :=
    merged_owner css hsorted hnodup j hj
  have hK : ((css.getD c []).getD q (0, 0)).1 =
      ((mergedList css).getD j (0, 0)).1 := by rw [hqd]
  have hrun := findSmallestFrom_at ((mergedList css).getD j (0, 0)).1
    (fwdChildren css ((mergedList css).getD j (0, 0)).1) 0 c
    (by rw [fwdChildren_length]; exact hc)
    (by rw [fwdChildren_getD _ _ _ hc]
        unfold ChildIter.valid
        rw [hseek]
        rfl)
    (by rw [fwdChildren_getD _ _ _ hc]
        unfold ChildIter.key
        rw [hseek]
        exact hK)
    ?_ ?_
  · unfold findSmallestIdx
    rw [hrun, hcof]
    simp
  · intro i hi hv
    rw [fwdChildren_length] at hi
    rw [fwdChildren_getD _ _ _ hi] at hv ⊢
    unfold ChildIter.valid at hv
    unfold ChildIter.key
    cases hpos : (css.getD i []).findIdx? fun p =>
        ((mergedList css).getD j (0, 0)).1 ≤ p.1 with
    | none => rw [hpos] at hv; simp at hv
    | some n =>
      simpa using (seek_pos_bound _ _ _ hpos).2
  · intro i hi hne hv
    rw [fwdChildren_length] at hi
    rw [fwdChildren_getD _ _ _ hi] at hv ⊢
    unfold ChildIter.valid at hv
    unfold ChildIter.key
    cases hpos : (css.getD i []).findIdx? fun p =>
        ((mergedList css).getD j (0, 0)).1 ≤ p.1 with
    | none => rw [hpos] at hv; simp at hv
    | some n =>
      have hb := seek_pos_bound _ _ _ hpos
      have hmem := getD_mem (css.getD i []) n (0, 0) hb.1
      have hmem2 : (css.getD c []).getD q (0, 0) ∈ css.getD c [] :=
        getD_mem _ _ _ hq
      have := shape_key_ne css hnodup i c hi hc hne _ _ hmem hmem2
      rw [hK] at this
      simpa using this

/-- On the reverse shape for the key at merged position `j`, `FindLargest`
selects the key's owner. -/
theorem findLargestIdx_revChildren (css : List (List (Nat × Nat)))
    (hsorted : ∀ es ∈ css,
      List.Pairwise (fun a b : Nat × Nat => a.1 < b.1) es)
    (hnodup : (css.flatten.map Prod.fst).Nodup) (j : Nat)
    (hj : j < (mergedList css).length) :
    findLargestIdx (revChildren css ((mergedList css).getD j (0, 0)).1) =
      childOf css ((mergedList css).getD j (0, 0)).1 := by
  obtain ⟨c, q, hc, hq, hqd, hcof, hseek, hlast⟩ :=
    merged_owner css hsorted hnodup j hj
  have hK : ((css.getD c []).getD q (0, 0)).1 =
      ((mergedList css).getD j (0, 0)).1 := by rw [hqd]
  have hrun := findLargestFrom_at ((mergedList css).getD j (0, 0)).1
    (revChildren css ((mergedList css).getD j (0, 0)).1) 0 c
    (by rw [revChildren_length]; exact hc)
    (by rw [revChildren_getD _ _ _ hc]
        unfold ChildIter.valid
        rw [hlast]
        rfl)
    (by rw [revChildren_getD _ _ _ hc]
        unfold ChildIter.key
        rw [hlast]
        exact hK)
    ?_ ?_
  · unfold findLargestIdx
    rw [hrun, hcof]
    simp
  · intro i hi hv
    rw [revChildren_length] at hi
    rw [revChildren_getD _ _ _ hi] at hv ⊢
    unfold ChildIter.valid at hv
    unfold ChildIter.key
    cases hpos : posLastLE (css.getD i [])
        ((mergedList css).getD j (0, 0)).1 with
    | none => rw [hpos] at hv; simp at hv
    | some n =>
      simpa using (lastLE_pos_bound _ _ _ hpos).2
  · intro i hi hne hv
    rw [revChildren_length] at hi
    rw [revChildren_getD _ _ _ hi] at hv ⊢
    unfold ChildIter.valid at hv
    unfold ChildIter.key
    cases hpos : posLastLE (css.getD i [])
        ((mergedList css).getD j (0, 0)).1 with
    | none => rw [hpos] at hv; simp at hv
    | some n =>
      have hb := lastLE_pos_bound _ _ _ hpos
      have hmem := getD_mem (css.getD i []) n (0, 0) hb.1
      have hmem2 : (css.getD c []).getD q (0, 0) ∈ css.getD c [] :=
        getD_mem _ _ _ hq
      have := shape_key_ne css hnodup i c hi hc hne _ _ hmem hmem2
      rw [hK] at this
      simpa using this

/-- `Seek` when every key qualifies: land on the first entry. -/
theorem seek_all_ge (es : List (Nat × Nat)) (t : Nat)
    (h : ∀ p ∈ es, t ≤ p.1) :
    (es.findIdx? fun p => t ≤ p.1) =
      if es.length = 0 then none else some 0 := by
  cases es with
  | nil => rfl
  | cons a l =>
    rw [List.findIdx?_cons, if_pos (by simp [h a (by simp)])]
    rw [if_neg (by simp)]

/-- `Seek` when no key qualifies: invalid. -/
theorem seek_none_of_all_lt (es : List (Nat × Nat)) (t : Nat)
    (h : ∀ p ∈ es, p.1 < t) :
    (es.findIdx? fun p => t ≤ p.1) = none := by
  rw [findIdx?_eq_takeWhile_not]
  have htw : (es.takeWhile fun x => !(decide (t ≤ x.1))) = es := by
    rw [List.takeWhile_eq_self_iff]
    intro x hx
    simp
    have := h x hx
    omega
  rw [htw]
  simp

/-- The reverse position when every key qualifies: the last entry. -/
theorem lastLE_all_le (es : List (Nat × Nat)) (t : Nat)
    (h : ∀ p ∈ es, p.1 ≤ t) :
    posLastLE es t = if es.length = 0 then none else some (es.length - 1) := by
  unfold posLastLE
  have htw : (es.takeWhile fun p => decide (p.1 ≤ t)) = es := by
    rw [List.takeWhile_eq_self_iff]
    intro x hx
    simp
    exact h x hx
  rw [htw]
  cases es with
  | nil => rfl
  | cons a l => simp

/-- The reverse position when no key qualifies: invalid. -/
theorem lastLE_none_of_all_gt (es : List (Nat × Nat)) (t : Nat)
    (h : ∀ p ∈ es, t < p.1) :
    posLastLE es t = none := by
  unfold posLastLE
  have htw : (es.takeWhile fun p => decide (p.1 ≤ t)).length = 0 := by
    refine takeWhile_length_eq _ (0, 0) es 0 (by omega) (by omega) ?_
    intro hlt
    have := h _ (getD_mem es 0 (0, 0) hlt)
    simp only [decide_eq_false_iff_not]
    omega
  rw [htw]

/-- Rewriting a uniform child transformation as a shape over the entry
lists. -/
theorem children_map_shape (ch : List ChildIter)
    (css : List (List (Nat × Nat))) (hme : ch.map ChildIter.entries = css)
    (f : ChildIter → ChildIter) (g : List (Nat × Nat) → Option Nat)
    (hf : ∀ c ∈ ch, f c = ⟨c.entries, g c.entries⟩) :
    ch.map f = css.map fun es => ⟨es, g es⟩ := by
  subst hme
  rw [List.map_map]
  refine (List.map_congr_left fun c hc => ?_).symm
  simp only [Function.comp_apply]
  exact (hf c hc).symm

/-- Child lists agreeing positionally are equal. -/
theorem childList_ext (cs1 cs2 : List ChildIter)
    (hlen : cs1.length = cs2.length)
    (h : ∀ i, i < cs1.length →
      cs1.getD i ⟨[], none⟩ = cs2.getD i ⟨[], none⟩) : cs1 = cs2 := by
  refine List.ext_getElem hlen fun i h1 h2 => ?_
  have h3 := h i h1
  rwa [List.getD_eq_getElem _ _ h1, List.getD_eq_getElem _ _ h2] at h3

/-- `getD` after `set`. -/
theorem set_getD (l : List ChildIter) (n i : Nat) (a : ChildIter)
    (hi : i < l.length) :
    (l.set n a).getD i ⟨[], none⟩ =
      if n = i then a else l.getD i ⟨[], none⟩ := by
  rw [List.getD_eq_getElem _ _ (by simpa using hi), List.getElem_set]
  by_cases h : n = i
  · rw [if_pos h, if_pos h]
  · rw [if_neg h, if_neg h, List.getD_eq_getElem _ _ hi]

/-- An all-empty children state: the merge of no entries. -/
theorem merged_empty_children (css : List (List (Nat × Nat)))
    (hM : (mergedList css).length = 0) :
    ∀ es ∈ css, es = [] := by
  have hfl : css.flatten.length = 0 := by
    rw [← (mergedList_perm css).length_eq]
    exact hM
  intro es hes
  rw [List.eq_nil_iff_forall_not_mem]
  intro p hp
  have : p ∈ css.flatten := List.mem_flatten.mpr ⟨es, hes, hp⟩
  rw [List.length_eq_zero] at hfl
  rw [hfl] at this
  simp at this

/-- `SeekToFirst` preserves the bisimulation invariant. -/
theorem mergeInv_seekToFirst (css : List (List (Nat × Nat)))
    (m : MergeIter) (r : ChildIter)
    (hsorted : ∀ es ∈ css,
      List.Pairwise (fun a b : Nat × Nat => a.1 < b.1) es)
    (hnodup : (css.flatten.map Prod.fst).Nodup)
    (hinv : mergeInv css m r) :
    mergeInv css m.seekToFirst r.seekToFirst := by
  obtain ⟨hre, hme, _⟩ := hinv
  have hmap := children_map_shape m.children css hme ChildIter.seekToFirst
    (fun es => if es.length = 0 then none else some 0) (fun c _ => rfl)
  simp only [MergeIter.seekToFirst, ChildIter.seekToFirst, mergeInv]
  refine ⟨by simpa using hre, ?_, ?_⟩
  · rw [hmap, List.map_map]
    simp [Function.comp_def]
  · rw [hre]
    by_cases hM : (mergedList css).length = 0
    · rw [if_pos hM]
      have hempty := merged_empty_children css hM
      unfold findSmallestIdx
      rw [hmap, findSmallestFrom_none _ _ ?_]
      · rfl
      · intro c hc
        obtain ⟨es, hes, rfl⟩ := List.mem_map.mp hc
        rw [hempty es hes]
        rfl
    · rw [if_neg (by
        intro h0
        rw [h0] at hM
        simp at hM)]
      have hshape : m.children.map ChildIter.seekToFirst =
          fwdChildren css ((mergedList css).getD 0 (0, 0)).1 := by
        rw [hmap]
        unfold fwdChildren
        refine List.map_congr_left fun es hes => ?_
        congr 1
        refine (seek_all_ge es _ ?_).symm
        intro p hp
        exact merged_min css hnodup (by omega) p
          (List.mem_flatten.mpr ⟨es, hes, hp⟩)
      refine ⟨by omega, Or.inl ⟨hshape, by trivial⟩, ?_⟩
      rw [hshape]
      exact findSmallestIdx_fwdChildren css hsorted hnodup 0 (by omega)

/-- `SeekToLast` preserves the bisimulation invariant. -/
theorem mergeInv_seekToLast (css : List (List (Nat × Nat)))
    (m : MergeIter) (r : ChildIter)
    (hsorted : ∀ es ∈ css,
      List.Pairwise (fun a b : Nat × Nat => a.1 < b.1) es)
    (hnodup : (css.flatten.map Prod.fst).Nodup)
    (hinv : mergeInv css m r) :
    mergeInv css m.seekToLast r.seekToLast := by
  obtain ⟨hre, hme, _⟩ := hinv
  have hmap := children_map_shape m.children css hme ChildIter.seekToLast
    (fun es => if es.length = 0 then none else some (es.length - 1))
    (fun c _ => rfl)
  simp only [MergeIter.seekToLast, ChildIter.seekToLast, mergeInv]
  refine ⟨by simpa using hre, ?_, ?_⟩
  · rw [hmap, List.map_map]
    simp [Function.comp_def]
  · rw [hre]
    by_cases hM : (mergedList css).length = 0
    · rw [if_pos hM]
      have hempty := merged_empty_children css hM
      unfold findLargestIdx
      rw [hmap, findLargestFrom_none _ _ ?_]
      · rfl
      · intro c hc
        obtain ⟨es, hes, rfl⟩ := List.mem_map.mp hc
        rw [hempty es hes]
        rfl
    · rw [if_neg (by
        intro h0
        rw [h0] at hM
        simp at hM)]
      have hshape : m.children.map ChildIter.seekToLast =
          revChildren css ((mergedList css).getD
            ((mergedList css).length - 1) (0, 0)).1 := by
        rw [hmap]
        unfold revChildren
        refine List.map_congr_left fun es hes => ?_
        congr 1
        refine (lastLE_all_le es _ ?_).symm
        intro p hp
        exact merged_max css hnodup (by omega) p
          (List.mem_flatten.mpr ⟨es, hes, hp⟩)
      refine ⟨by omega, Or.inr ⟨hshape, by trivial⟩, ?_⟩
      rw [hshape]
      exact findLargestIdx_revChildren css hsorted hnodup
        ((mergedList css).length - 1) (by omega)

/-- `Seek` preserves the bisimulation invariant. -/
theorem mergeInv_seek (css : List (List (Nat × Nat)))
    (m : MergeIter) (r : ChildIter) (t : Nat)
    (hsorted : ∀ es ∈ css,
      List.Pairwise (fun a b : Nat × Nat => a.1 < b.1) es)
    (hnodup : (css.flatten.map Prod.fst).Nodup)
    (hinv : mergeInv css m r) :
    mergeInv css (m.seek t) (r.seek t) := by
  obtain ⟨hre, hme, _⟩ := hinv
  have hmap := children_map_shape m.children css hme (ChildIter.seek · t)
    (fun es => es.findIdx? fun p : Nat × Nat => t ≤ p.1)
    (fun c _ => rfl)
  have hrent : (r.seek t).entries = r.entries := rfl
  have hrpos : (r.seek t).pos =
      r.entries.findIdx? fun p : Nat × Nat => t ≤ p.1 := rfl
  simp only [MergeIter.seek, mergeInv]
  refine ⟨by rw [hrent]; exact hre, ?_, ?_⟩
  · rw [hmap, List.map_map]
    simp [Function.comp_def]
  · rw [hrpos, hre]
    rw [findIdx?_eq_takeWhile_not]
    by_cases hM : ((mergedList css).takeWhile fun x =>
        !(decide (t ≤ x.1))).length < (mergedList css).length
    · rw [if_pos hM]
      have hj : 0 + ((mergedList css).takeWhile fun x =>
          !(decide (t ≤ x.1))).length < (mergedList css).length := by omega
      have hsp2 := (takeWhile_spec (fun x => !(decide (t ≤ x.1)))
        (0, 0) (mergedList css)).2 hM
      simp only [Bool.not_eq_false', decide_eq_true_eq] at hsp2
      have hsp1 := (takeWhile_spec (fun x => !(decide (t ≤ x.1)))
        (0, 0) (mergedList css)).1
      have hshape : m.children.map (ChildIter.seek · t) =
          fwdChildren css ((mergedList css).getD
            (0 + ((mergedList css).takeWhile fun x =>
              !(decide (t ≤ x.1))).length) (0, 0)).1 := by
        rw [hmap]
        unfold fwdChildren
        refine List.map_congr_left fun es hes => ?_
        congr 1
        refine findIdx?_congr_mem _ _ es 0 fun p hp => ?_
        have hpf : p ∈ css.flatten := List.mem_flatten.mpr ⟨es, hes, hp⟩
        obtain ⟨ip, hip, hipe⟩ := mem_merged_pos css p hpf
        simp only [Nat.zero_add, decide_eq_decide]
        constructor
        · intro hge
          rcases Nat.lt_or_ge ip ((mergedList css).takeWhile fun x =>
              !(decide (t ≤ x.1))).length with h2 | h2
          · exfalso
            have h3 := hsp1 ip (by omega)
            simp only [Bool.not_eq_false', decide_eq_true_eq,
              Bool.not_eq_true', decide_eq_false_iff_not] at h3
            rw [hipe] at h3
            omega
          · rcases Nat.lt_or_ge (((mergedList css).takeWhile fun x =>
                !(decide (t ≤ x.1))).length) ip with h3 | h3
            · have h4 := merged_getD_lt css hnodup _ ip (by omega) hip h3
              rw [hipe] at h4
              omega
            · have h4 : ip = ((mergedList css).takeWhile fun x =>
                  !(decide (t ≤ x.1))).length := by omega
              rw [h4] at hipe
              rw [← hipe]
        · intro hge
          rw [← hipe] at hge ⊢
          have h5 : t ≤ ((mergedList css).getD (0 +
              ((mergedList css).takeWhile fun x =>
                !(decide (t ≤ x.1))).length) (0, 0)).1 := by
            simpa using hsp2
          rcases Nat.lt_or_ge ip (((mergedList css).takeWhile fun x =>
              !(decide (t ≤ x.1))).length) with h2 | h2
          · exfalso
            have h6 := merged_getD_lt css hnodup ip _ hip (by omega) h2
            simp only [Nat.zero_add] at hge h6
            omega
          · omega
      refine ⟨hj, Or.inl ⟨hshape, by trivial⟩, ?_⟩
      rw [hshape]
      exact findSmallestIdx_fwdChildren css hsorted hnodup _ hj
    · rw [if_neg hM]
      have hlen2 : ((mergedList css).takeWhile fun x =>
          !(decide (t ≤ x.1))).length = (mergedList css).length := by
        have h9 : ((mergedList css).takeWhile fun x =>
            !(decide (t ≤ x.1))) <+: mergedList css :=
          List.takeWhile_prefix _
        have h10 := h9.length_le
        omega
      have hall := takeWhile_all _ _ hlen2
      unfold findSmallestIdx
      rw [hmap, findSmallestFrom_none _ _ ?_]
      · rfl
      · intro c hc
        obtain ⟨es, hes, rfl⟩ := List.mem_map.mp hc
        show ((es.findIdx? fun p : Nat × Nat => t ≤ p.1)).isSome = false
        rw [seek_none_of_all_lt es t ?_]
        · rfl
        · intro p hp
          have hpf : p ∈ css.flatten := List.mem_flatten.mpr ⟨es, hes, hp⟩
          have hpm : p ∈ mergedList css := (mem_mergedList css p).mpr hpf
          have := hall p hpm
          simp only [Bool.not_eq_true', decide_eq_false_iff_not] at this
          omega

/-- A successful `findIdx?` marks the end of the failing prefix. -/
theorem findIdx?_some_tw (p2 : (Nat × Nat) → Bool)
    (es : List (Nat × Nat)) (n : Nat) (h : es.findIdx? p2 = some n) :
    (es.takeWhile fun x => !(p2 x)).length = n ∧ n < es.length := by
  rw [findIdx?_eq_takeWhile_not] at h
  by_cases hlt : (es.takeWhile fun x => !(p2 x)).length < es.length
  · rw [if_pos hlt] at h
    simp at h
    omega
  · rw [if_neg hlt] at h
    simp at h

/-- A failed `findIdx?` means the predicate fails on every member. -/
theorem findIdx?_none_all (p2 : (Nat × Nat) → Bool)
    (es : List (Nat × Nat)) (h : es.findIdx? p2 = none) :
    ∀ x ∈ es, p2 x = false := by
  rw [findIdx?_eq_takeWhile_not] at h
  by_cases hlt : (es.takeWhile fun x => !(p2 x)).length < es.length
  · rw [if_pos hlt] at h
    simp at h
  · have hle : (es.takeWhile fun x => !(p2 x)).length ≤ es.length := by
      have h9 : (es.takeWhile fun x => !(p2 x)) <+: es :=
        List.takeWhile_prefix _
      exact h9.length_le
    have hall := takeWhile_all (fun x => !(p2 x)) es (by omega)
    intro x hx
    have := hall x hx
    rwa [Bool.not_eq_true'] at this

/-- Setting a position to its own content is the identity. -/
theorem set_getD_self {α : Type} (l : List α) (n : Nat) (d : α)
    (hn : n < l.length) : l.set n (l.getD n d) = l := by
  refine List.ext_getElem (by simp) fun i h1 h2 => ?_
  rw [List.getElem_set]
  by_cases h : n = i
  · subst h
    rw [if_pos rfl, List.getD_eq_getElem _ _ hn]
  · rw [if_neg h]

/-- Entry lists of the forward shape. -/
theorem fwdChildren_entries (css : List (List (Nat × Nat))) (K : Nat) :
    (fwdChildren css K).map ChildIter.entries = css := by
  unfold fwdChildren
  rw [List.map_map]
  simp [Function.comp_def]

/-- Entry lists of the reverse shape. -/
theorem revChildren_entries (css : List (List (Nat × Nat))) (K : Nat) :
    (revChildren css K).map ChildIter.entries = css := by
  unfold revChildren
  rw [List.map_map]
  simp [Function.comp_def]

/-- Strict order between positions of a sorted entry list. -/
theorem sorted_getD_lt (es : List (Nat × Nat))
    (hs : List.Pairwise (fun a b : Nat × Nat => a.1 < b.1) es)
    (i j : Nat) (hj : j < es.length) (hij : i < j) :
    (es.getD i (0, 0)).1 < (es.getD j (0, 0)).1 := by
  have h := List.pairwise_iff_getElem.mp hs i j (by omega) hj hij
  rw [List.getD_eq_getElem _ _ (by omega : i < es.length),
    List.getD_eq_getElem _ _ hj]
  exact h

/-- The `Next` direction switch: seeking every non-current child of the
reverse shape to the current key (advancing it once on an exact hit) turns
the state into the forward shape. -/
theorem next_reposition (css : List (List (Nat × Nat)))
    (hsorted : ∀ es ∈ css,
      List.Pairwise (fun a b : Nat × Nat => a.1 < b.1) es)
    (hnodup : (css.flatten.map Prod.fst).Nodup) (j : Nat)
    (hj : j < (mergedList css).length) (c q : Nat) (hc : c < css.length)
    (hq : q < (css.getD c []).length)
    (hqd : (css.getD c []).getD q (0, 0) = (mergedList css).getD j (0, 0))
    (hseek : ((css.getD c []).findIdx? fun p =>
      ((mergedList css).getD j (0, 0)).1 ≤ p.1) = some q)
    (hlast : posLastLE (css.getD c [])
      ((mergedList css).getD j (0, 0)).1 = some q) :
    mapChildren (fun i cc =>
      if i = c then cc
      else
        if (cc.seek ((mergedList css).getD j (0, 0)).1).valid &&
            ((cc.seek ((mergedList css).getD j (0, 0)).1).key ==
              ((mergedList css).getD j (0, 0)).1) then
          (cc.seek ((mergedList css).getD j (0, 0)).1).next
        else cc.seek ((mergedList css).getD j (0, 0)).1) 0
      (revChildren css ((mergedList css).getD j (0, 0)).1) =
      fwdChildren css ((mergedList css).getD j (0, 0)).1 := by
  refine childList_ext _ _ ?_ ?_
  · rw [mapChildren_length, revChildren_length, fwdChildren_length]
  · intro i hi
    rw [mapChildren_length, revChildren_length] at hi
    rw [mapChildren_getD _ _ _ _ (by rwa [revChildren_length])]
    rw [revChildren_getD _ _ _ hi, fwdChildren_getD _ _ _ hi]
    simp only [Nat.zero_add]
    by_cases hic : i = c
    · rw [if_pos hic]
      subst hic
      rw [hlast, hseek]
    · rw [if_neg hic]
      have hseek2 : (⟨css.getD i [],
          posLastLE (css.getD i [])
            ((mergedList css).getD j (0, 0)).1⟩ : ChildIter).seek
          ((mergedList css).getD j (0, 0)).1 =
          ⟨css.getD i [], (css.getD i []).findIdx? fun p : Nat × Nat =>
            ((mergedList css).getD j (0, 0)).1 ≤ p.1⟩ := rfl
      rw [hseek2]
      cases hpos : (css.getD i []).findIdx? fun p : Nat × Nat =>
          ((mergedList css).getD j (0, 0)).1 ≤ p.1 with
      | none => simp [ChildIter.valid]
      | some n =>
        have hb := seek_pos_bound _ _ _ hpos
        have hne2 := shape_key_ne css hnodup i c hi hc hic _ _
          (getD_mem _ n (0, 0) hb.1) (getD_mem _ q (0, 0) hq)
        rw [hqd] at hne2
        have hcond : ((⟨css.getD i [], some n⟩ : ChildIter).valid &&
            ((⟨css.getD i [], some n⟩ : ChildIter).key ==
              ((mergedList css).getD j (0, 0)).1)) = false := by
          simp only [ChildIter.valid, ChildIter.key, Option.isSome_some,
            Bool.true_and, beq_eq_false_iff_ne, ne_eq]
          exact hne2
        rw [hcond, if_neg (by simp)]

/-- The `Prev` direction switch: seeking every non-current child of the
forward shape to the current key (then stepping back once, or to the last
entry) turns the state into the reverse shape. -/
theorem prev_reposition (css : List (List (Nat × Nat)))
    (hsorted : ∀ es ∈ css,
      List.Pairwise (fun a b : Nat × Nat => a.1 < b.1) es)
    (hnodup : (css.flatten.map Prod.fst).Nodup) (j : Nat)
    (hj : j < (mergedList css).length) (c q : Nat) (hc : c < css.length)
    (hq : q < (css.getD c []).length)
    (hqd : (css.getD c []).getD q (0, 0) = (mergedList css).getD j (0, 0))
    (hseek : ((css.getD c []).findIdx? fun p =>
      ((mergedList css).getD j (0, 0)).1 ≤ p.1) = some q)
    (hlast : posLastLE (css.getD c [])
      ((mergedList css).getD j (0, 0)).1 = some q) :
    mapChildren (fun i cc =>
      if i = c then cc
      else
        if (cc.seek ((mergedList css).getD j (0, 0)).1).valid then
          (cc.seek ((mergedList css).getD j (0, 0)).1).prev
        else (cc.seek ((mergedList css).getD j (0, 0)).1).seekToLast) 0
      (fwdChildren css ((mergedList css).getD j (0, 0)).1) =
      revChildren css ((mergedList css).getD j (0, 0)).1 := by
  refine childList_ext _ _ ?_ ?_
  · rw [mapChildren_length, fwdChildren_length, revChildren_length]
  · intro i hi
    rw [mapChildren_length, fwdChildren_length] at hi
    rw [mapChildren_getD _ _ _ _ (by rwa [fwdChildren_length])]
    rw [fwdChildren_getD _ _ _ hi, revChildren_getD _ _ _ hi]
    simp only [Nat.zero_add]
    by_cases hic : i = c
    · rw [if_pos hic]
      subst hic
      rw [hlast, hseek]
    · rw [if_neg hic]
      have hseek2 : (⟨css.getD i [],
          (css.getD i []).findIdx? fun p : Nat × Nat =>
            ((mergedList css).getD j (0, 0)).1 ≤ p.1⟩ : ChildIter).seek
          ((mergedList css).getD j (0, 0)).1 =
          ⟨css.getD i [], (css.getD i []).findIdx? fun p : Nat × Nat =>
            ((mergedList css).getD j (0, 0)).1 ≤ p.1⟩ := rfl
      rw [hseek2]
      have hcongr : (css.getD i []).takeWhile
          (fun p => decide (p.1 ≤ ((mergedList css).getD j (0, 0)).1)) =
          (css.getD i []).takeWhile fun x =>
            !(decide (((mergedList css).getD j (0, 0)).1 ≤ x.1)) := by
        refine takeWhile_congr_mem _ _ _ fun p hp => ?_
        have hne2 := shape_key_ne css hnodup i c hi hc hic _ _ hp
          (getD_mem _ q (0, 0) hq)
        rw [hqd] at hne2
        by_cases hple : p.1 ≤ ((mergedList css).getD j (0, 0)).1
        · rw [decide_eq_true hple]
          have h2 : ¬((mergedList css).getD j (0, 0)).1 ≤ p.1 := by omega
          rw [decide_eq_false h2]
          rfl
        · rw [decide_eq_false hple]
          have h2 : ((mergedList css).getD j (0, 0)).1 ≤ p.1 := by omega
          rw [decide_eq_true h2]
          rfl
      cases hpos : (css.getD i []).findIdx? fun p : Nat × Nat =>
          ((mergedList css).getD j (0, 0)).1 ≤ p.1 with
      | none =>
        have hall := findIdx?_none_all _ _ hpos
        have hfin : posLastLE (css.getD i [])
            ((mergedList css).getD j (0, 0)).1 =
            if (css.getD i []).length = 0 then none
            else some ((css.getD i []).length - 1) := by
          refine lastLE_all_le _ _ fun p hp => ?_
          have := hall p hp
          simp only [decide_eq_false_iff_not] at this
          omega
        rw [if_neg (by simp [ChildIter.valid])]
        have hstl : (⟨css.getD i [], (none : Option Nat)⟩ :
            ChildIter).seekToLast =
            ⟨css.getD i [], if (css.getD i []).length = 0 then none
              else some ((css.getD i []).length - 1)⟩ := rfl
        rw [hstl, hfin]
      | some n =>
        obtain ⟨htw, hn⟩ := findIdx?_some_tw _ _ _ hpos
        have hfin : posLastLE (css.getD i [])
            ((mergedList css).getD j (0, 0)).1 =
            if n = 0 then none else some (n - 1) := by
          unfold posLastLE
          rw [hcongr, htw]
          cases n with
          | zero => rfl
          | succ n2 => simp
        rw [if_pos (by simp [ChildIter.valid])]
        have hprev : (⟨css.getD i [], some n⟩ : ChildIter).prev =
            ⟨css.getD i [], if n = 0 then none else some (n - 1)⟩ := rfl
        rw [hprev, hfin]

/-- `FindSmallest` over positionally invalid children. -/
theorem findSmallestFrom_none_getD :
    ∀ (cs : List ChildIter) (base : Nat),
      (∀ i, i < cs.length → (cs.getD i ⟨[], none⟩).valid = false) →
      findSmallestFrom base cs = none := by
  intro cs
  induction cs with
  | nil => intro base _; rfl
  | cons c t ih =>
    intro base h
    rw [findSmallestFrom]
    rw [if_neg (by
      have := h 0 (by simp)
      rw [List.getD_cons_zero] at this
      simp [this])]
    refine ih _ fun i hi => ?_
    have := h (i + 1) (by simp; omega)
    rwa [List.getD_cons_succ] at this

/-- `FindLargest` over positionally invalid children. -/
theorem findLargestFrom_none_getD :
    ∀ (cs : List ChildIter) (base : Nat),
      (∀ i, i < cs.length → (cs.getD i ⟨[], none⟩).valid = false) →
      findLargestFrom base cs = none := by
  intro cs
  induction cs with
  | nil => intro base _; rfl
  | cons c t ih =>
    intro base h
    rw [findLargestFrom]
    rw [if_neg (by
      have := h 0 (by simp)
      rw [List.getD_cons_zero] at this
      simp [this])]
    refine ih _ fun i hi => ?_
    have := h (i + 1) (by simp; omega)
    rwa [List.getD_cons_succ] at this

/-- Advancing the owner of the forward shape one entry moves the whole
state to the forward shape of the next merged key. -/
theorem fwd_advance (css : List (List (Nat × Nat)))
    (hsorted : ∀ es ∈ css,
      List.Pairwise (fun a b : Nat × Nat => a.1 < b.1) es)
    (hnodup : (css.flatten.map Prod.fst).Nodup) (j : Nat)
    (hj1 : j + 1 < (mergedList css).length) (c q : Nat)
    (hc : c < css.length) (hq : q < (css.getD c []).length)
    (hqd : (css.getD c []).getD q (0, 0) =
      (mergedList css).getD j (0, 0)) :
    (fwdChildren css ((mergedList css).getD j (0, 0)).1).set c
      ⟨css.getD c [], if q + 1 < (css.getD c []).length then some (q + 1)
        else none⟩ =
      fwdChildren css ((mergedList css).getD (j + 1) (0, 0)).1 := by
  have hKK := merged_getD_lt css hnodup j (j + 1) (by omega) hj1 (by omega)
  have hsc := hsorted (css.getD c []) (getD_mem css c [] hc)
  refine childList_ext _ _ ?_ ?_
  · rw [List.length_set, fwdChildren_length, fwdChildren_length]
  · intro i hi
    rw [List.length_set, fwdChildren_length] at hi
    rw [set_getD _ _ _ _ (by rwa [fwdChildren_length])]
    rw [fwdChildren_getD css ((mergedList css).getD (j + 1) (0, 0)).1 i hi]
    by_cases hic : c = i
    · rw [if_pos hic]
      subst hic
      congr 1
      by_cases hql : q + 1 < (css.getD c []).length
      · rw [if_pos hql]
        refine Eq.symm ?_
        rw [findIdx?_eq_takeWhile_not]
        have htw : ((css.getD c []).takeWhile fun x =>
            !(decide (((mergedList css).getD (j + 1) (0, 0)).1 ≤
              x.1))).length = q + 1 := by
          refine takeWhile_length_eq _ (0, 0) _ (q + 1) (by omega) ?_ ?_
          · intro i2 hi2
            have hkey : ((css.getD c []).getD i2 (0, 0)).1 ≤
                ((mergedList css).getD j (0, 0)).1 := by
              rcases Nat.lt_or_ge i2 q with h3 | h3
              · have h4 := sorted_getD_lt _ hsc i2 q hq h3
                rw [hqd] at h4
                omega
              · have h4 : i2 = q := by omega
                rw [h4, hqd]
            simp only [Bool.not_eq_true', decide_eq_false_iff_not]
            omega
          · intro hlt2
            have hgt := sorted_getD_lt _ hsc q (q + 1) hlt2 (by omega)
            rw [hqd] at hgt
            have hmem := child_entry_flatten css c hc _
              (getD_mem _ (q + 1) (0, 0) hlt2)
            have hge := merged_no_gap css hnodup j hj1 _ hmem hgt
            simp only [Bool.not_eq_false', decide_eq_true_eq]
            exact hge
        rw [htw, if_pos (by omega)]
        simp
      · rw [if_neg hql]
        refine Eq.symm (seek_none_of_all_lt _ _ fun p hp => ?_)
        obtain ⟨i2, hi2, hi2e⟩ := List.getElem_of_mem hp
        have hpd : (css.getD c []).getD i2 (0, 0) = p := by
          rw [List.getD_eq_getElem _ _ hi2]
          exact hi2e
        have hkey : p.1 ≤ ((mergedList css).getD j (0, 0)).1 := by
          rcases Nat.lt_or_ge i2 q with h3 | h3
          · have h4 := sorted_getD_lt _ hsc i2 q hq h3
            rw [hqd, hpd] at h4
            omega
          · have h4 : i2 = q := by omega
            rw [h4] at hpd
            rw [← hpd, hqd]
        omega
    · rw [if_neg hic]
      rw [fwdChildren_getD css ((mergedList css).getD j (0, 0)).1 i hi]
      congr 1
      refine findIdx?_congr_mem _ _ _ 0 fun p hp => ?_
      have hne2 : p.1 ≠ ((mergedList css).getD j (0, 0)).1 := by
        have h5 := shape_key_ne css hnodup i c hi hc
          (fun h => hic h.symm) _ _ hp (getD_mem _ q (0, 0) hq)
        rwa [hqd] at h5
      have hpf := child_entry_flatten css i hi p hp
      simp only [decide_eq_decide]
      constructor
      · intro h5
        exact merged_no_gap css hnodup j hj1 p hpf (by omega)
      · intro h5
        omega

/-- Stepping the owner of the reverse shape back one entry moves the whole
state to the reverse shape of the previous merged key. -/
theorem rev_retreat (css : List (List (Nat × Nat)))
    (hsorted : ∀ es ∈ css,
      List.Pairwise (fun a b : Nat × Nat => a.1 < b.1) es)
    (hnodup : (css.flatten.map Prod.fst).Nodup) (j : Nat)
    (hj : j < (mergedList css).length) (hj0 : 0 < j) (c q : Nat)
    (hc : c < css.length) (hq : q < (css.getD c []).length)
    (hqd : (css.getD c []).getD q (0, 0) =
      (mergedList css).getD j (0, 0)) :
    (revChildren css ((mergedList css).getD j (0, 0)).1).set c
      ⟨css.getD c [], if q = 0 then none else some (q - 1)⟩ =
      revChildren css ((mergedList css).getD (j - 1) (0, 0)).1 := by
  have hKK := merged_getD_lt css hnodup (j - 1) j (by omega) hj (by omega)
  have hsc := hsorted (css.getD c []) (getD_mem css c [] hc)
  refine childList_ext _ _ ?_ ?_
  · rw [List.length_set, revChildren_length, revChildren_length]
  · intro i hi
    rw [List.length_set, revChildren_length] at hi
    rw [set_getD _ _ _ _ (by rwa [revChildren_length])]
    rw [revChildren_getD css ((mergedList css).getD (j - 1) (0, 0)).1 i hi]
    by_cases hic : c = i
    · rw [if_pos hic]
      subst hic
      congr 1
      refine Eq.symm ?_
      unfold posLastLE
      have htw : ((css.getD c []).takeWhile fun p =>
          decide (p.1 ≤ ((mergedList css).getD (j - 1) (0, 0)).1)).length =
          q := by
        refine takeWhile_length_eq _ (0, 0) _ q (by omega) ?_ ?_
        · intro i2 hi2
          have h4 := sorted_getD_lt _ hsc i2 q hq hi2
          rw [hqd] at h4
          have hmem := child_entry_flatten css c hc _
            (getD_mem _ i2 (0, 0) (by omega))
          have hle := merged_no_gap_down css hnodup j hj hj0 _ hmem h4
          simp only [decide_eq_true_eq]
          exact hle
        · intro _
          rw [hqd]
          simp only [decide_eq_false_iff_not]
          omega
      rw [htw]
      cases q with
      | zero => rfl
      | succ q2 => simp
    · rw [if_neg hic]
      rw [revChildren_getD css ((mergedList css).getD j (0, 0)).1 i hi]
      congr 1
      unfold posLastLE
      have hcg : (css.getD i []).takeWhile
          (fun p : Nat × Nat =>
            decide (p.1 ≤ ((mergedList css).getD j (0, 0)).1)) =
          (css.getD i []).takeWhile
            (fun p : Nat × Nat =>
              decide (p.1 ≤ ((mergedList css).getD (j - 1) (0, 0)).1)) := by
        refine takeWhile_congr_mem _ _ _ fun p hp => ?_
        have hne2 : p.1 ≠ ((mergedList css).getD j (0, 0)).1 := by
          have h5 := shape_key_ne css hnodup i c hi hc
            (fun h => hic h.symm) _ _ hp (getD_mem _ q (0, 0) hq)
          rwa [hqd] at h5
        have hpf := child_entry_flatten css i hi p hp
        simp only [decide_eq_decide]
        constructor
        · intro h5
          exact merged_no_gap_down css hnodup j hj hj0 p hpf (by omega)
        · intro h5
          omega
      rw [hcg]

/-- Advancing the owner past the last merged key invalidates every child
of the forward shape. -/
theorem fwd_exhaust (css : List (List (Nat × Nat)))
    (hsorted : ∀ es ∈ css,
      List.Pairwise (fun a b : Nat × Nat => a.1 < b.1) es)
    (hnodup : (css.flatten.map Prod.fst).Nodup) (j : Nat)
    (hj : j < (mergedList css).length)
    (hjl : ¬(j + 1 < (mergedList css).length)) (c q : Nat)
    (hc : c < css.length) (hq : q < (css.getD c []).length)
    (hqd : (css.getD c []).getD q (0, 0) =
      (mergedList css).getD j (0, 0)) :
    findSmallestIdx
      ((fwdChildren css ((mergedList css).getD j (0, 0)).1).set c
        ⟨css.getD c [], if q + 1 < (css.getD c []).length then
          some (q + 1) else none⟩) = none := by
  have hsc := hsorted (css.getD c []) (getD_mem css c [] hc)
  have hmax : ∀ p ∈ css.flatten,
      p.1 ≤ ((mergedList css).getD j (0, 0)).1 := by
    intro p hp
    have hje : (mergedList css).length - 1 = j := by omega
    have := merged_max css hnodup (by omega) p hp
    rwa [hje] at this
  have hql : ¬(q + 1 < (css.getD c []).length) := by
    intro h
    have hgt := sorted_getD_lt _ hsc q (q + 1) h (by omega)
    rw [hqd] at hgt
    have hmem := child_entry_flatten css c hc _
      (getD_mem _ (q + 1) (0, 0) h)
    have := hmax _ hmem
    omega
  rw [if_neg hql]
  unfold findSmallestIdx
  rw [findSmallestFrom_none_getD _ 0 ?_]
  · rfl
  · intro i hi
    rw [List.length_set, fwdChildren_length] at hi
    rw [set_getD _ _ _ _ (by rwa [fwdChildren_length])]
    by_cases hic : c = i
    · rw [if_pos hic]
      rfl
    · rw [if_neg hic]
      rw [fwdChildren_getD css ((mergedList css).getD j (0, 0)).1 i hi]
      unfold ChildIter.valid
      rw [seek_none_of_all_lt _ _ ?_]
      · rfl
      · intro p hp
        have hne2 : p.1 ≠ ((mergedList css).getD j (0, 0)).1 := by
          have h5 := shape_key_ne css hnodup i c hi hc
            (fun h => hic h.symm) _ _ hp (getD_mem _ q (0, 0) hq)
          rwa [hqd] at h5
        have := hmax p (child_entry_flatten css i hi p hp)
        omega

/-- Stepping the owner back past the first merged key invalidates every
child of the reverse shape. -/
theorem rev_exhaust (css : List (List (Nat × Nat)))
    (hsorted : ∀ es ∈ css,
      List.Pairwise (fun a b : Nat × Nat => a.1 < b.1) es)
    (hnodup : (css.flatten.map Prod.fst).Nodup) (j : Nat)
    (hj : j < (mergedList css).length) (hj0 : ¬(0 < j)) (c q : Nat)
    (hc : c < css.length) (hq : q < (css.getD c []).length)
    (hqd : (css.getD c []).getD q (0, 0) =
      (mergedList css).getD j (0, 0)) :
    findLargestIdx
      ((revChildren css ((mergedList css).getD j (0, 0)).1).set c
        ⟨css.getD c [], if q = 0 then none else some (q - 1)⟩) = none := by
  have hsc := hsorted (css.getD c []) (getD_mem css c [] hc)
  have hj00 : j = 0 := by omega
  subst hj00
  have hmin : ∀ p ∈ css.flatten,
      ((mergedList css).getD 0 (0, 0)).1 ≤ p.1 := by
    intro p hp
    exact merged_min css hnodup (by omega) p hp
  have hq0 : q = 0 := by
    by_contra h
    have hgt := sorted_getD_lt _ hsc 0 q hq (by omega)
    rw [hqd] at hgt
    have hmem := child_entry_flatten css c hc _
      (getD_mem _ 0 (0, 0) (by omega))
    have := hmin _ hmem
    omega
  rw [if_pos hq0]
  unfold findLargestIdx
  rw [findLargestFrom_none_getD _ 0 ?_]
  · rfl
  · intro i hi
    rw [List.length_set, revChildren_length] at hi
    rw [set_getD _ _ _ _ (by rwa [revChildren_length])]
    by_cases hic : c = i
    · rw [if_pos hic]
      rfl
    · rw [if_neg hic]
      rw [revChildren_getD css ((mergedList css).getD 0 (0, 0)).1 i hi]
      unfold ChildIter.valid
      rw [lastLE_none_of_all_gt _ _ ?_]
      · rfl
      · intro p hp
        have hne2 : p.1 ≠ ((mergedList css).getD 0 (0, 0)).1 := by
          have h5 := shape_key_ne css hnodup i c hi hc
            (fun h => hic h.symm) _ _ hp (getD_mem _ q (0, 0) hq)
          rwa [hqd] at h5
        have := hmin p (child_entry_flatten css i hi p hp)
        omega

/-- Core of `Next`: advancing the owner of the forward shape and
re-selecting the smallest child reaches the invariant state for the next
merged position. -/
theorem next_core (css : List (List (Nat × Nat)))
    (hsorted : ∀ es ∈ css,
      List.Pairwise (fun a b : Nat × Nat => a.1 < b.1) es)
    (hnodup : (css.flatten.map Prod.fst).Nodup) (j : Nat)
    (hj : j < (mergedList css).length) (c q : Nat) (hc : c < css.length)
    (hq : q < (css.getD c []).length)
    (hqd : (css.getD c []).getD q (0, 0) = (mergedList css).getD j (0, 0))
    (hseek : ((css.getD c []).findIdx? fun p =>
      ((mergedList css).getD j (0, 0)).1 ≤ p.1) = some q) :
    mergeInv css
      ⟨(fwdChildren css ((mergedList css).getD j (0, 0)).1).set c
          ((fwdChildren css
            ((mergedList css).getD j (0, 0)).1).getD c ⟨[], none⟩).next,
        findSmallestIdx
          ((fwdChildren css ((mergedList css).getD j (0, 0)).1).set c
            ((fwdChildren css
              ((mergedList css).getD j (0, 0)).1).getD c ⟨[], none⟩).next),
        MDirection.forward⟩
      ⟨mergedList css,
        if j + 1 < (mergedList css).length then some (j + 1) else none⟩ := by
  have howner : (fwdChildren css
      ((mergedList css).getD j (0, 0)).1).getD c ⟨[], none⟩ =
      ⟨css.getD c [], some q⟩ := by
    rw [fwdChildren_getD _ _ _ hc, hseek]
  have hnext : (⟨css.getD c [], some q⟩ : ChildIter).next =
      ⟨css.getD c [], if q + 1 < (css.getD c []).length then some (q + 1)
        else none⟩ := rfl
  rw [howner, hnext]
  refine ⟨rfl, ?_, ?_⟩
  · rw [List.map_set, fwdChildren_entries]
    exact set_getD_self css c [] hc
  · by_cases hjl : j + 1 < (mergedList css).length
    · rw [if_pos hjl]
      have hcs2 := fwd_advance css hsorted hnodup j hjl c q hc hq hqd
      refine ⟨hjl, Or.inl ⟨hcs2, by trivial⟩, ?_⟩
      rw [hcs2]
      exact findSmallestIdx_fwdChildren css hsorted hnodup (j + 1) hjl
    · rw [if_neg hjl]
      exact fwd_exhaust css hsorted hnodup j hj hjl c q hc hq hqd

/-- Core of `Prev`: stepping the owner of the reverse shape back and
re-selecting the largest child reaches the invariant state for the
previous merged position. -/
theorem prev_core (css : List (List (Nat × Nat)))
    (hsorted : ∀ es ∈ css,
      List.Pairwise (fun a b : Nat × Nat => a.1 < b.1) es)
    (hnodup : (css.flatten.map Prod.fst).Nodup) (j : Nat)
    (hj : j < (mergedList css).length) (c q : Nat) (hc : c < css.length)
    (hq : q < (css.getD c []).length)
    (hqd : (css.getD c []).getD q (0, 0) = (mergedList css).getD j (0, 0))
    (hlast : posLastLE (css.getD c [])
      ((mergedList css).getD j (0, 0)).1 = some q) :
    mergeInv css
      ⟨(revChildren css ((mergedList css).getD j (0, 0)).1).set c
          ((revChildren css
            ((mergedList css).getD j (0, 0)).1).getD c ⟨[], none⟩).prev,
        findLargestIdx
          ((revChildren css ((mergedList css).getD j (0, 0)).1).set c
            ((revChildren css
              ((mergedList css).getD j (0, 0)).1).getD c ⟨[], none⟩).prev),
        MDirection.reverse⟩
      ⟨mergedList css, if j = 0 then none else some (j - 1)⟩ := by
  have howner : (revChildren css
      ((mergedList css).getD j (0, 0)).1).getD c ⟨[], none⟩ =
      ⟨css.getD c [], some q⟩ := by
    rw [revChildren_getD _ _ _ hc, hlast]
  have hprev : (⟨css.getD c [], some q⟩ : ChildIter).prev =
      ⟨css.getD c [], if q = 0 then none else some (q - 1)⟩ := rfl
  rw [howner, hprev]
  refine ⟨rfl, ?_, ?_⟩
  · rw [List.map_set, revChildren_entries]
    exact set_getD_self css c [] hc
  · by_cases hj0 : j = 0
    · rw [if_pos hj0]
      subst hj0
      exact rev_exhaust css hsorted hnodup 0 hj (by omega) c q hc hq hqd
    · rw [if_neg hj0]
      have hcs2 := rev_retreat css hsorted hnodup j hj (by omega) c q
        hc hq hqd
      refine ⟨by omega, Or.inr ⟨hcs2, by trivial⟩, ?_⟩
      rw [hcs2]
      exact findLargestIdx_revChildren css hsorted hnodup (j - 1)
        (by omega)

/-- `Next` preserves the bisimulation invariant on valid states. -/
theorem mergeInv_next (css : List (List (Nat × Nat)))
    (m : MergeIter) (r : ChildIter)
    (hsorted : ∀ es ∈ css,
      List.Pairwise (fun a b : Nat × Nat => a.1 < b.1) es)
    (hnodup : (css.flatten.map Prod.fst).Nodup)
    (hinv : mergeInv css m r) (hval : r.valid = true) :
    mergeInv css m.next r.next := by
  obtain ⟨hre, hme, hmatch⟩ := hinv
  cases hrpos : r.pos with
  | none =>
    unfold ChildIter.valid at hval
    rw [hrpos] at hval
    simp at hval
  | some j =>
    rw [hrpos] at hmatch
    obtain ⟨hj, hshape, hcur⟩ := hmatch
    obtain ⟨c, q, hc, hq, hqd, hcof, hseek, hlast⟩ :=
      merged_owner css hsorted hnodup j hj
    rw [hcof] at hcur
    have hchild : m.children.getD c ⟨[], none⟩ =
        ⟨css.getD c [], some q⟩ := by
      rcases hshape with ⟨hsh, hdir⟩ | ⟨hsh, hdir⟩
      · rw [hsh, fwdChildren_getD _ _ _ hc, hseek]
      · rw [hsh, revChildren_getD _ _ _ hc, hlast]
    have hkey : m.key = ((mergedList css).getD j (0, 0)).1 := by
      unfold MergeIter.key
      rw [hcur]
      show (m.children.getD c ⟨[], none⟩).key = _
      rw [hchild]
      show ((css.getD c []).getD q (0, 0)).1 = _
      rw [hqd]
    have hrnext : r.next = (⟨mergedList css,
        if j + 1 < (mergedList css).length then some (j + 1)
        else none⟩ : ChildIter) := by
      unfold ChildIter.next
      rw [hrpos, hre]
    rw [hrnext]
    rcases hshape with ⟨hsh, hdir⟩ | ⟨hsh, hdir⟩
    · simp only [MergeIter.next, hcur, hdir, hsh]
      exact next_core css hsorted hnodup j hj c q hc hq hqd hseek
    · simp only [MergeIter.next, hcur, hdir, hsh, hkey]
      rw [next_reposition css hsorted hnodup j hj c q hc hq hqd
        hseek hlast]
      exact next_core css hsorted hnodup j hj c q hc hq hqd hseek

/-- `Prev` preserves the bisimulation invariant on valid states. -/
theorem mergeInv_prev (css : List (List (Nat × Nat)))
    (m : MergeIter) (r : ChildIter)
    (hsorted : ∀ es ∈ css,
      List.Pairwise (fun a b : Nat × Nat => a.1 < b.1) es)
    (hnodup : (css.flatten.map Prod.fst).Nodup)
    (hinv : mergeInv css m r) (hval : r.valid = true) :
    mergeInv css m.prev r.prev := by
  obtain ⟨hre, hme, hmatch⟩ := hinv
  cases hrpos : r.pos with
  | none =>
    unfold ChildIter.valid at hval
    rw [hrpos] at hval
    simp at hval
  | some j =>
    rw [hrpos] at hmatch
    obtain ⟨hj, hshape, hcur⟩ := hmatch
    obtain ⟨c, q, hc, hq, hqd, hcof, hseek, hlast⟩ :=
      merged_owner css hsorted hnodup j hj
    rw [hcof] at hcur
    have hchild : m.children.getD c ⟨[], none⟩ =
        ⟨css.getD c [], some q⟩ := by
      rcases hshape with ⟨hsh, hdir⟩ | ⟨hsh, hdir⟩
      · rw [hsh, fwdChildren_getD _ _ _ hc, hseek]
      · rw [hsh, revChildren_getD _ _ _ hc, hlast]
    have hkey : m.key = ((mergedList css).getD j (0, 0)).1 := by
      unfold MergeIter.key
      rw [hcur]
      show (m.children.getD c ⟨[], none⟩).key = _
      rw [hchild]
      show ((css.getD c []).getD q (0, 0)).1 = _
      rw [hqd]
    have hrprev : r.prev = (⟨mergedList css,
        if j = 0 then none else some (j - 1)⟩ : ChildIter) := by
      unfold ChildIter.prev
      rw [hrpos, hre]
    rw [hrprev]
    rcases hshape with ⟨hsh, hdir⟩ | ⟨hsh, hdir⟩
    · simp only [MergeIter.prev, hcur, hdir, hsh, hkey]
      rw [prev_reposition css hsorted hnodup j hj c q hc hq hqd
        hseek hlast]
      exact prev_core css hsorted hnodup j hj c q hc hq hqd hlast
    · simp only [MergeIter.prev, hcur, hdir, hsh]
      exact prev_core css hsorted hnodup j hj c q hc hq hqd hlast

/-- The invariant forces equal observations: validity, key and value. -/
theorem mergeInv_obs (css : List (List (Nat × Nat))) (m : MergeIter)
    (r : ChildIter)
    (hsorted : ∀ es ∈ css,
      List.Pairwise (fun a b : Nat × Nat => a.1 < b.1) es)
    (hnodup : (css.flatten.map Prod.fst).Nodup)
    (hinv : mergeInv css m r) :
    m.valid = r.valid ∧ m.key = r.key ∧ m.val = r.val := by
  obtain ⟨hre, hme, hmatch⟩ := hinv
  cases hrpos : r.pos with
  | none =>
    rw [hrpos] at hmatch
    refine ⟨?_, ?_, ?_⟩
    · unfold MergeIter.valid ChildIter.valid
      rw [hmatch, hrpos]
    · unfold MergeIter.key ChildIter.key
      rw [hmatch, hrpos]
    · unfold MergeIter.val ChildIter.val
      rw [hmatch, hrpos]
  | some j =>
    rw [hrpos] at hmatch
    obtain ⟨hj, hshape, hcur⟩ := hmatch
    obtain ⟨c, q, hc, hq, hqd, hcof, hseek, hlast⟩ :=
      merged_owner css hsorted hnodup j hj
    rw [hcof] at hcur
    have hchild : m.children.getD c ⟨[], none⟩ =
        ⟨css.getD c [], some q⟩ := by
      rcases hshape with ⟨hsh, hdir⟩ | ⟨hsh, hdir⟩
      · rw [hsh, fwdChildren_getD _ _ _ hc, hseek]
      · rw [hsh, revChildren_getD _ _ _ hc, hlast]
    refine ⟨?_, ?_, ?_⟩
    · unfold MergeIter.valid ChildIter.valid
      rw [hcur, hrpos]
      rfl
    · unfold MergeIter.key ChildIter.key
      rw [hcur, hrpos]
      show (m.children.getD c ⟨[], none⟩).key =
        (r.entries.getD j (0, 0)).1
      rw [hchild, hre]
      show ((css.getD c []).getD q (0, 0)).1 = _
      rw [hqd]
    · unfold MergeIter.val ChildIter.val
      rw [hcur, hrpos]
      show (m.children.getD c ⟨[], none⟩).val =
        (r.entries.getD j (0, 0)).2
      rw [hchild, hre]
      show ((css.getD c []).getD q (0, 0)).2 = _
      rw [hqd]

/-- Fresh iterators satisfy the invariant. -/
theorem mergeInv_init (css : List (List (Nat × Nat))) :
    mergeInv css (mkMergeIter css) (mkMergedIter css) := by
  refine ⟨rfl, ?_, rfl⟩
  unfold mkMergeIter
  rw [List.map_map]
  simp [Function.comp_def]

/-- The invariant is preserved along every legal call sequence. -/
theorem mergeInv_run (css : List (List (Nat × Nat)))
    (hsorted : ∀ es ∈ css,
      List.Pairwise (fun a b : Nat × Nat => a.1 < b.1) es)
    (hnodup : (css.flatten.map Prod.fst).Nodup) :
    ∀ (ops : List ItOp) (m : MergeIter) (r : ChildIter),
      mergeInv css m r → legalFrom r ops = true →
      mergeInv css (m.run ops) (r.run ops) := by
  intro ops
  induction ops with
  | nil => intro m r hinv _; exact hinv
  | cons op ops ih =>
    intro m r hinv hleg
    simp only [MergeIter.run, ChildIter.run]
    cases op with
    | seekToFirst =>
      simp only [legalFrom, Bool.true_and] at hleg
      exact ih _ _ (mergeInv_seekToFirst css m r hsorted hnodup hinv) hleg
    | seekToLast =>
      simp only [legalFrom, Bool.true_and] at hleg
      exact ih _ _ (mergeInv_seekToLast css m r hsorted hnodup hinv) hleg
    | seek t =>
      simp only [legalFrom, Bool.true_and] at hleg
      exact ih _ _ (mergeInv_seek css m r t hsorted hnodup hinv) hleg
    | next =>
      simp only [legalFrom, Bool.and_eq_true] at hleg
      exact ih _ _ (mergeInv_next css m r hsorted hnodup hinv hleg.1)
        hleg.2
    | prev =>
      simp only [legalFrom, Bool.and_eq_true] at hleg
      exact ih _ _ (mergeInv_prev css m r hsorted hnodup hinv hleg.1)
        hleg.2

/-- C2 (amended): over children with per-child strictly sorted entries and
globally distinct keys, every call sequence that is legal on the
materialized merge yields the same final validity, key and value on the
merging iterator as on a single iterator over the materialized sorted
merge; with duplicate keys across children the equivalence fails (see the
counterexample). -/
theorem mergingIterator_materialized_equiv
    (css : List (List (Nat × Nat))) (ops : List ItOp)
    (hsorted : ∀ es ∈ css,
      List.Pairwise (fun a b : Nat × Nat => a.1 < b.1) es)
    (hnodup : (css.flatten.map Prod.fst).Nodup)
    (hlegal : legalFrom (mkMergedIter css) ops = true) :
    ((mkMergeIter css).run ops).valid =
        ((mkMergedIter css).run ops).valid ∧
      ((mkMergeIter css).run ops).key =
        ((mkMergedIter css).run ops).key ∧
      ((mkMergeIter css).run ops).val =
        ((mkMergedIter css).run ops).val :=
  mergeInv_obs css _ _ hsorted hnodup
    (mergeInv_run css hsorted hnodup ops _ _ (mergeInv_init css) hlegal)

/-- Counterexample to the claim as stated: with a key shared between two
children (each child still sorted with distinct keys), the legal sequence
`seek_to_last, prev, prev, next` observes a different key on the merging
iterator than on the materialized merge. -/
theorem mergingIterator_duplicate_key_cex :
    (∀ es ∈ cexChildren,
      List.Pairwise (fun a b : Nat × Nat => a.1 < b.1) es) ∧
      legalFrom (mkMergedIter cexChildren) cexOps = true ∧
      ¬(((mkMergeIter cexChildren).run cexOps).valid =
          ((mkMergedIter cexChildren).run cexOps).valid ∧
        ((mkMergeIter cexChildren).run cexOps).key =
          ((mkMergedIter cexChildren).run cexOps).key ∧
        ((mkMergeIter cexChildren).run cexOps).val =
          ((mkMergedIter cexChildren).run cexOps).val) := by
  decide

/-- Witness for the amended C2 theorem on concrete children with globally
distinct keys and the counterexample's call sequence. -/
theorem mergingIterator_materialized_equiv_witness :
    (∀ es ∈ witChildren,
      List.Pairwise (fun a b : Nat × Nat => a.1 < b.1) es) ∧
      (witChildren.flatten.map Prod.fst).Nodup ∧
      legalFrom (mkMergedIter witChildren) cexOps = true ∧
      (((mkMergeIter witChildren).run cexOps).valid =
          ((mkMergedIter witChildren).run cexOps).valid ∧
        ((mkMergeIter witChildren).run cexOps).key =
          ((mkMergedIter witChildren).run cexOps).key ∧
        ((mkMergeIter witChildren).run cexOps).val =
          ((mkMergedIter witChildren).run cexOps).val) :=
  ⟨by decide, by decide, by decide,
    mergingIterator_materialized_equiv witChildren cexOps (by decide)
      (by decide) (by decide)⟩

end LevelDB
